import Mathlib

/-!
# GPS anomaly detection: a shallow embedding of the two pipeline variants

The repository holds two implementations of one pipeline
(parse, detect, repair, serialize):

* `src/compiled_binaries/current_iteration.cpp`: coordinates are `double` degrees,
  the anomaly flag is a field of `Point` (namespace `CurrentIteration` below);
* `src/iteration_results/iteration_10_code.cpp`: coordinates are `int` microdegrees,
  the flags are a separate `std::vector<bool>` (namespace `Iteration10` below).

Modelling conventions.

* `std::vector` is a `List`; every `v[i]` is a checked access in the `Option` monad:
  `none` stands for an out-of-range access (undefined behaviour in the source).
* `int` is `Int`; `int - int` is `isub`, subtraction reduced to 32-bit two's complement.
* `double` is a type parameter `F` with its operations in a record `Arith F`; the C
  library functions used by `haversine` are a second record `Libm F`.  Theorems stated
  for every `F`, `Arith F`, `Libm F` hold in particular for IEEE-754 arithmetic.
  `Dbl` carries two interpretations: `Dbl.exact`, exact rational arithmetic extended by
  the IEEE special values, and `Dbl.ieee`, in which every result is rounded to binary64.
  They are used for concrete evaluations; on the values evaluated with `Dbl.exact` no
  operation rounds.
* `for` loops are `forRange lo hi body`, running `body lo, ..., body (hi - 1)`.
-/

/-! ## Machine integers -/

/-- Reduction of an integer to the 32-bit two's complement range. -/
def wrap32 (x : Int) : Int := (x + 2147483648) % 4294967296 - 2147483648

/-- The `int - int` of the source. -/
def isub (a b : Int) : Int := wrap32 (a - b)

/-- The range of `int`. -/
def isInt32 (z : Int) : Prop := -2147483648 ≤ z ∧ z ≤ 2147483647

/-! ## Doubles -/

/-- The operations on `double` that the detection and repair code uses. -/
structure Arith (F : Type) where
  /-- conversion `int -> double`, also used for the literals `0.0`, `1.0`, `2`, `50.0`,
  `180.0` and `6371000.0` -/
  ofInt : Int → F
  /-- the literal `1e-6` -/
  micro : F
  add : F → F → F
  sub : F → F → F
  mul : F → F → F
  div : F → F → F
  /-- the comparison `a < b`; `a > b` is `lt b a` -/
  lt : F → F → Bool
  /-- `std::round` -/
  round : F → F
  /-- the conversion `int(x)` of a double -/
  toInt : F → Int

/-- The `<cmath>` functions and the constant `M_PI` used by `haversine`. -/
structure Libm (F : Type) where
  pi : F
  sin : F → F
  cos : F → F
  sqrt : F → F
  atan2 : F → F → F

/-! ## Vectors and loops -/

/-- Checked write `v[i] = x`: `none` when `i` is out of range. -/
def setAt {α : Type} (v : List α) (i : Nat) (x : α) : Option (List α) :=
  if i < v.length then some (v.set i x) else none

/-- Runs `body i` for `i`, `i + 1`, ..., `i + k - 1`, threading the state. -/
def forLoop {σ : Type} (body : Nat → σ → Option σ) : Nat → Nat → σ → Option σ
  | _, 0, s => some s
  | i, k + 1, s => (body i s).bind (forLoop body (i + 1) k)

/-- The loop `for (size_t i = lo; i < hi; ++i) body`. -/
def forRange {σ : Type} (lo hi : Nat) (body : Nat → σ → Option σ) (s : σ) : Option σ :=
  forLoop body lo (hi - lo) s

namespace CurrentIteration

/-- `struct Point` of `current_iteration.cpp`. -/
structure Point (F : Type) where
  lat : F
  lon : F
  time : Int
  anomalous : Bool := false
deriving DecidableEq

/-- `deg2rad`: `deg * M_PI / 180.0`. -/
def deg2rad {F : Type} (A : Arith F) (L : Libm F) (deg : F) : F :=
  A.div (A.mul deg L.pi) (A.ofInt 180)

/-- `haversine` of `current_iteration.cpp`. -/
def haversine {F : Type} (A : Arith F) (L : Libm F) (lat1 lon1 lat2 lon2 : F) : F :=
  let R := A.ofInt 6371000
  let dlat := deg2rad A L (A.sub lat2 lat1)
  let dlon := deg2rad A L (A.sub lon2 lon1)
  let a := A.add (A.mul (L.sin (A.div dlat (A.ofInt 2))) (L.sin (A.div dlat (A.ofInt 2))))
    (A.mul (A.mul (A.mul (L.cos (deg2rad A L lat1)) (L.cos (deg2rad A L lat2)))
      (L.sin (A.div dlon (A.ofInt 2)))) (L.sin (A.div dlon (A.ofInt 2))))
  let c := A.mul (A.ofInt 2) (L.atan2 (L.sqrt a) (L.sqrt (A.sub (A.ofInt 1) a)))
  A.mul R c

/-- The speed of the edge from `p` to `q` as `detect_anomalies` computes it:
`(dt > 0) ? dist / dt : 0.0` with `double dt = q.time - p.time`. -/
def edgeSpeed {F : Type} (A : Arith F) (L : Libm F) (p q : Point F) : F :=
  let dist := haversine A L p.lat p.lon q.lat q.lon
  let dt := A.ofInt (isub q.time p.time)
  if A.lt (A.ofInt 0) dt then A.div dist dt else A.ofInt 0

/-- One iteration of the loop of `detect_anomalies`. -/
def detectStep {F : Type} (A : Arith F) (L : Libm F) (i : Nat) (points : List (Point F)) :
    Option (List (Point F)) := do
  let pm ← points[i - 1]?
  let pi ← points[i]?
  let pn ← points[i + 1]?
  let speed_prev := edgeSpeed A L pm pi
  let speed_next := edgeSpeed A L pi pn
  if A.lt (A.ofInt 50) speed_prev || A.lt (A.ofInt 50) speed_next then
    setAt points i { pi with anomalous := true }
  else
    some points

/-- `detect_anomalies` of `current_iteration.cpp`: the vector is updated in place. -/
def detect_anomalies {F : Type} (A : Arith F) (L : Libm F) (points : List (Point F)) :
    Option (List (Point F)) :=
  let n := points.length
  if n < 3 then some points
  else forRange 1 (n - 1) (detectStep A L) points

/-- The fraction of `correct_anomalies`: the quotient of the two time differences,
then `if (frac < 0.0) frac = 0.0; if (frac > 1.0) frac = 1.0;`. -/
def clampFrac {F : Type} (A : Arith F) (t tprev tnext : Int) : F :=
  let frac := A.div (A.ofInt (isub t tprev)) (A.ofInt (isub tnext tprev))
  let frac := if A.lt frac (A.ofInt 0) then A.ofInt 0 else frac
  if A.lt (A.ofInt 1) frac then A.ofInt 1 else frac

/-- The assignment `x = prev + (next - prev) * frac`. -/
def lerp {F : Type} (A : Arith F) (vprev vnext frac : F) : F :=
  A.add vprev (A.mul (A.sub vnext vprev) frac)

/-- One iteration of the loop of `correct_anomalies`. -/
def correctStep {F : Type} (A : Arith F) (i : Nat) (points : List (Point F)) :
    Option (List (Point F)) := do
  let pi ← points[i]?
  if pi.anomalous then
    let pm ← points[i - 1]?
    let pn ← points[i + 1]?
    let frac := clampFrac A pi.time pm.time pn.time
    setAt points i { pi with lat := lerp A pm.lat pn.lat frac, lon := lerp A pm.lon pn.lon frac }
  else
    some points

/-- `correct_anomalies` of `current_iteration.cpp`. -/
def correct_anomalies {F : Type} (A : Arith F) (points : List (Point F)) :
    Option (List (Point F)) :=
  let n := points.length
  if n < 3 then some points
  else forRange 1 (n - 1) (correctStep A) points

end CurrentIteration

namespace Iteration10

/-- `struct GPSPoint` of `iteration_10_code.cpp`: microdegrees and a timestamp. -/
structure GPSPoint where
  lat : Int
  lon : Int
  time : Int
deriving DecidableEq, Repr

/-- `haversine` of `iteration_10_code.cpp`, on microdegree integers. -/
def haversine {F : Type} (A : Arith F) (L : Libm F) (lat1 lon1 lat2 lon2 : Int) : F :=
  let dlat := A.mul (A.ofInt (isub lat2 lat1)) A.micro
  let dlon := A.mul (A.ofInt (isub lon2 lon1)) A.micro
  let alat1 := A.div (A.mul (A.mul (A.ofInt lat1) A.micro) L.pi) (A.ofInt 180)
  let alat2 := A.div (A.mul (A.mul (A.ofInt lat2) A.micro) L.pi) (A.ofInt 180)
  let dlat_rad := A.div (A.mul dlat L.pi) (A.ofInt 180)
  let dlon_rad := A.div (A.mul dlon L.pi) (A.ofInt 180)
  let a := A.add
    (A.mul (L.sin (A.div dlat_rad (A.ofInt 2))) (L.sin (A.div dlat_rad (A.ofInt 2))))
    (A.mul (A.mul (A.mul (L.cos alat1) (L.cos alat2)) (L.sin (A.div dlon_rad (A.ofInt 2))))
      (L.sin (A.div dlon_rad (A.ofInt 2))))
  let c := A.mul (A.ofInt 2) (L.atan2 (L.sqrt a) (L.sqrt (A.sub (A.ofInt 1) a)))
  A.mul (A.ofInt 6371000) c

/-- The test both loops of `detect_anomalies` apply to the edge from `p` to `q`:
`dt > 0` (the edge is not skipped) and `dist / dt > 50.0`. -/
def fastEdge {F : Type} (A : Arith F) (L : Libm F) (p q : GPSPoint) : Bool :=
  let dt := isub q.time p.time
  if dt ≤ 0 then false
  else
    let dist := haversine A L p.lat p.lon q.lat q.lon
    let speed := A.div dist (A.ofInt dt)
    A.lt (A.ofInt 50) speed

/-- Body of the first loop of `detect_anomalies`: the incoming edge of `i`. -/
def detectIn {F : Type} (A : Arith F) (L : Libm F) (points : List GPSPoint) (i : Nat)
    (is_anomaly : List Bool) : Option (List Bool) := do
  let pi ← points[i]?
  let pm ← points[i - 1]?
  if fastEdge A L pm pi then setAt is_anomaly i true else some is_anomaly

/-- Body of the second loop of `detect_anomalies`: the outgoing edge of `i`. -/
def detectOut {F : Type} (A : Arith F) (L : Libm F) (points : List GPSPoint) (i : Nat)
    (is_anomaly : List Bool) : Option (List Bool) := do
  let pn ← points[i + 1]?
  let pi ← points[i]?
  if fastEdge A L pi pn then setAt is_anomaly i true else some is_anomaly

/-- `detect_anomalies` of `iteration_10_code.cpp`.  The write `is_anomaly[0] = false`
is not guarded by `n > 0`; the write to `n - 1` is. -/
def detect_anomalies {F : Type} (A : Arith F) (L : Libm F) (points : List GPSPoint) :
    Option (List Bool) := do
  let n := points.length
  let is_anomaly := List.replicate n false
  let is_anomaly ← forRange 1 n (detectIn A L points) is_anomaly
  let is_anomaly ← forRange 0 (n - 1) (detectOut A L points) is_anomaly
  let is_anomaly ← setAt is_anomaly 0 false
  if n > 0 then setAt is_anomaly (n - 1) false else some is_anomaly

/-- The loop `while (prev > 0 && is_anomaly[prev]) --prev;`. -/
def findPrev (is_anomaly : List Bool) : Nat → Option Nat
  | 0 => some 0
  | prev + 1 => do
    let f ← is_anomaly[prev + 1]?
    if f then findPrev is_anomaly prev else some (prev + 1)

/-- The loop `while (next + 1 < n && is_anomaly[next]) ++next;`, with `k` the number of
indices left above `next`, that is `k = n - 1 - next`, so that `next + 1 < n` is `k > 0`. -/
def findNextAux (is_anomaly : List Bool) : Nat → Nat → Option Nat
  | next, 0 => some next
  | next, k + 1 => do
    let f ← is_anomaly[next]?
    if f then findNextAux is_anomaly (next + 1) k else some next

/-- The search for the next anchor, started at `next` in a vector of `n` points. -/
def findNext (is_anomaly : List Bool) (n next : Nat) : Option Nat :=
  findNextAux is_anomaly next (n - 1 - next)

/-- The value `int(std::round(vprev + alpha * (vnext - vprev)))` with
`alpha = double(t - t0) / (t1 - t0)`. -/
def interp {F : Type} (A : Arith F) (t0 t1 t : Int) (vprev vnext : Int) : Int :=
  let alpha := A.div (A.ofInt (isub t t0)) (A.ofInt (isub t1 t0))
  A.toInt (A.round (A.add (A.ofInt vprev) (A.mul alpha (A.ofInt (isub vnext vprev)))))

/-- One iteration of the loop of `correct_anomalies`; `is_anomaly[prev] || is_anomaly[next]`
reads `is_anomaly[next]` only when `is_anomaly[prev]` is false. -/
def correctStep {F : Type} (A : Arith F) (is_anomaly : List Bool) (n : Nat) (i : Nat)
    (points : List GPSPoint) : Option (List GPSPoint) := do
  let fi ← is_anomaly[i]?
  if !fi then some points
  else
    let prev ← findPrev is_anomaly (i - 1)
    let next ← findNext is_anomaly n (i + 1)
    let fp ← is_anomaly[prev]?
    if fp then some points
    else
      let fn ← is_anomaly[next]?
      if fn then some points
      else
        let pp ← points[prev]?
        let pn ← points[next]?
        let pi ← points[i]?
        let t0 := pp.time
        let t1 := pn.time
        let t := pi.time
        if t1 = t0 then some points
        else
          let new_lat := interp A t0 t1 t pp.lat pn.lat
          let new_lon := interp A t0 t1 t pp.lon pn.lon
          setAt points i { pi with lat := new_lat, lon := new_lon }

/-- `correct_anomalies` of `iteration_10_code.cpp`. -/
def correct_anomalies {F : Type} (A : Arith F) (points : List GPSPoint)
    (is_anomaly : List Bool) : Option (List GPSPoint) :=
  let n := points.length
  if n < 3 then some points
  else forRange 1 (n - 1) (correctStep A is_anomaly n) points

end Iteration10

/-! ## An exact interpretation of `double` -/

/-- Extended rationals: a finite value or one of the IEEE special values.  Whether results
are rounded is a matter of the interpretation (`exact`, `rounding`); the sign of zero is
not represented. -/
inductive Dbl where
  | fin (q : ℚ)
  | pinf
  | ninf
  | nan
deriving DecidableEq

namespace Dbl

/-- Negation. -/
def neg : Dbl → Dbl
  | fin q => fin (-q)
  | pinf => ninf
  | ninf => pinf
  | nan => nan

/-- Addition; `inf + -inf` is NaN. -/
def add : Dbl → Dbl → Dbl
  | fin a, fin b => fin (a + b)
  | nan, _ => nan
  | _, nan => nan
  | pinf, ninf => nan
  | ninf, pinf => nan
  | pinf, _ => pinf
  | ninf, _ => ninf
  | _, pinf => pinf
  | _, ninf => ninf

/-- Subtraction. -/
def sub (a b : Dbl) : Dbl := add a (neg b)

/-- The infinity of the sign of `q`, NaN for `q = 0`. -/
def infOfSign (q : ℚ) : Dbl :=
  if 0 < q then pinf else if q < 0 then ninf else nan

/-- Multiplication; `0 * inf` is NaN. -/
def mul : Dbl → Dbl → Dbl
  | fin a, fin b => fin (a * b)
  | nan, _ => nan
  | _, nan => nan
  | fin a, pinf => infOfSign a
  | fin a, ninf => infOfSign (-a)
  | pinf, fin b => infOfSign b
  | ninf, fin b => infOfSign (-b)
  | pinf, pinf => pinf
  | ninf, ninf => pinf
  | pinf, ninf => ninf
  | ninf, pinf => ninf

/-- Division; `x / 0` is an infinity of the sign of `x`, `0 / 0` and `inf / inf` are NaN. -/
def div : Dbl → Dbl → Dbl
  | fin a, fin b => if b = 0 then infOfSign a else fin (a / b)
  | nan, _ => nan
  | _, nan => nan
  | fin _, pinf => fin 0
  | fin _, ninf => fin 0
  | pinf, fin b => if 0 ≤ b then pinf else ninf
  | ninf, fin b => if 0 ≤ b then ninf else pinf
  | pinf, pinf => nan
  | pinf, ninf => nan
  | ninf, pinf => nan
  | ninf, ninf => nan

/-- The comparison `a < b`; false when an operand is NaN. -/
def lt : Dbl → Dbl → Bool
  | fin a, fin b => decide (a < b)
  | fin _, pinf => true
  | fin _, ninf => false
  | ninf, fin _ => true
  | ninf, pinf => true
  | ninf, ninf => false
  | pinf, _ => false
  | nan, _ => false
  | _, nan => false

/-- Rounding of a rational to the nearest integer, halves away from zero. -/
def roundQ (q : ℚ) : Int :=
  if 0 ≤ q then ⌊q + 1 / 2⌋ else ⌈q - 1 / 2⌉

/-- `std::round`. -/
def round : Dbl → Dbl
  | fin q => fin (roundQ q)
  | x => x

/-- The conversion `int(x)`: truncation toward zero; a value outside the range of `int`
(the source leaves that conversion undefined) gives the least `int`. -/
def toInt : Dbl → Int
  | fin q =>
    let z : Int := if 0 ≤ q then ⌊q⌋ else ⌈q⌉
    if -2147483648 ≤ z ∧ z ≤ 2147483647 then z else -2147483648
  | _ => -2147483648

/-- Exact arithmetic as an interpretation of the operations on `double`. -/
def exact : Arith Dbl where
  ofInt z := fin z
  micro := fin (1 / 1000000)
  add := add
  sub := sub
  mul := mul
  div := div
  lt := lt
  round := round
  toInt := toInt

end Dbl

/-! ## Reference definitions for the repair pass -/

/-- Runs `body` at the indices listed in `order`, in that order. -/
def forList {σ : Type} (body : Nat → σ → Option σ) : List Nat → σ → Option σ
  | [], s => some s
  | i :: rest, s => (body i s).bind (forList body rest)

namespace Iteration10

/-- The repaired value of the fix `pi` at index `i` as a function of the trajectory `orig`
before the pass and of the flags only: an interior flagged fix whose two anchors are
unflagged and differ in time takes the interpolated coordinates, every other fix is kept. -/
def repairedFix {F : Type} (A : Arith F) (orig : List GPSPoint) (is_anomaly : List Bool)
    (i : Nat) (pi : GPSPoint) : GPSPoint :=
  if i = 0 ∨ orig.length ≤ i + 1 then pi
  else if is_anomaly[i]? = some true then
    match findPrev is_anomaly (i - 1), findNext is_anomaly orig.length (i + 1) with
    | some prev, some next =>
      match is_anomaly[prev]?, is_anomaly[next]?, orig[prev]?, orig[next]? with
      | some false, some false, some pp, some pn =>
        if pn.time = pp.time then pi
        else { pi with lat := interp A pp.time pn.time pi.time pp.lat pn.lat,
                       lon := interp A pp.time pn.time pi.time pp.lon pn.lon }
      | _, _, _, _ => pi
    | _, _ => pi
  else pi

/-- The repair as a pure map over the original trajectory. -/
def repairPure {F : Type} (A : Arith F) (orig : List GPSPoint) (is_anomaly : List Bool) :
    List GPSPoint :=
  orig.mapIdx (repairedFix A orig is_anomaly)

end Iteration10

/-! ## Reference definitions for the detectors -/

namespace Iteration10

/-- Whether the edge from index `j` to index `j + 1` passes the test of `detect_anomalies`;
false when one of the two indices is out of range. -/
def edgeFast {F : Type} (A : Arith F) (L : Libm F) (points : List GPSPoint) (j : Nat) : Bool :=
  match points[j]?, points[j + 1]? with
  | some p, some q => fastEdge A L p q
  | _, _ => false

/-- The flag of index `j` in words: `j` is interior and its incoming or its outgoing edge
passes the test. -/
def flagSpec {F : Type} (A : Arith F) (L : Libm F) (points : List GPSPoint) (j : Nat) : Bool :=
  decide (0 < j ∧ j + 1 < points.length) &&
    (edgeFast A L points (j - 1) || edgeFast A L points j)

end Iteration10

namespace CurrentIteration

/-- The test of `detect_anomalies` at index `j`, on the fixes `j - 1`, `j`, `j + 1` of
`points`; false when one of them is out of range. -/
def flagCond {F : Type} (A : Arith F) (L : Libm F) (points : List (Point F)) (j : Nat) : Bool :=
  match points[j - 1]?, points[j]?, points[j + 1]? with
  | some pm, some pi, some pn =>
    A.lt (A.ofInt 50) (edgeSpeed A L pm pi) || A.lt (A.ofInt 50) (edgeSpeed A L pi pn)
  | _, _, _ => false

end CurrentIteration

/-! ## A rounding interpretation of `double`

The operations of `Dbl.exact` followed by a rounding `R` of every finite result; with
`R = Dbl.round64` these are the binary64 operations in the default rounding mode, as far
as no result overflows. -/

namespace Dbl

/-- Applies a rounding to a finite value. -/
def roundWith (R : ℚ → ℚ) : Dbl → Dbl
  | fin q => fin (R q)
  | x => x

/-- Arithmetic in which every conversion from `int`, every literal and the finite result of
every operation is rounded by `R`.  `std::round` and `int(x)` have integer results, which
are not rounded again. -/
def rounding (R : ℚ → ℚ) : Arith Dbl where
  ofInt z := fin (R z)
  micro := fin (R (1 / 1000000))
  add a b := roundWith R (add a b)
  sub a b := roundWith R (sub a b)
  mul a b := roundWith R (mul a b)
  div a b := roundWith R (div a b)
  lt := lt
  round := round
  toInt := toInt

/-- Rounding of a rational to the nearest integer, ties to the even one. -/
def rne (x : ℚ) : Int :=
  if x - ⌊x⌋ < 1 / 2 then ⌊x⌋
  else if 1 / 2 < x - ⌊x⌋ then ⌊x⌋ + 1
  else if ⌊x⌋ % 2 = 0 then ⌊x⌋ else ⌊x⌋ + 1

/-- The exponent of the unit in the last place of the binary64 values near `q`: 52 below
the binary exponent of `q`, and `-1074` at least. -/
def ulpExp (q : ℚ) : Int := max (Int.log 2 |q| - 52) (-1074)

/-- Rounding to binary64, to nearest with ties to even: the nearest multiple of the unit in
the last place.  Overflow to an infinity is not represented. -/
def round64 (q : ℚ) : ℚ :=
  if q = 0 then 0 else (rne (q / 2 ^ ulpExp q) : ℚ) * 2 ^ ulpExp q

/-- Binary64 arithmetic, rounding to nearest. -/
def ieee : Arith Dbl := rounding round64

end Dbl

/-! ## Sample inputs -/

namespace Dbl

/-- Applies a rational function to a finite value; NaN otherwise. -/
def liftQ (f : ℚ → ℚ) : Dbl → Dbl
  | fin q => fin (f q)
  | _ => nan

/-- Three Newton steps for the square root, from the start value `(1 + q) / 2`. -/
def sqrtQ (q : ℚ) : ℚ :=
  if q ≤ 0 then 0
  else
    let x0 := (1 + q) / 2
    let x1 := (x0 + q / x0) / 2
    let x2 := (x1 + q / x1) / 2
    (x2 + q / x2) / 2

/-- A sample `Libm`: the first terms of the series of `sin`, `cos` and `atan`, Newton steps
for `sqrt`, and `355 / 113` for `M_PI`.  It stands for no particular implementation of the
C library; it only exhibits inputs that satisfy the hypotheses of the theorems below. -/
def sampleLibm : Libm Dbl where
  pi := fin (355 / 113)
  sin := liftQ (fun x => x - x ^ 3 / 6)
  cos := liftQ (fun x => 1 - x ^ 2 / 2)
  sqrt := liftQ sqrtQ
  atan2
    | fin y, fin x => if 0 < x then fin (y / x - (y / x) ^ 3 / 3) else nan
    | _, _ => nan

end Dbl

namespace CurrentIteration

/-- The three-fix trajectory with a spike in the middle, in degrees. -/
def spike : List (Point Dbl) :=
  [{ lat := .fin 0, lon := .fin 0, time := 0 },
   { lat := .fin 10, lon := .fin 10, time := 1 },
   { lat := .fin (2 / 10000), lon := .fin (2 / 10000), time := 2 }]

end CurrentIteration

namespace Iteration10

/-- The three-fix trajectory with a spike in the middle, in microdegrees. -/
def spike : List GPSPoint :=
  [{ lat := 0, lon := 0, time := 0 },
   { lat := 10000000, lon := 10000000, time := 1 },
   { lat := 200, lon := 200, time := 2 }]

end Iteration10

namespace CurrentIteration

/-- Four fixes, the two interior ones flagged: latitudes `0, 64, 64, 0` at times
`0, 1, 2, 3`.  Both interior fixes lie on an edge of 64 degrees covered in one second, so
these are the flags detection leaves. -/
def chain : List (Point Dbl) :=
  [{ lat := .fin 0, lon := .fin 0, time := 0, anomalous := false },
   { lat := .fin 64, lon := .fin 0, time := 1, anomalous := true },
   { lat := .fin 64, lon := .fin 0, time := 2, anomalous := true },
   { lat := .fin 0, lon := .fin 0, time := 3, anomalous := false }]

/-- Three fixes with latitudes `0.5`, `10` and the binary64 value nearest to `0.1`, at times
`0, 1, 1`, the middle one flagged: it is 9.5 degrees from the first fix, one second
later. -/
def rounded : List (Point Dbl) :=
  [{ lat := .fin (1 / 2), lon := .fin 0, time := 0, anomalous := false },
   { lat := .fin 10, lon := .fin 0, time := 1, anomalous := true },
   { lat := .fin (3602879701896397 / 36028797018963968), lon := .fin 0, time := 1,
     anomalous := false }]

/-- Three fixes, the middle one flagged, the two outer ones with the same timestamp. -/
def tie : List (Point Dbl) :=
  [{ lat := .fin 0, lon := .fin 0, time := 0, anomalous := false },
   { lat := .fin 64, lon := .fin 0, time := 1, anomalous := true },
   { lat := .fin 0, lon := .fin 0, time := 0, anomalous := false }]

/-- The repair as a pure map: every flagged interior fix is interpolated between the
neighbours it had before the pass. -/
def repairPure {F : Type} (A : Arith F) (orig : List (Point F)) : List (Point F) :=
  orig.mapIdx fun i p =>
    if p.anomalous = true ∧ 0 < i ∧ i + 1 < orig.length then
      match orig[i - 1]?, orig[i + 1]? with
      | some l, some r =>
        { p with lat := lerp A l.lat r.lat (clampFrac A p.time l.time r.time),
                 lon := lerp A l.lon r.lon (clampFrac A p.time l.time r.time) }
      | _, _ => p
    else p

end CurrentIteration

namespace Iteration10

/-- Three fixes with timestamps out of order, `0, 5, 1`; the middle fix is ten degrees
away from the first. -/
def unordered : List GPSPoint :=
  [{ lat := 0, lon := 0, time := 0 },
   { lat := 10000000, lon := 0, time := 5 },
   { lat := 100, lon := 0, time := 1 }]

/-- Three fixes, the two outer ones with the same timestamp. -/
def tie : List GPSPoint :=
  [{ lat := 0, lon := 0, time := 0 },
   { lat := 64000000, lon := 0, time := 1 },
   { lat := 0, lon := 0, time := 0 }]

end Iteration10

namespace Iteration10

/-- The flags of `spike`: only the middle fix. -/
def spikeFlags : List Bool := [false, true, false]

end Iteration10

namespace CurrentIteration

/-- Two fixes ten degrees apart, one second apart. -/
def pair : List (Point Dbl) :=
  [{ lat := .fin 0, lon := .fin 0, time := 0 },
   { lat := .fin 10, lon := .fin 10, time := 1 }]

/-- Three fixes at the same place, one second apart. -/
def still : List (Point Dbl) :=
  [{ lat := .fin 1, lon := .fin 2, time := 0 },
   { lat := .fin 1, lon := .fin 2, time := 1 },
   { lat := .fin 1, lon := .fin 2, time := 2 }]

end CurrentIteration

namespace Iteration10

/-- Five fixes one second apart with latitudes `0, 30, 0, 30, 40` degrees: every edge is
fast, so detection flags the three interior fixes. -/
def triple : List GPSPoint :=
  [{ lat := 0, lon := 0, time := 0 },
   { lat := 30000000, lon := 0, time := 1 },
   { lat := 0, lon := 0, time := 2 },
   { lat := 30000000, lon := 0, time := 3 },
   { lat := 40000000, lon := 0, time := 4 }]

/-- The flags of `triple`: the three interior fixes. -/
def tripleFlags : List Bool := [false, true, true, true, false]

/-- Two fixes ten degrees apart, one second apart. -/
def pair : List GPSPoint :=
  [{ lat := 0, lon := 0, time := 0 },
   { lat := 10000000, lon := 10000000, time := 1 }]

/-- Three fixes at the same place, one second apart. -/
def still : List GPSPoint :=
  [{ lat := 1000000, lon := 2000000, time := 0 },
   { lat := 1000000, lon := 2000000, time := 1 },
   { lat := 1000000, lon := 2000000, time := 2 }]

end Iteration10

/-! # The parsers and the serializer -/
/-! ## Strings and characters

A `std::string` is a `List Char`, and a position `pos` in the input `s` is represented by
the unread rest `s.substr(pos)`: `++pos` drops the first character of the rest, `pos <
s.size()` says the rest is not empty, and `pos == s.size()` says it is empty. -/

/-- `std::isspace` in the "C" locale: space, `\t`, `\n`, `\v`, `\f`, `\r`. -/
def isspace (c : Char) : Bool :=
  c.toNat = 32 || (9 ≤ c.toNat && c.toNat ≤ 13)

/-- `std::isdigit`. -/
def isdigit (c : Char) : Bool :=
  48 ≤ c.toNat && c.toNat ≤ 57

/-- The loop `while (pos < s.size() && std::isspace(s[pos])) ++pos;`. -/
def skipSpace (rest : List Char) : List Char :=
  rest.dropWhile isspace

/-- The `int + int` of the source. -/
def iadd (a b : Int) : Int := wrap32 (a + b)

/-- The `int * int` of the source. -/
def imul (a b : Int) : Int := wrap32 (a * b)

/-- The unary `-` on an `int`. -/
def ineg (a : Int) : Int := wrap32 (-a)

/-- The value `c - (char) 48` of a digit character. -/
def digitVal (c : Char) : Int := (c.toNat : Int) - 48

/-- The statement `if (pos < s.size() && s[pos] == (char) 45) { neg = true; ++pos; }`:
the value of `neg` and the rest. -/
def takeSign (r : List Char) : Bool × List Char :=
  match r with
  | c :: t => if c = '-' then (true, t) else (false, r)
  | [] => (false, r)

/-- The loop `while (pos < s.size() && std::isdigit(s[pos])) { v = v * 10 + (s[pos] - 48);
++pos; }` on an `int v`. -/
def digitsLoop (v : Int) : List Char → Int × List Char
  | [] => (v, [])
  | c :: t => if isdigit c then digitsLoop (iadd (imul v 10) (digitVal c)) t else (v, c :: t)

namespace Iteration10

/-- `parse_int`: the parsed value and the rest of the input, or `none` for `return false`. -/
def parse_int (s : List Char) : Option (Int × List Char) :=
  let sg := takeSign (skipSpace s)
  match sg.2 with
  | [] => none
  | c :: t =>
    if !isdigit c then none
    else
      let vr := digitsLoop 0 (c :: t)
      some (if sg.1 then ineg vr.1 else vr.1, vr.2)

/-- `parse_key`: the key and the rest of the input after the colon. -/
def parse_key (s : List Char) : Option (List Char × List Char) :=
  match skipSpace s with
  | [] => none
  | c :: t =>
    if c ≠ '"' then none
    else
      let key := t.takeWhile (fun x => x ≠ '"')
      match t.dropWhile (fun x => x ≠ '"') with
      | [] => none
      | _ :: r =>
        match skipSpace r with
        | [] => none
        | d :: r => if d ≠ ':' then none else some (key, r)

/-- The state of the loop of `parse_gps_point`: the fields of `pt` assigned so far (a field
is `some` exactly when its `*_set` flag is true), the rest of the input, and, as a record
that no branch reads, the keys met so far. -/
structure PointState where
  lat : Option Int := none
  lon : Option Int := none
  time : Option Int := none
  rest : List Char
  keys : List (List Char) := []

/-- The chain `if (key == "lat") ... else if (key == "lon") ... else if (key == "time")
... else return false;` of `parse_gps_point`. -/
def storeField (key : List Char) (value : Int) (st : PointState) : Option PointState :=
  if key = "lat".toList then some { st with lat := some value }
  else if key = "lon".toList then some { st with lon := some value }
  else if key = "time".toList then some { st with time := some value }
  else none

/-- The end of an iteration of the loop of `parse_gps_point`, after the skip of white
space: `if (i < 2) { if (pos >= s.size() || s[pos] != (char) 44) return false; ++pos; }`. -/
def endField (i : Nat) (st : PointState) (key r : List Char) : Option PointState :=
  if i < 2 then
    match r with
    | [] => none
    | c :: r => if c ≠ ',' then none else some { st with rest := r, keys := st.keys ++ [key] }
  else
    some { st with rest := r, keys := st.keys ++ [key] }

/-- One iteration of `for (int i = 0; i < 3; ++i)` in `parse_gps_point`. -/
def fieldStep (i : Nat) (st : PointState) : Option PointState := do
  let (key, r) ← parse_key st.rest
  let (value, r) ← parse_int r
  let st ← storeField key value st
  endField i st key (skipSpace r)

/-- `parse_gps_point` together with the keys it met: the fix, the rest of the input and
the keys, or `none` for `return false`. -/
def parse_gps_point_keys (s : List Char) : Option (GPSPoint × List Char × List (List Char)) :=
  match skipSpace s with
  | [] => none
  | c :: r =>
    if c ≠ Char.ofNat 123 then none
    else do
      let st ← forRange 0 3 fieldStep { rest := r }
      match skipSpace st.rest with
      | [] => none
      | d :: r =>
        if d ≠ Char.ofNat 125 then none
        else
          match st.lat, st.lon, st.time with
          | some lat, some lon, some time =>
            some ({ lat := lat, lon := lon, time := time }, r, st.keys)
          | _, _, _ => none

/-- `parse_gps_point`. -/
def parse_gps_point (s : List Char) : Option (GPSPoint × List Char) :=
  (parse_gps_point_keys s).map fun r => (r.1, r.2.1)

/-- What one iteration of the `while (true)` loop of `parse_gps_array` does. -/
inductive ArrayStep where
  /-- `return false` -/
  | fail (points : List GPSPoint)
  /-- `break`, after the closing bracket -/
  | done (rest : List Char) (points : List GPSPoint) (keys : List (List (List Char)))
  /-- the next iteration, after `continue` or at the end of the body -/
  | next (rest : List Char) (points : List GPSPoint) (keys : List (List (List Char)))

/-- The body of the `while (true)` loop of `parse_gps_array`. -/
def arrayStep (rest : List Char) (points : List GPSPoint) (keys : List (List (List Char))) :
    ArrayStep :=
  match skipSpace rest with
  | c :: r =>
    if c = ']' then .done r points keys
    else arrayItem (c :: r) points keys
  | [] => arrayItem [] points keys
where
  /-- The body from `parse_gps_point` on. -/
  arrayItem (rest : List Char) (points : List GPSPoint) (keys : List (List (List Char))) :
      ArrayStep :=
    match parse_gps_point_keys rest with
    | none => .fail points
    | some (pt, r, ks) =>
      let points := points ++ [pt]
      let keys := keys ++ [ks]
      match skipSpace r with
      | [] => .next [] points keys
      | c :: r =>
        if c = ',' then .next r points keys
        else if c = ']' then .done r points keys
        else .next (c :: r) points keys

/-- The `while (true)` loop of `parse_gps_array` and the statements after it; `none` when
the `fuel` iterations do not suffice. -/
def arrayLoop : Nat → List Char → List GPSPoint → List (List (List Char)) →
    Option (Bool × List GPSPoint × List (List (List Char)))
  | 0, _, _, _ => none
  | fuel + 1, rest, points, keys =>
    match arrayStep rest points keys with
    | .fail points => some (false, points, keys)
    | .done r points keys => some (decide (skipSpace r = []), points, keys)
    | .next r points keys => arrayLoop fuel r points keys

/-- `parse_gps_array` together with the keys of every object: the returned `bool`, the
contents of `points` at the return, and the keys. -/
def parse_gps_array_keys (s : List Char) (points : List GPSPoint) :
    Option (Bool × List GPSPoint × List (List (List Char))) :=
  match skipSpace s with
  | [] => some (false, points, [])
  | c :: r => if c ≠ '[' then some (false, points, []) else arrayLoop (s.length + 1) r points []

/-- `parse_gps_array`: the returned `bool` and the contents of `points` at the return. -/
def parse_gps_array (s : List Char) (points : List GPSPoint) :
    Option (Bool × List GPSPoint) :=
  (parse_gps_array_keys s points).map fun r => (r.1, r.2.1)

end Iteration10
/-- What the parser of the floating variant needs beyond `Arith`: the literal `0.1`, the
quiet NaN and the unary minus. -/
structure ParseLits (F : Type) where
  tenth : F
  nan : F
  neg : F → F

namespace CurrentIteration

/-- The number loop of the `lat`/`lon` branch, `while (i < input.size() &&
(std::isdigit(input[i]) || input[i] == (char) 46))`: the value and the rest, or `none` for
the `return false` at a second decimal point. -/
def numLoop {F : Type} (A : Arith F) (P : ParseLits F) :
    F → Bool → F → List Char → Option (F × List Char)
  | val, _, _, [] => some (val, [])
  | val, has_dot, frac, c :: t =>
    if isdigit c || c = '.' then
      if c = '.' then
        if has_dot then none else numLoop A P val true frac t
      else if !has_dot then
        numLoop A P (A.add (A.mul val (A.ofInt 10)) (A.ofInt (digitVal c))) has_dot frac t
      else
        numLoop A P (A.add val (A.mul (A.ofInt (digitVal c)) frac)) has_dot
          (A.mul frac P.tenth) t
    else some (val, c :: t)

/-- The locals of the object loop of `parse_json_array`, the rest of the input, and, as a
record that no branch reads, the keys met so far. -/
structure ObjState (F : Type) where
  lat : F
  lon : F
  time : Int := 0
  lat_set : Bool := false
  lon_set : Bool := false
  time_set : Bool := false
  rest : List Char
  keys : List (List Char) := []

/-- What one iteration of a loop of `parse_json_array` does. -/
inductive Step (σ : Type) where
  /-- `return false` -/
  | fail
  /-- `break` -/
  | done (s : σ)
  /-- the next test of the loop condition -/
  | next (s : σ)

/-- The value branch of the object loop: the state after the value is stored. -/
def valueStep {F : Type} (A : Arith F) (P : ParseLits F) (key : List Char)
    (st : ObjState F) (r : List Char) : Option (ObjState F) :=
  if key = "lat".toList ∨ key = "lon".toList then
    let sg := takeSign r
    match numLoop A P (A.ofInt 0) false P.tenth sg.2 with
    | none => none
    | some (val, r) =>
      let val := if sg.1 then P.neg val else val
      if key = "lat".toList then some { st with lat := val, lat_set := true, rest := r }
      else some { st with lon := val, lon_set := true, rest := r }
  else if key = "time".toList then
    let sg := takeSign r
    let vr := digitsLoop 0 sg.2
    let val := if sg.1 then ineg vr.1 else vr.1
    some { st with time := val, time_set := true, rest := vr.2 }
  else none

/-- The body of the object loop `while (i < input.size())`, entered with a non-empty
rest. -/
def objStep {F : Type} (A : Arith F) (P : ParseLits F) (st : ObjState F) :
    Step (ObjState F) :=
  match skipSpace st.rest with
  | [] => .fail
  | c :: t =>
    if c = Char.ofNat 125 then .done { st with rest := t }
    else if c ≠ '"' then .fail
    else
      let key := t.takeWhile (fun x => x ≠ '"')
      match t.dropWhile (fun x => x ≠ '"') with
      | [] => .fail
      | _ :: r =>
        match skipSpace r with
        | [] => .fail
        | d :: r =>
          if d ≠ ':' then .fail
          else
            match valueStep A P key st (skipSpace r) with
            | none => .fail
            | some st =>
              let st := { st with keys := st.keys ++ [key] }
              match skipSpace st.rest with
              | [] => .next { st with rest := [] }
              | e :: r => if e = ',' then .next { st with rest := r }
                else .next { st with rest := e :: r }

/-- The object loop: the state at its exit, or `none` for `return false`; the outer `none`
says that the `fuel` iterations did not suffice. -/
def objLoop {F : Type} (A : Arith F) (P : ParseLits F) :
    Nat → ObjState F → Option (Option (ObjState F))
  | 0, st =>
    match st.rest with
    | [] => some (some st)
    | _ :: _ => none
  | fuel + 1, st =>
    match st.rest with
    | [] => some (some st)
    | _ :: _ =>
      match objStep A P st with
      | .fail => some none
      | .done st => some (some st)
      | .next st => objLoop A P fuel st

/-- The state of the array loop: the rest of the input, `points`, and the keys of the
objects read so far. -/
structure ArrState (F : Type) where
  rest : List Char
  points : List (Point F)
  keys : List (List (List Char)) := []

/-- The body of the array loop `while (i < input.size())`, entered with a non-empty rest;
the outer `none` says that the fuel of the object loop did not suffice. -/
def arrStep {F : Type} (A : Arith F) (P : ParseLits F) (st : ArrState F) :
    Option (Step (ArrState F)) :=
  match skipSpace st.rest with
  | [] => some .fail
  | c :: t =>
    if c = ']' then some (.done { st with rest := t })
    else if c ≠ Char.ofNat 123 then some .fail
    else
      match objLoop A P t.length { lat := P.nan, lon := P.nan, rest := t } with
      | none => none
      | some none => some .fail
      | some (some o) =>
        if !o.lat_set || !o.lon_set || !o.time_set then some .fail
        else
          let st : ArrState F :=
            { st with points := st.points ++ [{ lat := o.lat, lon := o.lon, time := o.time }],
                      keys := st.keys ++ [o.keys] }
          match skipSpace o.rest with
          | [] => some (.next { st with rest := [] })
          | e :: r => if e = ',' then some (.next { st with rest := r })
            else some (.next { st with rest := e :: r })

/-- The array loop and the statements after it: the returned `bool`, `points` and the
keys; `none` when fuel did not suffice.  A `return false` leaves in `points` what was
pushed before. -/
def arrLoop {F : Type} (A : Arith F) (P : ParseLits F) :
    Nat → ArrState F → Option (Bool × List (Point F) × List (List (List Char)))
  | 0, st =>
    match st.rest with
    | [] => some (true, st.points, st.keys)
    | _ :: _ => none
  | fuel + 1, st =>
    match st.rest with
    | [] => some (true, st.points, st.keys)
    | _ :: _ =>
      match arrStep A P st with
      | none => none
      | some .fail => some (false, st.points, st.keys)
      | some (.done st) => some (decide (skipSpace st.rest = []), st.points, st.keys)
      | some (.next st) => arrLoop A P fuel st

/-- `parse_json_array` together with the keys of every object. -/
def parse_json_array_keys {F : Type} (A : Arith F) (P : ParseLits F) (input : List Char)
    (points : List (Point F)) : Option (Bool × List (Point F) × List (List (List Char))) :=
  match skipSpace input with
  | [] => some (false, points, [])
  | c :: r =>
    if c ≠ '[' then some (false, points, [])
    else arrLoop A P r.length { rest := r, points := points }

/-- `parse_json_array`: the returned `bool` and the contents of `points` at the return. -/
def parse_json_array {F : Type} (A : Arith F) (P : ParseLits F) (input : List Char)
    (points : List (Point F)) : Option (Bool × List (Point F)) :=
  (parse_json_array_keys A P input points).map fun r => (r.1, r.2.1)

end CurrentIteration

namespace Dbl

/-- The literals of the parser in exact arithmetic. -/
def lits : ParseLits Dbl where
  tenth := fin (1 / 10)
  nan := nan
  neg := neg

/-- The literals of the parser in binary64 arithmetic. -/
def ieeeLits : ParseLits Dbl where
  tenth := fin (round64 (1 / 10))
  nan := nan
  neg := neg

end Dbl

/-! ## The serializers and `main` -/

/-- Modelled from the library: the decimal digits `operator<<` writes for a natural
number, most significant first, `0` for zero. -/
def renderNat (n : Nat) : List Char :=
  if n = 0 then ['0'] else (Nat.digits 10 n).reverse.map fun d => Char.ofNat (48 + d)

/-- Modelled from the library: what `std::cout << z` writes for an `int`. -/
def renderInt (z : Int) : List Char :=
  if z < 0 then '-' :: renderNat z.natAbs else renderNat z.natAbs

namespace Iteration10

/-- What one iteration of the loop of `output_json` writes after the separator. -/
def renderFix (p : GPSPoint) : List Char :=
  "\x7b\"lat\":".toList ++ renderInt p.lat ++ ",\"lon\":".toList ++ renderInt p.lon ++
    ",\"time\":".toList ++ renderInt p.time ++ "\x7d".toList

/-- The loop of `output_json` from index `i` on, over the fixes from `points[i]` on:
`if (i) std::cout << ","` and then the fix. -/
def outputLoop : Nat → List GPSPoint → List Char
  | _, [] => []
  | i, p :: ps => (if i ≠ 0 then ",".toList else []) ++ renderFix p ++ outputLoop (i + 1) ps

/-- `output_json`: what is written to `std::cout`. -/
def output_json (points : List GPSPoint) : List Char :=
  "[".toList ++ outputLoop 0 points ++ "]\n".toList

/-- `main` as a function of the concatenated input lines: the exit code and what is
written to `std::cout`; `none` stands for an out-of-range access. -/
def main {F : Type} (A : Arith F) (L : Libm F) (input : List Char) :
    Option (Nat × List Char) :=
  match parse_gps_array input [] with
  | none => none
  | some (false, _) => some (1, [])
  | some (true, points) =>
    if points.length < 2 then some (0, output_json points)
    else do
      let is_anomaly ← detect_anomalies A L points
      let points ← correct_anomalies A points is_anomaly
      some (0, output_json points)

/-- The statements of `main` between the parse and the last `output_json`, as a function
from the parsed vector to the vector that is written: a vector of fewer than two fixes is
written as it is, without a call of `detect_anomalies`. -/
def detectAndCorrect {F : Type} (A : Arith F) (L : Libm F) (points : List GPSPoint) :
    Option (List GPSPoint) :=
  if points.length < 2 then some points
  else do
    let is_anomaly ← detect_anomalies A L points
    correct_anomalies A points is_anomaly

end Iteration10

namespace CurrentIteration

/-- The loop of `print_json_array`; `fmt` is the rendering of a `double` under
`std::fixed << std::setprecision(8)`. -/
def printLoop {F : Type} (fmt : F → List Char) : Nat → List (Point F) → List Char
  | _, [] => []
  | i, p :: ps =>
    (if i ≠ 0 then ",".toList else []) ++ "\x7b\"lat\":".toList ++ fmt p.lat ++
      ",\"lon\":".toList ++ fmt p.lon ++ ",\"time\":".toList ++ renderInt p.time ++
      "\x7d".toList ++ printLoop fmt (i + 1) ps

/-- `print_json_array`: what is written to `std::cout`. -/
def print_json_array {F : Type} (fmt : F → List Char) (points : List (Point F)) : List Char :=
  "[".toList ++ printLoop fmt 0 points ++ "]\n".toList

/-- `main` as a function of the concatenated input lines: the exit code and what is
written to `std::cout`; `none` stands for an out-of-range access. -/
def main {F : Type} (A : Arith F) (L : Libm F) (P : ParseLits F) (fmt : F → List Char)
    (input : List Char) : Option (Nat × List Char) :=
  match parse_json_array A P input [] with
  | none => none
  | some (false, _) => some (1, [])
  | some (true, points) =>
    if points.isEmpty then some (1, [])
    else do
      let points ← detect_anomalies A L points
      let points ← correct_anomalies A points
      some (0, print_json_array fmt points)

/-- The two calls `detect_anomalies(points); correct_anomalies(points);` of `main`. -/
def detectAndCorrect {F : Type} (A : Arith F) (L : Libm F) (points : List (Point F)) :
    Option (List (Point F)) := do
  let points ← detect_anomalies A L points
  correct_anomalies A points

end CurrentIteration

/-! ## Reference definitions for the parsers -/

/-- The keys of an object are in order when each of `lat`, `lon`, `time` is among them and
no other key is. -/
def threeKeys (ks : List (List Char)) : Prop :=
  (∀ k ∈ ks, k = "lat".toList ∨ k = "lon".toList ∨ k = "time".toList) ∧
    "lat".toList ∈ ks ∧ "lon".toList ∈ ks ∧ "time".toList ∈ ks

namespace CurrentIteration

/-- The property of the keys and flags that the object loop maintains: every key met is
one of the three, and a raised flag has its key among them. -/
def KeysOk {F : Type} (st : ObjState F) : Prop :=
  (∀ k ∈ st.keys, k = "lat".toList ∨ k = "lon".toList ∨ k = "time".toList) ∧
    (st.lat_set = true → "lat".toList ∈ st.keys) ∧
    (st.lon_set = true → "lon".toList ∈ st.keys) ∧
    (st.time_set = true → "time".toList ∈ st.keys)

end CurrentIteration

/-! ## Sample input strings -/

/-- One object and no closing bracket: `[{"lat":1,"lon":2,"time":3}`. -/
def inputNoClose : List Char := "[\x7b\"lat\":1,\"lon\":2,\"time\":3\x7d".toList

/-- The single character `[`. -/
def inputOnlyOpen : List Char := "[".toList

/-- A value without digits: `[{"lat":1,"lon":2,"time":}]`. -/
def inputNoDigits : List Char := "[\x7b\"lat\":1,\"lon\":2,\"time\":\x7d]".toList

/-- A value that is a lone minus sign: `[{"lat":-,"lon":2,"time":3}]`. -/
def inputMinus : List Char := "[\x7b\"lat\":-,\"lon\":2,\"time\":3\x7d]".toList

/-- A value that is a lone decimal point: `[{"lat":.,"lon":2,"time":3}]`. -/
def inputDot : List Char := "[\x7b\"lat\":.,\"lon\":2,\"time\":3\x7d]".toList

/-- A value in scientific notation: `[{"lat":1e5,"lon":2,"time":3}]`. -/
def inputExponent : List Char := "[\x7b\"lat\":1e5,\"lon\":2,\"time\":3\x7d]".toList

/-- A valid object followed by a malformed one: `[{"lat":1,"lon":2,"time":3},x`. -/
def inputBrokenTail : List Char := "[\x7b\"lat\":1,\"lon\":2,\"time\":3\x7d,x".toList

/-- The fixes of `CurrentIteration.rounded` as text. -/
def inputRounded : List Char :=
  ("[\x7b\"lat\":0.5,\"lon\":0,\"time\":0\x7d,\x7b\"lat\":10,\"lon\":0,\"time\":1\x7d," ++
    "\x7b\"lat\":0.1,\"lon\":0,\"time\":1\x7d]").toList

/-- The empty array: `[]`. -/
def inputEmptyArray : List Char := "[]".toList

/-- An array of one fix: `[{"lat":1,"lon":2,"time":3}]`. -/
def inputOneFix : List Char := "[\x7b\"lat\":1,\"lon\":2,\"time\":3\x7d]".toList

/-- An array of two fixes, those of `Iteration10.pair`. -/
def inputTwoFixes : List Char :=
  ("[\x7b\"lat\":0,\"lon\":0,\"time\":0\x7d," ++
    "\x7b\"lat\":10000000,\"lon\":10000000,\"time\":1\x7d]").toList

/-! ## Reference definitions for arrays that break off -/

/-- The text of an array that breaks off: `[`, then for every fix of `T` the object that
`output_json` writes for it and a comma, then `tail`. -/
def brokenArray (T : List Iteration10.GPSPoint) (tail : List Char) : List Char :=
  '[' :: ((T.map fun p => Iteration10.renderFix p ++ [',']).flatten ++ tail)

/-- The decimal digits of a natural number, most significant first, `0` for zero. -/
def decDigits (n : Nat) : List Nat :=
  if n = 0 then [0] else (Nat.digits 10 n).reverse

namespace CurrentIteration

/-- The value that the number loop of the `lat`/`lon` branch computes from digits without
a decimal point: `val = val * 10 + digit`, from `0.0`. -/
def readDigits {F : Type} (A : Arith F) (L : List Nat) : F :=
  L.foldl (fun (v : F) (d : Nat) => A.add (A.mul v (A.ofInt 10)) (A.ofInt (d : Int)))
    (A.ofInt 0)

/-- The `double` that the `lat`/`lon` branch reads from the text that `operator<<` writes
for an `int`. -/
def readInt {F : Type} (A : Arith F) (P : ParseLits F) (z : Int) : F :=
  if z < 0 then P.neg (readDigits A (decDigits z.natAbs))
  else readDigits A (decDigits z.natAbs)

/-- The fix that `parse_json_array` reads from the object that `output_json` writes for a
fix of the integer variant. -/
def readFix {F : Type} (A : Arith F) (P : ParseLits F) (p : Iteration10.GPSPoint) :
    Point F :=
  { lat := readInt A P p.lat, lon := readInt A P p.lon, time := p.time }

end CurrentIteration

/-! # Theorems -/

/-! ## Machine integers -/

/-- Where the mathematical difference is in the range of `int`, the `int - int` of the
source is that difference. -/
theorem isub_eq_sub (a b : Int) (h : isInt32 (a - b)) : isub a b = a - b := by
  unfold isInt32 at h
  unfold isub wrap32
  omega

/-! ## Loops -/

theorem setAt_of_lt {α : Type} (v : List α) (i : Nat) (x : α) (h : i < v.length) :
    setAt v i x = some (v.set i x) := by
  simp [setAt, h]

theorem forLoop_eq_forList {σ : Type} (body : Nat → σ → Option σ) (k : Nat) :
    ∀ (i : Nat) (s : σ), forLoop body i k s = forList body (List.range' i k) s := by
  induction k with
  | zero => intro i s; rfl
  | succ k ih =>
    intro i s
    simp only [forLoop, List.range'_succ, forList]
    congr 1
    funext t
    exact ih (i + 1) t

theorem forRange_eq_forList {σ : Type} (body : Nat → σ → Option σ) (lo hi : Nat) (s : σ) :
    forRange lo hi body s = forList body (List.range' lo (hi - lo)) s :=
  forLoop_eq_forList body (hi - lo) lo s

/-- Invariant rule for a loop over a list of indices: `P done s` relates the state to the
indices already visited. -/
theorem forList_inv {σ : Type} (body : Nat → σ → Option σ) (P : List Nat → σ → Prop)
    (ok : Nat → Prop)
    (hstep : ∀ (done : List Nat) (i : Nat) (s : σ), ok i → P done s →
      ∃ t, body i s = some t ∧ P (done ++ [i]) t) :
    ∀ (order done : List Nat) (s : σ), (∀ i ∈ order, ok i) → P done s →
      ∃ t, forList body order s = some t ∧ P (done ++ order) t := by
  intro order
  induction order with
  | nil => intro done s _ h; exact ⟨s, rfl, by simpa using h⟩
  | cons i rest ih =>
    intro done s hok h
    obtain ⟨t, ht, hP⟩ := hstep done i s (hok i (by simp)) h
    obtain ⟨u, hu, hQ⟩ := ih (done ++ [i]) t (fun j hj => hok j (by simp [hj])) hP
    refine ⟨u, ?_, by simpa using hQ⟩
    simp [forList, ht, hu]

/-! ## The integer variant: anchor search and repair -/

theorem getElem?_of_lt {α : Type} (l : List α) (i : Nat) (h : i < l.length) :
    ∃ x, l[i]? = some x :=
  ⟨l[i], List.getElem?_eq_getElem h⟩

namespace Iteration10

theorem findPrev_spec (flags : List Bool) : ∀ start, start < flags.length →
    ∃ r, findPrev flags start = some r ∧ r ≤ start ∧
      (r = 0 ∨ flags[r]? = some false) ∧ ∀ j, r < j → j ≤ start → flags[j]? = some true := by
  intro start
  induction start with
  | zero => intro _; exact ⟨0, rfl, le_refl _, Or.inl rfl, fun j h1 h2 => by omega⟩
  | succ p ih =>
    intro h
    have hget : flags[p + 1]? = some flags[p + 1] := List.getElem?_eq_getElem h
    cases hf : flags[p + 1] with
    | true =>
      obtain ⟨r, hr, hle, hz, hall⟩ := ih (by omega)
      refine ⟨r, ?_, by omega, hz, ?_⟩
      · simp [findPrev, hget, hf, hr]
      · intro j h1 h2
        by_cases hj : j = p + 1
        · subst hj; simp [hget, hf]
        · exact hall j h1 (by omega)
    | false =>
      refine ⟨p + 1, ?_, le_refl _, Or.inr (by simp [hget, hf]), fun j h1 h2 => by omega⟩
      simp [findPrev, hget, hf]

theorem findNextAux_spec (flags : List Bool) : ∀ k next, next + k < flags.length →
    ∃ r, findNextAux flags next k = some r ∧ next ≤ r ∧ r ≤ next + k ∧
      (r = next + k ∨ flags[r]? = some false) ∧
      ∀ j, next ≤ j → j < r → flags[j]? = some true := by
  intro k
  induction k with
  | zero =>
    intro next _
    exact ⟨next, rfl, le_refl _, le_refl _, Or.inl rfl, fun j h1 h2 => by omega⟩
  | succ k ih =>
    intro next h
    have hlt : next < flags.length := by omega
    have hget : flags[next]? = some flags[next] := List.getElem?_eq_getElem hlt
    cases hf : flags[next] with
    | true =>
      obtain ⟨r, hr, h1, h2, hz, hall⟩ := ih (next + 1) (by omega)
      refine ⟨r, ?_, by omega, by omega, ?_, ?_⟩
      · simp [findNextAux, hget, hf, hr]
      · rcases hz with hz | hz
        · left; omega
        · right; exact hz
      · intro j hj1 hj2
        by_cases hj : j = next
        · subst hj; simp [hget, hf]
        · exact hall j (by omega) hj2
    | false =>
      refine ⟨next, ?_, le_refl _, by omega, Or.inr (by simp [hget, hf]),
        fun j h1 h2 => by omega⟩
      simp [findNextAux, hget, hf]

theorem repairedFix_time {F : Type} (A : Arith F) (orig : List GPSPoint) (flags : List Bool)
    (i : Nat) (p : GPSPoint) : (repairedFix A orig flags i p).time = p.time := by
  unfold repairedFix
  repeat' split
  all_goals rfl

theorem repairedFix_unflagged {F : Type} (A : Arith F) (orig : List GPSPoint)
    (flags : List Bool) (i : Nat) (p : GPSPoint) (h : flags[i]? ≠ some true) :
    repairedFix A orig flags i p = p := by
  simp [repairedFix, h]

theorem repairedFix_endpoint {F : Type} (A : Arith F) (orig : List GPSPoint)
    (flags : List Bool) (i : Nat) (p : GPSPoint) (h : i = 0 ∨ orig.length ≤ i + 1) :
    repairedFix A orig flags i p = p := by
  unfold repairedFix
  rw [if_pos h]

end Iteration10

namespace Iteration10

theorem correctStep_inv {F : Type} (A : Arith F) (orig : List GPSPoint) (flags : List Bool)
    (hlen : flags.length = orig.length) (done : List Nat) (i : Nat) (s : List GPSPoint)
    (hi : 0 < i ∧ i + 1 < orig.length)
    (hs : s.length = orig.length ∧ ∀ j p, orig[j]? = some p →
      s[j]? = some (if j ∈ done then repairedFix A orig flags j p else p)) :
    ∃ t, correctStep A flags orig.length i s = some t ∧ t.length = orig.length ∧
      ∀ j p, orig[j]? = some p →
        t[j]? = some (if j ∈ done ++ [i] then repairedFix A orig flags j p else p) := by
  obtain ⟨hi0, hi1⟩ := hi
  obtain ⟨hsl, hinv⟩ := hs
  obtain ⟨fi, hfi⟩ := getElem?_of_lt flags i (by omega)
  obtain ⟨pi, hoi⟩ := getElem?_of_lt orig i (by omega)
  have hsi := hinv i pi hoi
  have unfl : ∀ (j : Nat) (p : GPSPoint), orig[j]? = some p → flags[j]? = some false → s[j]? = some p := by
    intro j p hj hfj
    have h := hinv j p hj
    rw [repairedFix_unflagged A orig flags j p (by simp [hfj])] at h
    simpa using h
  have keep : repairedFix A orig flags i pi = pi →
      ∀ (j : Nat) (p : GPSPoint), orig[j]? = some p →
        s[j]? = some (if j ∈ done ++ [i] then repairedFix A orig flags j p else p) := by
    intro hrep j p hj
    rw [hinv j p hj]
    by_cases hji : j = i
    · subst hji
      have hp : p = pi := by rw [hoi] at hj; exact (Option.some.inj hj).symm
      subst hp
      simp [hrep]
    · simp [hji]
  cases fi with
  | false =>
    refine ⟨s, ?_, hsl, keep (repairedFix_unflagged A orig flags i _ (by simp [hfi]))⟩
    simp [correctStep, hfi]
  | true =>
    obtain ⟨prev, hprev, hple, _, _⟩ := findPrev_spec flags (i - 1) (by omega)
    obtain ⟨next, hnext, hnge, hnle, _, _⟩ :=
      findNextAux_spec flags (orig.length - 1 - (i + 1)) (i + 1) (by omega)
    obtain ⟨fp, hfp⟩ := getElem?_of_lt flags prev (by omega)
    obtain ⟨fn, hfn⟩ := getElem?_of_lt flags next (by omega)
    obtain ⟨pp, hop⟩ := getElem?_of_lt orig prev (by omega)
    obtain ⟨pn, hon⟩ := getElem?_of_lt orig next (by omega)
    have hrf : repairedFix A orig flags i pi =
        (if fp || fn then pi
         else if pn.time = pp.time then pi
         else { pi with
                lat := interp A pp.time pn.time pi.time pp.lat pn.lat,
                lon := interp A pp.time pn.time pi.time pp.lon pn.lon }) := by
      have hne : ¬ (i = 0 ∨ orig.length ≤ i + 1) := by omega
      unfold repairedFix
      rw [if_neg hne, hfi, if_pos rfl]
      simp only [findNext, hprev, hnext, hfp, hfn, hop, hon]
      cases fp <;> cases fn <;> simp
    cases fp with
    | true =>
      refine ⟨s, ?_, hsl, keep (by rw [hrf]; simp)⟩
      simp [correctStep, hfi, findNext, hprev, hnext, hfp, hfn]
    | false =>
      cases fn with
      | true =>
        refine ⟨s, ?_, hsl, keep (by rw [hrf]; simp)⟩
        simp [correctStep, hfi, findNext, hprev, hnext, hfp, hfn]
      | false =>
        have hsp := unfl prev pp hop hfp
        have hsn := unfl next pn hon hfn
        by_cases ht : pn.time = pp.time
        · refine ⟨s, ?_, hsl, keep (by rw [hrf]; simp [ht])⟩
          simp [correctStep, hfi, findNext, hprev, hnext, hfp, hfn, hsp, hsn, hsi, ht]
        · have htime := repairedFix_time A orig flags i pi
          refine ⟨s.set i (repairedFix A orig flags i pi), ?_, by simp [hsl], ?_⟩
          · have hlt : i < s.length := by omega
            rw [hrf]
            by_cases hd : i ∈ done
            · simp [correctStep, hfi, findNext, hprev, hnext, hfp, hfn, hsp, hsn, hsi, ht,
                setAt, hlt, hd, htime]
            · simp [correctStep, hfi, findNext, hprev, hnext, hfp, hfn, hsp, hsn, hsi, ht,
                setAt, hlt, hd]
          · intro j p hj
            by_cases hji : j = i
            · subst hji
              have hp : p = pi := by rw [hoi] at hj; exact (Option.some.inj hj).symm
              subst hp
              have hlt : j < s.length := by omega
              simp [List.getElem?_set, hlt]
            · rw [List.getElem?_set_ne (Ne.symm hji), hinv j p hj]
              simp [hji]

end Iteration10

namespace Iteration10

/-- Running the repair step over any list of interior indices gives, at every visited
index, the value `repairedFix` computes from the original trajectory, and keeps the rest. -/
theorem correct_forList {F : Type} (A : Arith F) (orig : List GPSPoint) (flags : List Bool)
    (hlen : flags.length = orig.length) (order : List Nat)
    (hord : ∀ i ∈ order, 0 < i ∧ i + 1 < orig.length) :
    ∃ t, forList (correctStep A flags orig.length) order orig = some t ∧
      t.length = orig.length ∧
      ∀ (j : Nat) (p : GPSPoint), orig[j]? = some p →
        t[j]? = some (if j ∈ order then repairedFix A orig flags j p else p) := by
  have h := forList_inv (correctStep A flags orig.length)
    (fun done s => s.length = orig.length ∧ ∀ (j : Nat) (p : GPSPoint), orig[j]? = some p →
      s[j]? = some (if j ∈ done then repairedFix A orig flags j p else p))
    (fun i => 0 < i ∧ i + 1 < orig.length)
    (fun done i s hi hs => correctStep_inv A orig flags hlen done i s hi hs)
    order [] orig hord ⟨rfl, fun j p hj => by simpa using hj⟩
  simpa using h

/-- A list that agrees with `repairedFix` at every index is the pure map. -/
theorem eq_repairPure {F : Type} (A : Arith F) (orig : List GPSPoint) (flags : List Bool)
    (t : List GPSPoint) (hl : t.length = orig.length)
    (h : ∀ (j : Nat) (p : GPSPoint), orig[j]? = some p →
      t[j]? = some (repairedFix A orig flags j p)) :
    t = repairPure A orig flags := by
  apply List.ext_getElem?
  intro j
  simp only [repairPure, List.getElem?_mapIdx]
  by_cases hj : j < orig.length
  · obtain ⟨p, hp⟩ := getElem?_of_lt orig j hj
    rw [h j p hp, hp]; rfl
  · rw [List.getElem?_eq_none (by omega), List.getElem?_eq_none (by omega)]; rfl

/-- Visiting every interior index, in any order and any number of times, gives the
pure map. -/
theorem forList_correctStep_eq {F : Type} (A : Arith F) (orig : List GPSPoint)
    (flags : List Bool) (hlen : flags.length = orig.length) (order : List Nat)
    (hord : ∀ i, i ∈ order ↔ 0 < i ∧ i + 1 < orig.length) :
    forList (correctStep A flags orig.length) order orig = some (repairPure A orig flags) := by
  obtain ⟨t, ht, hl, hv⟩ := correct_forList A orig flags hlen order (fun i hi => (hord i).1 hi)
  rw [ht]
  congr 1
  apply eq_repairPure A orig flags t hl
  intro j p hj
  rw [hv j p hj]
  by_cases hm : j ∈ order
  · simp [hm]
  · have hj' : j < orig.length := by
      by_contra hc
      rw [List.getElem?_eq_none (by omega)] at hj
      exact Option.noConfusion hj
    have : j = 0 ∨ orig.length ≤ j + 1 := by
      by_contra hc
      exact hm ((hord j).2 (by omega))
    simp [hm, repairedFix_endpoint A orig flags j p this]

theorem correct_anomalies_eq {F : Type} (A : Arith F) (orig : List GPSPoint)
    (flags : List Bool) (hlen : flags.length = orig.length) :
    correct_anomalies A orig flags = some (repairPure A orig flags) := by
  unfold correct_anomalies
  by_cases hn : orig.length < 3
  · simp only [hn, if_true]
    congr 1
    apply eq_repairPure A orig flags orig rfl
    intro j p hj
    have hj' : j < orig.length := by
      by_contra hc
      rw [List.getElem?_eq_none (by omega)] at hj
      exact Option.noConfusion hj
    rw [hj, repairedFix_endpoint A orig flags j p (by omega)]
  · simp only [hn, if_false]
    rw [forRange_eq_forList]
    apply forList_correctStep_eq A orig flags hlen
    intro i
    simp only [List.mem_range']
    constructor
    · rintro ⟨k, hk, rfl⟩; omega
    · intro h; exact ⟨i - 1, by omega, by omega⟩

end Iteration10

/-! ## The integer variant: detection -/

namespace Iteration10

theorem fastEdge_iff {F : Type} (A : Arith F) (L : Libm F) (p q : GPSPoint) :
    fastEdge A L p q = true ↔
      0 < isub q.time p.time ∧
        A.lt (A.ofInt 50) (A.div (haversine A L p.lat p.lon q.lat q.lon)
          (A.ofInt (isub q.time p.time))) = true := by
  unfold fastEdge
  by_cases h : isub q.time p.time ≤ 0
  · simp only [h, if_true]
    constructor
    · intro hc; exact Bool.noConfusion hc
    · rintro ⟨h1, _⟩; omega
  · simp only [h, if_false]
    constructor
    · intro hc; exact ⟨by omega, hc⟩
    · rintro ⟨_, h2⟩; exact h2

theorem edgeFast_eq {F : Type} (A : Arith F) (L : Libm F) (points : List GPSPoint) (j : Nat)
    (p q : GPSPoint) (hp : points[j]? = some p) (hq : points[j + 1]? = some q) :
    edgeFast A L points j = fastEdge A L p q := by
  simp [edgeFast, hp, hq]

theorem detectIn_inv {F : Type} (A : Arith F) (L : Libm F) (pts : List GPSPoint)
    (done : List Nat) (i : Nat) (fl : List Bool) (hi : 0 < i ∧ i < pts.length)
    (h : fl.length = pts.length ∧ ∀ j, j < pts.length →
      fl[j]? = some (decide (j ∈ done) && edgeFast A L pts (j - 1))) :
    ∃ t, detectIn A L pts i fl = some t ∧ t.length = pts.length ∧ ∀ j, j < pts.length →
      t[j]? = some (decide (j ∈ done ++ [i]) && edgeFast A L pts (j - 1)) := by
  obtain ⟨hi0, hi1⟩ := hi
  obtain ⟨hl, hinv⟩ := h
  obtain ⟨pi, hpi⟩ := getElem?_of_lt pts i hi1
  obtain ⟨pm, hpm⟩ := getElem?_of_lt pts (i - 1) (by omega)
  have he : edgeFast A L pts (i - 1) = fastEdge A L pm pi :=
    edgeFast_eq A L pts (i - 1) pm pi hpm (by rw [Nat.sub_add_cancel hi0]; exact hpi)
  cases hf : fastEdge A L pm pi with
  | true =>
    refine ⟨fl.set i true, ?_, by simp [hl], ?_⟩
    · simp [detectIn, hpi, hpm, hf, setAt, hl, hi1]
    · intro j hj
      by_cases hji : j = i
      · subst hji
        simp [List.getElem?_set, hl, hj, he, hf]
      · rw [List.getElem?_set_ne (Ne.symm hji), hinv j hj]
        simp [hji]
  | false =>
    refine ⟨fl, ?_, hl, ?_⟩
    · simp [detectIn, hpi, hpm, hf]
    · intro j hj
      rw [hinv j hj]
      by_cases hji : j = i
      · subst hji
        simp [he, hf]
      · simp [hji]

theorem detectOut_inv {F : Type} (A : Arith F) (L : Libm F) (pts : List GPSPoint)
    (done : List Nat) (i : Nat) (fl : List Bool) (hi : i + 1 < pts.length)
    (h : fl.length = pts.length ∧ ∀ j, j < pts.length →
      fl[j]? = some ((decide (0 < j) && edgeFast A L pts (j - 1)) ||
        (decide (j ∈ done) && edgeFast A L pts j))) :
    ∃ t, detectOut A L pts i fl = some t ∧ t.length = pts.length ∧ ∀ j, j < pts.length →
      t[j]? = some ((decide (0 < j) && edgeFast A L pts (j - 1)) ||
        (decide (j ∈ done ++ [i]) && edgeFast A L pts j)) := by
  obtain ⟨hl, hinv⟩ := h
  obtain ⟨pi, hpi⟩ := getElem?_of_lt pts i (by omega)
  obtain ⟨pn, hpn⟩ := getElem?_of_lt pts (i + 1) hi
  have he : edgeFast A L pts i = fastEdge A L pi pn := edgeFast_eq A L pts i pi pn hpi hpn
  cases hf : fastEdge A L pi pn with
  | true =>
    refine ⟨fl.set i true, ?_, by simp [hl], ?_⟩
    · have hlt : i < pts.length := by omega
      simp [detectOut, hpi, hpn, hf, setAt, hl, hlt]
    · intro j hj
      by_cases hji : j = i
      · subst hji
        simp [List.getElem?_set, hl, hj, he, hf]
      · rw [List.getElem?_set_ne (Ne.symm hji), hinv j hj]
        simp [hji]
  | false =>
    refine ⟨fl, ?_, hl, ?_⟩
    · simp [detectOut, hpi, hpn, hf]
    · intro j hj
      rw [hinv j hj]
      by_cases hji : j = i
      · subst hji
        simp [he, hf]
      · simp [hji]

/-- On a non-empty trajectory `detect_anomalies` returns the flags described by
`flagSpec`. -/
theorem detect_anomalies_spec {F : Type} (A : Arith F) (L : Libm F) (pts : List GPSPoint)
    (hn : 0 < pts.length) :
    ∃ flags, detect_anomalies A L pts = some flags ∧ flags.length = pts.length ∧
      ∀ j, j < pts.length → flags[j]? = some (flagSpec A L pts j) := by
  obtain ⟨f1, h1, hl1, hv1⟩ := forList_inv (detectIn A L pts)
    (fun done fl => fl.length = pts.length ∧ ∀ j, j < pts.length →
      fl[j]? = some (decide (j ∈ done) && edgeFast A L pts (j - 1)))
    (fun i => 0 < i ∧ i < pts.length)
    (fun done i fl hi h => detectIn_inv A L pts done i fl hi h)
    (List.range' 1 (pts.length - 1)) [] (List.replicate pts.length false)
    (by intro i hi; simp only [List.mem_range'] at hi; obtain ⟨k, hk, rfl⟩ := hi; omega)
    ⟨by simp, fun j hj => by simp [hj]⟩
  obtain ⟨f2, h2, hl2, hv2⟩ := forList_inv (detectOut A L pts)
    (fun done fl => fl.length = pts.length ∧ ∀ j, j < pts.length →
      fl[j]? = some ((decide (0 < j) && edgeFast A L pts (j - 1)) ||
        (decide (j ∈ done) && edgeFast A L pts j)))
    (fun i => i + 1 < pts.length)
    (fun done i fl hi h => detectOut_inv A L pts done i fl hi h)
    (List.range' 0 (pts.length - 1 - 0)) [] f1
    (by intro i hi; simp only [List.mem_range'] at hi; obtain ⟨k, hk, rfl⟩ := hi; omega)
    ⟨hl1, fun j hj => by
      rw [hv1 j hj]
      have : (j ∈ List.range' 1 (pts.length - 1)) ↔ 0 < j := by
        simp only [List.mem_range']
        constructor
        · rintro ⟨k, hk, rfl⟩; omega
        · intro h; exact ⟨j - 1, by omega, by omega⟩
      simp [this]⟩
  refine ⟨(f2.set 0 false).set (pts.length - 1) false, ?_, by simp [hl2], ?_⟩
  · have e1 : forRange 1 pts.length (detectIn A L pts) (List.replicate pts.length false)
        = some f1 := by
      rw [forRange_eq_forList]; exact h1
    have e2 : forRange 0 (pts.length - 1) (detectOut A L pts) f1 = some f2 := by
      rw [forRange_eq_forList]; exact h2
    have hl0 : 0 < f2.length := by omega
    have hl3 : pts.length - 1 < f2.length := by omega
    simp [detect_anomalies, e1, e2, setAt, hl0, hn, hl3]
  · intro j hj
    by_cases hjn : j = pts.length - 1
    · have : ¬ (j + 1 < pts.length) := by omega
      simp [List.getElem?_set, hjn, hl2, hn, flagSpec]
      intro _ hc
      omega
    · rw [List.getElem?_set_ne (Ne.symm hjn)]
      by_cases hj0 : j = 0
      · simp [List.getElem?_set, hj0, hl2, hn, flagSpec]
      · rw [List.getElem?_set_ne (Ne.symm hj0), hv2 j hj]
        have h0 : 0 < j := by omega
        have h1 : j + 1 < pts.length := by omega
        have h2 : j < pts.length - 1 := by omega
        simp [flagSpec, h0, h1, h2]

/-- On the empty trajectory the unguarded write `is_anomaly[0] = false` is out of range. -/
theorem detect_anomalies_nil {F : Type} (A : Arith F) (L : Libm F) :
    detect_anomalies A L [] = none := by
  simp [detect_anomalies, forRange, forLoop, setAt]

end Iteration10

/-! ## The floating variant: detection -/

theorem forLoop_inv {σ : Type} (body : Nat → σ → Option σ) (P : Nat → σ → Prop) :
    ∀ (k i : Nat) (s : σ), P i s →
      (∀ (j : Nat) (t : σ), i ≤ j → j < i + k → P j t →
        ∃ u, body j t = some u ∧ P (j + 1) u) →
      ∃ t, forLoop body i k s = some t ∧ P (i + k) t := by
  intro k
  induction k with
  | zero => intro i s h _; exact ⟨s, rfl, h⟩
  | succ k ih =>
    intro i s h hstep
    obtain ⟨u, hu, hP⟩ := hstep i s (le_refl i) (by omega) h
    obtain ⟨t, ht, hQ⟩ := ih (i + 1) u hP
      (fun j t h1 h2 hp => hstep j t (by omega) (by omega) hp)
    refine ⟨t, ?_, ?_⟩
    · simp [forLoop, hu, ht]
    · have e : i + 1 + k = i + (k + 1) := by omega
      rw [← e]; exact hQ

namespace CurrentIteration

theorem detectStep_inv {F : Type} (A : Arith F) (L : Libm F) (orig : List (Point F))
    (done : List Nat) (i : Nat) (s : List (Point F)) (hi : 0 < i ∧ i + 1 < orig.length)
    (h : s.length = orig.length ∧ ∀ (j : Nat) (p : Point F), orig[j]? = some p →
      s[j]? = some { p with
        anomalous := p.anomalous || (decide (j ∈ done) && flagCond A L orig j) }) :
    ∃ t, detectStep A L i s = some t ∧ t.length = orig.length ∧
      ∀ (j : Nat) (p : Point F), orig[j]? = some p →
        t[j]? = some { p with
          anomalous := p.anomalous || (decide (j ∈ done ++ [i]) && flagCond A L orig j) } := by
  obtain ⟨hi0, hi1⟩ := hi
  obtain ⟨hl, hinv⟩ := h
  obtain ⟨pm, hpm⟩ := getElem?_of_lt orig (i - 1) (by omega)
  obtain ⟨pi, hpi⟩ := getElem?_of_lt orig i (by omega)
  obtain ⟨pn, hpn⟩ := getElem?_of_lt orig (i + 1) hi1
  have hsm := hinv _ _ hpm
  have hsi := hinv _ _ hpi
  have hsn := hinv _ _ hpn
  have hc : flagCond A L orig i =
      (A.lt (A.ofInt 50) (edgeSpeed A L pm pi) || A.lt (A.ofInt 50) (edgeSpeed A L pi pn)) := by
    simp [flagCond, hpm, hpi, hpn]
  have hlt : i < s.length := by omega
  cases hb : (A.lt (A.ofInt 50) (edgeSpeed A L pm pi) ||
      A.lt (A.ofInt 50) (edgeSpeed A L pi pn)) with
  | true =>
    refine ⟨s.set i { pi with anomalous := true }, ?_, by simp [hl], ?_⟩
    · simp only [detectStep, hsm, hsi, hsn, Option.bind_eq_bind, Option.some_bind]
      simp only [edgeSpeed] at hb ⊢
      simp [hb, setAt, hlt]
    · intro j p hj
      by_cases hji : j = i
      · subst hji
        have hp : p = pi := by rw [hpi] at hj; exact (Option.some.inj hj).symm
        subst hp
        simp [List.getElem?_set, hlt, hc, hb]
      · rw [List.getElem?_set_ne (Ne.symm hji), hinv j p hj]
        simp [hji]
  | false =>
    refine ⟨s, ?_, hl, ?_⟩
    · simp only [detectStep, hsm, hsi, hsn, Option.bind_eq_bind, Option.some_bind]
      simp only [edgeSpeed] at hb ⊢
      simp [hb]
    · intro j p hj
      rw [hinv j p hj]
      by_cases hji : j = i
      · subst hji
        have hp : p = pi := by rw [hpi] at hj; exact (Option.some.inj hj).symm
        subst hp
        simp [hc, hb]
      · simp [hji]

/-- The flags `detect_anomalies` leaves: an interior fix is flagged when it was flagged
before or `flagCond` holds of it; nothing else changes. -/
theorem detect_flags_spec {F : Type} (A : Arith F) (L : Libm F) (pts : List (Point F)) :
    ∃ d, detect_anomalies A L pts = some d ∧ d.length = pts.length ∧
      ∀ (j : Nat) (p : Point F), pts[j]? = some p →
        d[j]? = some { p with anomalous := p.anomalous ||
          (decide (0 < j ∧ j + 1 < pts.length) && flagCond A L pts j) } := by
  by_cases hn : pts.length < 3
  · refine ⟨pts, by simp [detect_anomalies, hn], rfl, ?_⟩
    intro j p hj
    have hj' : j < pts.length := by
      by_contra hc
      rw [List.getElem?_eq_none (by omega)] at hj
      exact Option.noConfusion hj
    have : ¬ (0 < j ∧ j + 1 < pts.length) := by omega
    simp [hj, this]
  · obtain ⟨d, hd, hl, hv⟩ := forList_inv (detectStep A L)
      (fun done s => s.length = pts.length ∧ ∀ (j : Nat) (p : Point F), pts[j]? = some p →
        s[j]? = some { p with
          anomalous := p.anomalous || (decide (j ∈ done) && flagCond A L pts j) })
      (fun i => 0 < i ∧ i + 1 < pts.length)
      (fun done i s hi h => detectStep_inv A L pts done i s hi h)
      (List.range' 1 (pts.length - 1 - 1)) [] pts
      (by intro i hi; simp only [List.mem_range'] at hi; obtain ⟨k, hk, rfl⟩ := hi; omega)
      ⟨rfl, fun j p hj => by simp [hj]⟩
    refine ⟨d, ?_, hl, ?_⟩
    · simp only [detect_anomalies, hn, if_false]
      rw [forRange_eq_forList]; exact hd
    · intro j p hj
      rw [hv j p hj]
      have : (j ∈ List.range' 1 (pts.length - 1 - 1)) ↔ (0 < j ∧ j + 1 < pts.length) := by
        simp only [List.mem_range']
        constructor
        · rintro ⟨k, hk, rfl⟩; omega
        · intro h; exact ⟨j - 1, by omega, by omega⟩
      simp [this]

end CurrentIteration

/-! ## The floating variant: repair -/

namespace CurrentIteration

theorem correctStep_frame {F : Type} (A : Arith F) (orig : List (Point F)) (i : Nat)
    (s : List (Point F)) (hi : 0 < i ∧ i + 1 < orig.length)
    (h : s.length = orig.length ∧ ∀ (j : Nat) (p : Point F), orig[j]? = some p →
      ∃ q, s[j]? = some q ∧ q.time = p.time ∧ q.anomalous = p.anomalous ∧
        ((p.anomalous = false ∨ i ≤ j ∨ j = 0) → q = p) ∧
        (p.anomalous = true → 0 < j → j < i → ∃ l r, s[j - 1]? = some l ∧
          orig[j + 1]? = some r ∧
          q.lat = lerp A l.lat r.lat (clampFrac A p.time l.time r.time) ∧
          q.lon = lerp A l.lon r.lon (clampFrac A p.time l.time r.time))) :
    ∃ t, correctStep A i s = some t ∧ t.length = orig.length ∧
      ∀ (j : Nat) (p : Point F), orig[j]? = some p →
        ∃ q, t[j]? = some q ∧ q.time = p.time ∧ q.anomalous = p.anomalous ∧
          ((p.anomalous = false ∨ i + 1 ≤ j ∨ j = 0) → q = p) ∧
          (p.anomalous = true → 0 < j → j < i + 1 → ∃ l r, t[j - 1]? = some l ∧
            orig[j + 1]? = some r ∧
            q.lat = lerp A l.lat r.lat (clampFrac A p.time l.time r.time) ∧
            q.lon = lerp A l.lon r.lon (clampFrac A p.time l.time r.time)) := by
  obtain ⟨hi0, hi1⟩ := hi
  obtain ⟨hl, hinv⟩ := h
  obtain ⟨pm, hpm⟩ := getElem?_of_lt orig (i - 1) (by omega)
  obtain ⟨pi, hpi⟩ := getElem?_of_lt orig i (by omega)
  obtain ⟨pn, hpn⟩ := getElem?_of_lt orig (i + 1) hi1
  obtain ⟨qm, hqm, hqmt, -, -, -⟩ := hinv _ _ hpm
  obtain ⟨qi, hqi, -, -, hqie, -⟩ := hinv _ _ hpi
  obtain ⟨qn, hqn, -, -, hqne, -⟩ := hinv _ _ hpn
  have hqi' : qi = pi := hqie (Or.inr (Or.inl (le_refl i)))
  have hqn' : qn = pn := hqne (Or.inr (Or.inl (by omega)))
  subst hqi' hqn'
  have hlt : i < s.length := by omega
  cases hb : qi.anomalous with
  | false =>
    refine ⟨s, by simp [correctStep, hqi, hb], hl, ?_⟩
    intro j p hj
    obtain ⟨q, hq, ht, ha, he, hr⟩ := hinv j p hj
    refine ⟨q, hq, ht, ha, ?_, ?_⟩
    · rintro (h1 | h1 | h1)
      · exact he (Or.inl h1)
      · exact he (Or.inr (Or.inl (by omega)))
      · exact he (Or.inr (Or.inr h1))
    · intro h1 h2 h3
      by_cases hji : j = i
      · subst hji
        have hp : p = qi := by rw [hpi] at hj; exact (Option.some.inj hj).symm
        subst hp
        rw [hb] at h1
        exact Bool.noConfusion h1
      · exact hr h1 h2 (by omega)
  | true =>
    refine ⟨s.set i { qi with
        lat := lerp A qm.lat qn.lat (clampFrac A qi.time qm.time qn.time),
        lon := lerp A qm.lon qn.lon (clampFrac A qi.time qm.time qn.time) }, ?_,
      by simp [hl], ?_⟩
    · simp [correctStep, hqi, hb, hqm, hqn, setAt, hlt]
    · intro j p hj
      by_cases hji : j = i
      · subst hji
        have hp : p = qi := by rw [hpi] at hj; exact (Option.some.inj hj).symm
        subst hp
        refine ⟨{ p with
            lat := lerp A qm.lat qn.lat (clampFrac A p.time qm.time qn.time),
            lon := lerp A qm.lon qn.lon (clampFrac A p.time qm.time qn.time) },
          by simp [List.getElem?_set, hlt], rfl, rfl, ?_, ?_⟩
        · rintro (h1 | h1 | h1)
          · rw [hb] at h1; exact Bool.noConfusion h1
          · omega
          · omega
        · intro _ _ _
          refine ⟨qm, qn, ?_, hpn, rfl, rfl⟩
          rw [List.getElem?_set_ne (by omega)]; exact hqm
      · obtain ⟨q, hq, ht, ha, he, hr⟩ := hinv j p hj
        refine ⟨q, by rw [List.getElem?_set_ne (Ne.symm hji)]; exact hq, ht, ha, ?_, ?_⟩
        · rintro (h1 | h1 | h1)
          · exact he (Or.inl h1)
          · exact he (Or.inr (Or.inl (by omega)))
          · exact he (Or.inr (Or.inr h1))
        · intro h1 h2 h3
          obtain ⟨l, r, hl', hr', e1, e2⟩ := hr h1 h2 (by omega)
          refine ⟨l, r, ?_, hr', e1, e2⟩
          rw [List.getElem?_set_ne (by omega)]; exact hl'

/-- What `correct_anomalies` returns: times and flags are kept, unflagged fixes and the
first and last fix are kept whole, and a flagged interior fix `j` is interpolated between
fix `j - 1` as it is in the result and fix `j + 1` of the input. -/
theorem correct_anomalies_spec {F : Type} (A : Arith F) (pts : List (Point F)) :
    ∃ out, correct_anomalies A pts = some out ∧ out.length = pts.length ∧
      ∀ (j : Nat) (p : Point F), pts[j]? = some p →
        ∃ q, out[j]? = some q ∧ q.time = p.time ∧ q.anomalous = p.anomalous ∧
          ((p.anomalous = false ∨ j = 0 ∨ pts.length ≤ j + 1) → q = p) ∧
          (p.anomalous = true → 0 < j → j + 1 < pts.length → ∃ l r, out[j - 1]? = some l ∧
            pts[j + 1]? = some r ∧
            q.lat = lerp A l.lat r.lat (clampFrac A p.time l.time r.time) ∧
            q.lon = lerp A l.lon r.lon (clampFrac A p.time l.time r.time)) := by
  by_cases hn : pts.length < 3
  · refine ⟨pts, by simp [correct_anomalies, hn], rfl, ?_⟩
    intro j p hj
    have hj' : j < pts.length := by
      by_contra hc
      rw [List.getElem?_eq_none (by omega)] at hj
      exact Option.noConfusion hj
    exact ⟨p, hj, rfl, rfl, fun _ => rfl, fun _ h1 h2 => by omega⟩
  · obtain ⟨out, ho, hl, hv⟩ := forLoop_inv (correctStep A)
      (fun i s => s.length = pts.length ∧ ∀ (j : Nat) (p : Point F), pts[j]? = some p →
        ∃ q, s[j]? = some q ∧ q.time = p.time ∧ q.anomalous = p.anomalous ∧
          ((p.anomalous = false ∨ i ≤ j ∨ j = 0) → q = p) ∧
          (p.anomalous = true → 0 < j → j < i → ∃ l r, s[j - 1]? = some l ∧
            pts[j + 1]? = some r ∧
            q.lat = lerp A l.lat r.lat (clampFrac A p.time l.time r.time) ∧
            q.lon = lerp A l.lon r.lon (clampFrac A p.time l.time r.time)))
      (pts.length - 1 - 1) 1 pts
      ⟨rfl, fun j p hj => ⟨p, hj, rfl, rfl, fun _ => rfl, fun _ h1 h2 => by omega⟩⟩
      (fun j t h1 h2 hp => correctStep_frame A pts j t ⟨by omega, by omega⟩ hp)
    refine ⟨out, by simp only [correct_anomalies, hn, if_false]; exact ho, hl, ?_⟩
    intro j p hj
    obtain ⟨q, hq, ht, ha, he, hr⟩ := hv j p hj
    refine ⟨q, hq, ht, ha, ?_, ?_⟩
    · rintro (h1 | h1 | h1)
      · exact he (Or.inl h1)
      · exact he (Or.inr (Or.inr h1))
      · exact he (Or.inr (Or.inl (by omega)))
    · intro h1 h2 h3
      exact hr h1 h2 (by omega)

end CurrentIteration

/-! ## End fixes, interior flags, short and slow trajectories -/

theorem getElem?_lt_length {α : Type} (l : List α) (j : Nat) (x : α) (h : l[j]? = some x) :
    j < l.length := by
  by_contra hc
  rw [List.getElem?_eq_none (by omega)] at h
  exact Option.noConfusion h

/-- C1: in both variants, on a trajectory of at least three fixes (parsed, so unflagged, in
the floating variant) `detect_anomalies` leaves the first and the last fix unflagged, and
after `correct_anomalies` these two fixes are what they were before the pipeline. -/
theorem endpoints_unflagged_and_kept {F : Type} (A : Arith F) (L : Libm F)
    (fpts : List (CurrentIteration.Point F)) (ipts : List Iteration10.GPSPoint)
    (hf : 3 ≤ fpts.length) (hu : ∀ p ∈ fpts, p.anomalous = false)
    (hi : 3 ≤ ipts.length) :
    (∃ d out, CurrentIteration.detect_anomalies A L fpts = some d ∧
      CurrentIteration.correct_anomalies A d = some out ∧
      ∀ (j : Nat) (p : CurrentIteration.Point F), j = 0 ∨ j = fpts.length - 1 →
        fpts[j]? = some p →
        (∃ q, d[j]? = some q ∧ q.anomalous = false) ∧ out[j]? = some p) ∧
    (∃ flags out, Iteration10.detect_anomalies A L ipts = some flags ∧
      Iteration10.correct_anomalies A ipts flags = some out ∧
      ∀ (j : Nat) (p : Iteration10.GPSPoint), j = 0 ∨ j = ipts.length - 1 →
        ipts[j]? = some p →
        flags[j]? = some false ∧ out[j]? = some p) := by
  constructor
  · obtain ⟨d, hd, hdl, hdv⟩ := CurrentIteration.detect_flags_spec A L fpts
    obtain ⟨out, ho, hol, hov⟩ := CurrentIteration.correct_anomalies_spec A d
    refine ⟨d, out, hd, ho, ?_⟩
    intro j p hj hp
    have hjl := getElem?_lt_length fpts j p hp
    have hend : ¬ (0 < j ∧ j + 1 < fpts.length) := by omega
    have hpa : p.anomalous = false := hu p (List.getElem?_mem hp)
    have hdj : d[j]? = some p := by
      rw [hdv j p hp]
      cases p
      simp_all
    obtain ⟨q, hq, -, -, he, -⟩ := hov j p hdj
    refine ⟨⟨p, hdj, hpa⟩, ?_⟩
    rw [hq, he (Or.inl hpa)]
  · obtain ⟨flags, hfl, hfll, hflv⟩ := Iteration10.detect_anomalies_spec A L ipts (by omega)
    refine ⟨flags, _, hfl, Iteration10.correct_anomalies_eq A ipts flags hfll, ?_⟩
    intro j p hj hp
    have hjl := getElem?_lt_length ipts j p hp
    have hend : j = 0 ∨ ipts.length ≤ j + 1 := by omega
    constructor
    · rw [hflv j hjl]
      have : ¬ (0 < j ∧ j + 1 < ipts.length) := by omega
      simp [Iteration10.flagSpec, this]
    · simp only [Iteration10.repairPure, List.getElem?_mapIdx, hp, Option.map_some']
      rw [Iteration10.repairedFix_endpoint A ipts flags j p hend]

theorem endpoints_unflagged_and_kept_witness :
    (∃ d out, CurrentIteration.detect_anomalies Dbl.exact Dbl.sampleLibm
        CurrentIteration.spike = some d ∧
      CurrentIteration.correct_anomalies Dbl.exact d = some out ∧
      ∀ (j : Nat) (p : CurrentIteration.Point Dbl),
        j = 0 ∨ j = CurrentIteration.spike.length - 1 →
        CurrentIteration.spike[j]? = some p →
        (∃ q, d[j]? = some q ∧ q.anomalous = false) ∧ out[j]? = some p) ∧
    (∃ flags out, Iteration10.detect_anomalies Dbl.exact Dbl.sampleLibm
        Iteration10.spike = some flags ∧
      Iteration10.correct_anomalies Dbl.exact Iteration10.spike flags = some out ∧
      ∀ (j : Nat) (p : Iteration10.GPSPoint), j = 0 ∨ j = Iteration10.spike.length - 1 →
        Iteration10.spike[j]? = some p →
        flags[j]? = some false ∧ out[j]? = some p) :=
  endpoints_unflagged_and_kept Dbl.exact Dbl.sampleLibm CurrentIteration.spike
    Iteration10.spike (by decide) (by simp [CurrentIteration.spike]) (by decide)

theorem CurrentIteration.edgeSpeed_fast_iff {F : Type} (A : Arith F) (L : Libm F)
    (hpos : ∀ d : Int, A.lt (A.ofInt 0) (A.ofInt d) = decide (0 < d))
    (h50 : A.lt (A.ofInt 50) (A.ofInt 0) = false) (p q : CurrentIteration.Point F) :
    A.lt (A.ofInt 50) (CurrentIteration.edgeSpeed A L p q) = true ↔
      0 < isub q.time p.time ∧
        A.lt (A.ofInt 50) (A.div (CurrentIteration.haversine A L p.lat p.lon q.lat q.lon)
          (A.ofInt (isub q.time p.time))) = true := by
  unfold CurrentIteration.edgeSpeed
  simp only [hpos]
  by_cases h : 0 < isub q.time p.time
  · simp [h]
  · simp [h, h50]

/-- C2: for an interior index `i` with neighbours `p`, `q`, `r` at `i - 1`, `i`, `i + 1`,
`detect_anomalies` flags `i` exactly when the incoming edge has positive elapsed time and
speed above 50, or the outgoing edge has; an edge with elapsed time `<= 0` contributes
nothing.  Both variants; in the floating variant the times are compared as doubles, which
agrees with the integer comparison by `hpos`, and `0.0 > 50.0` is false by `h50`. -/
theorem interior_flag_iff {F : Type} (A : Arith F) (L : Libm F)
    (fpts : List (CurrentIteration.Point F)) (ipts : List Iteration10.GPSPoint)
    (hu : ∀ p ∈ fpts, p.anomalous = false)
    (hpos : ∀ d : Int, A.lt (A.ofInt 0) (A.ofInt d) = decide (0 < d))
    (h50 : A.lt (A.ofInt 50) (A.ofInt 0) = false)
    (hi : 3 ≤ ipts.length) :
    (∃ d, CurrentIteration.detect_anomalies A L fpts = some d ∧
      ∀ (i : Nat) (p q r : CurrentIteration.Point F), 1 ≤ i →
        fpts[i - 1]? = some p → fpts[i]? = some q → fpts[i + 1]? = some r →
        ∃ x, d[i]? = some x ∧
          (x.anomalous = true ↔
            (0 < isub q.time p.time ∧
              A.lt (A.ofInt 50)
                (A.div (CurrentIteration.haversine A L p.lat p.lon q.lat q.lon)
                  (A.ofInt (isub q.time p.time))) = true) ∨
            (0 < isub r.time q.time ∧
              A.lt (A.ofInt 50)
                (A.div (CurrentIteration.haversine A L q.lat q.lon r.lat r.lon)
                  (A.ofInt (isub r.time q.time))) = true))) ∧
    (∃ flags, Iteration10.detect_anomalies A L ipts = some flags ∧
      ∀ (i : Nat) (p q r : Iteration10.GPSPoint), 1 ≤ i →
        ipts[i - 1]? = some p → ipts[i]? = some q → ipts[i + 1]? = some r →
        (flags[i]? = some true ↔
          (0 < isub q.time p.time ∧
            A.lt (A.ofInt 50)
              (A.div (Iteration10.haversine A L p.lat p.lon q.lat q.lon)
                (A.ofInt (isub q.time p.time))) = true) ∨
          (0 < isub r.time q.time ∧
            A.lt (A.ofInt 50)
              (A.div (Iteration10.haversine A L q.lat q.lon r.lat r.lon)
                (A.ofInt (isub r.time q.time))) = true))) := by
  constructor
  · obtain ⟨d, hd, -, hdv⟩ := CurrentIteration.detect_flags_spec A L fpts
    refine ⟨d, hd, ?_⟩
    intro i p q r h1 hp hq hr
    have hrl := getElem?_lt_length fpts (i + 1) r hr
    have hqa : q.anomalous = false := hu q (List.getElem?_mem hq)
    have hint : 0 < i ∧ i + 1 < fpts.length := by omega
    refine ⟨_, hdv i q hq, ?_⟩
    rw [← CurrentIteration.edgeSpeed_fast_iff A L hpos h50 p q,
      ← CurrentIteration.edgeSpeed_fast_iff A L hpos h50 q r]
    simp [hqa, hint, CurrentIteration.flagCond, hp, hq, hr]
  · obtain ⟨flags, hfl, -, hflv⟩ := Iteration10.detect_anomalies_spec A L ipts (by omega)
    refine ⟨flags, hfl, ?_⟩
    intro i p q r h1 hp hq hr
    have hrl := getElem?_lt_length ipts (i + 1) r hr
    have hint : 0 < i ∧ i + 1 < ipts.length := by omega
    have hq' : ipts[i - 1 + 1]? = some q := by rw [Nat.sub_add_cancel h1]; exact hq
    rw [hflv i (by omega), ← Iteration10.fastEdge_iff A L p q,
      ← Iteration10.fastEdge_iff A L q r]
    simp [Iteration10.flagSpec, hint, Iteration10.edgeFast_eq A L ipts (i - 1) p q hp hq',
      Iteration10.edgeFast_eq A L ipts i q r hq hr]

theorem interior_flag_iff_witness :
    (∃ d, CurrentIteration.detect_anomalies Dbl.exact Dbl.sampleLibm
        CurrentIteration.spike = some d ∧
      ∀ (i : Nat) (p q r : CurrentIteration.Point Dbl), 1 ≤ i →
        CurrentIteration.spike[i - 1]? = some p → CurrentIteration.spike[i]? = some q →
        CurrentIteration.spike[i + 1]? = some r →
        ∃ x, d[i]? = some x ∧
          (x.anomalous = true ↔
            (0 < isub q.time p.time ∧
              Dbl.exact.lt (Dbl.exact.ofInt 50)
                (Dbl.exact.div
                  (CurrentIteration.haversine Dbl.exact Dbl.sampleLibm p.lat p.lon q.lat q.lon)
                  (Dbl.exact.ofInt (isub q.time p.time))) = true) ∨
            (0 < isub r.time q.time ∧
              Dbl.exact.lt (Dbl.exact.ofInt 50)
                (Dbl.exact.div
                  (CurrentIteration.haversine Dbl.exact Dbl.sampleLibm q.lat q.lon r.lat r.lon)
                  (Dbl.exact.ofInt (isub r.time q.time))) = true))) ∧
    (∃ flags, Iteration10.detect_anomalies Dbl.exact Dbl.sampleLibm
        Iteration10.spike = some flags ∧
      ∀ (i : Nat) (p q r : Iteration10.GPSPoint), 1 ≤ i →
        Iteration10.spike[i - 1]? = some p → Iteration10.spike[i]? = some q →
        Iteration10.spike[i + 1]? = some r →
        (flags[i]? = some true ↔
          (0 < isub q.time p.time ∧
            Dbl.exact.lt (Dbl.exact.ofInt 50)
              (Dbl.exact.div
                (Iteration10.haversine Dbl.exact Dbl.sampleLibm p.lat p.lon q.lat q.lon)
                (Dbl.exact.ofInt (isub q.time p.time))) = true) ∨
          (0 < isub r.time q.time ∧
            Dbl.exact.lt (Dbl.exact.ofInt 50)
              (Dbl.exact.div
                (Iteration10.haversine Dbl.exact Dbl.sampleLibm q.lat q.lon r.lat r.lon)
                (Dbl.exact.ofInt (isub r.time q.time))) = true))) :=
  interior_flag_iff Dbl.exact Dbl.sampleLibm CurrentIteration.spike Iteration10.spike
    (by simp [CurrentIteration.spike])
    (by intro d; simp [Dbl.exact, Dbl.lt])
    (by simp [Dbl.exact, Dbl.lt])
    (by decide)

/-- Trajectories of fewer than three fixes, non-empty in the integer variant: detection
flags nothing and repair returns the trajectory as it is. -/
theorem short_trajectory_untouched {F : Type} (A : Arith F) (L : Libm F)
    (fpts : List (CurrentIteration.Point F)) (ipts : List Iteration10.GPSPoint)
    (hf : fpts.length < 3) (hi : 0 < ipts.length ∧ ipts.length < 3) :
    (CurrentIteration.detect_anomalies A L fpts = some fpts ∧
      CurrentIteration.correct_anomalies A fpts = some fpts) ∧
    (Iteration10.detect_anomalies A L ipts = some (List.replicate ipts.length false) ∧
      Iteration10.correct_anomalies A ipts (List.replicate ipts.length false) = some ipts) := by
  refine ⟨⟨by simp [CurrentIteration.detect_anomalies, hf],
    by simp [CurrentIteration.correct_anomalies, hf]⟩, ?_,
    by simp [Iteration10.correct_anomalies, hi.2]⟩
  obtain ⟨flags, hfl, hfll, hflv⟩ := Iteration10.detect_anomalies_spec A L ipts hi.1
  rw [hfl]
  congr 1
  apply List.ext_getElem?
  intro j
  by_cases hj : j < ipts.length
  · rw [hflv j hj, List.getElem?_replicate_of_lt hj]
    have : ¬ (0 < j ∧ j + 1 < ipts.length) := by omega
    simp [Iteration10.flagSpec, this]
  · rw [List.getElem?_eq_none (by omega), List.getElem?_eq_none (by simp; omega)]

/-- C4: on a trajectory of size 0, 1 or 2 detection and repair flag nothing and change
nothing.  In the floating variant `detect_anomalies` and `correct_anomalies` return the
vector they were given, flags included.  In the integer variant the vector that `main`
takes from the parser to `output_json` is the one it was given; `main` calls
`detect_anomalies` and `correct_anomalies` for size 2 only, and on a non-empty vector
`detect_anomalies` returns flags that are all false and `correct_anomalies` the vector it
was given. -/
theorem short_trajectory_passes_unchanged {F : Type} (A : Arith F) (L : Libm F)
    (fpts : List (CurrentIteration.Point F)) (ipts : List Iteration10.GPSPoint)
    (hf : fpts.length < 3) (hi : ipts.length < 3) :
    (CurrentIteration.detect_anomalies A L fpts = some fpts ∧
      CurrentIteration.correct_anomalies A fpts = some fpts ∧
      CurrentIteration.detectAndCorrect A L fpts = some fpts) ∧
    (Iteration10.detectAndCorrect A L ipts = some ipts ∧
      (0 < ipts.length →
        Iteration10.detect_anomalies A L ipts = some (List.replicate ipts.length false) ∧
        Iteration10.correct_anomalies A ipts (List.replicate ipts.length false) =
          some ipts)) := by
  have hfd : CurrentIteration.detect_anomalies A L fpts = some fpts := by
    simp [CurrentIteration.detect_anomalies, hf]
  have hfc : CurrentIteration.correct_anomalies A fpts = some fpts := by
    simp [CurrentIteration.correct_anomalies, hf]
  refine ⟨⟨hfd, hfc, by simp [CurrentIteration.detectAndCorrect, hfd, hfc]⟩, ?_,
    fun hn => (short_trajectory_untouched A L [] ipts (by simp) ⟨hn, hi⟩).2⟩
  unfold Iteration10.detectAndCorrect
  by_cases h2 : ipts.length < 2
  · rw [if_pos h2]
  · have h := (short_trajectory_untouched A L [] ipts (by simp) ⟨by omega, hi⟩).2
    rw [if_neg h2, h.1]
    exact h.2

theorem short_trajectory_passes_unchanged_witness :
    ((CurrentIteration.detect_anomalies Dbl.exact Dbl.sampleLibm CurrentIteration.pair =
        some CurrentIteration.pair ∧
      CurrentIteration.correct_anomalies Dbl.exact CurrentIteration.pair =
        some CurrentIteration.pair ∧
      CurrentIteration.detectAndCorrect Dbl.exact Dbl.sampleLibm CurrentIteration.pair =
        some CurrentIteration.pair) ∧
    (Iteration10.detectAndCorrect Dbl.exact Dbl.sampleLibm Iteration10.pair =
        some Iteration10.pair ∧
      (0 < Iteration10.pair.length →
        Iteration10.detect_anomalies Dbl.exact Dbl.sampleLibm Iteration10.pair =
          some (List.replicate Iteration10.pair.length false) ∧
        Iteration10.correct_anomalies Dbl.exact Iteration10.pair
          (List.replicate Iteration10.pair.length false) = some Iteration10.pair))) ∧
    Iteration10.detectAndCorrect Dbl.exact Dbl.sampleLibm [] = some [] :=
  ⟨short_trajectory_passes_unchanged Dbl.exact Dbl.sampleLibm CurrentIteration.pair
    Iteration10.pair (by decide) (by decide),
    (short_trajectory_passes_unchanged Dbl.exact Dbl.sampleLibm [] [] (by decide)
      (by decide)).2.1⟩

/-- C5: `correct_anomalies` returns a trajectory of the same length in which every fix has
its timestamp, and every unflagged fix its latitude and longitude, from before the call.
Both variants; in the integer variant for every flag sequence as long as the trajectory. -/
theorem repair_frame {F : Type} (A : Arith F)
    (fpts : List (CurrentIteration.Point F)) (ipts : List Iteration10.GPSPoint)
    (flags : List Bool) (hlen : flags.length = ipts.length) :
    (∃ out, CurrentIteration.correct_anomalies A fpts = some out ∧
      out.length = fpts.length ∧
      ∀ (j : Nat) (p : CurrentIteration.Point F), fpts[j]? = some p →
        ∃ q, out[j]? = some q ∧ q.time = p.time ∧
          (p.anomalous = false → q.lat = p.lat ∧ q.lon = p.lon)) ∧
    (∃ out, Iteration10.correct_anomalies A ipts flags = some out ∧
      out.length = ipts.length ∧
      ∀ (j : Nat) (p : Iteration10.GPSPoint), ipts[j]? = some p →
        ∃ q, out[j]? = some q ∧ q.time = p.time ∧
          (flags[j]? = some false → q.lat = p.lat ∧ q.lon = p.lon)) := by
  constructor
  · obtain ⟨out, ho, hol, hov⟩ := CurrentIteration.correct_anomalies_spec A fpts
    refine ⟨out, ho, hol, ?_⟩
    intro j p hp
    obtain ⟨q, hq, ht, -, he, -⟩ := hov j p hp
    refine ⟨q, hq, ht, fun ha => ?_⟩
    rw [he (Or.inl ha)]
    exact ⟨rfl, rfl⟩
  · refine ⟨_, Iteration10.correct_anomalies_eq A ipts flags hlen,
      by simp [Iteration10.repairPure], ?_⟩
    intro j p hp
    refine ⟨Iteration10.repairedFix A ipts flags j p,
      by simp [Iteration10.repairPure, hp],
      Iteration10.repairedFix_time A ipts flags j p, fun hfl => ?_⟩
    rw [Iteration10.repairedFix_unflagged A ipts flags j p (by simp [hfl])]
    exact ⟨rfl, rfl⟩

theorem repair_frame_witness :
    (∃ out, CurrentIteration.correct_anomalies Dbl.exact CurrentIteration.spike = some out ∧
      out.length = CurrentIteration.spike.length ∧
      ∀ (j : Nat) (p : CurrentIteration.Point Dbl), CurrentIteration.spike[j]? = some p →
        ∃ q, out[j]? = some q ∧ q.time = p.time ∧
          (p.anomalous = false → q.lat = p.lat ∧ q.lon = p.lon)) ∧
    (∃ out, Iteration10.correct_anomalies Dbl.exact Iteration10.spike
        [false, true, false] = some out ∧
      out.length = Iteration10.spike.length ∧
      ∀ (j : Nat) (p : Iteration10.GPSPoint), Iteration10.spike[j]? = some p →
        ∃ q, out[j]? = some q ∧ q.time = p.time ∧
          (([false, true, false] : List Bool)[j]? = some false →
            q.lat = p.lat ∧ q.lon = p.lon)) :=
  repair_frame Dbl.exact CurrentIteration.spike Iteration10.spike [false, true, false]
    (by decide)

/-- A trajectory none of whose edges passes the speed test, non-empty in the integer
variant: detection flags nothing and repair returns the trajectory as it is. -/
theorem slow_trajectory_untouched {F : Type} (A : Arith F) (L : Libm F)
    (fpts : List (CurrentIteration.Point F)) (ipts : List Iteration10.GPSPoint)
    (hu : ∀ p ∈ fpts, p.anomalous = false)
    (hslowF : ∀ (j : Nat) (p q : CurrentIteration.Point F), fpts[j]? = some p →
      fpts[j + 1]? = some q → A.lt (A.ofInt 50) (CurrentIteration.edgeSpeed A L p q) = false)
    (hn : 0 < ipts.length)
    (hslowI : ∀ (j : Nat) (p q : Iteration10.GPSPoint), ipts[j]? = some p →
      ipts[j + 1]? = some q → Iteration10.fastEdge A L p q = false) :
    (CurrentIteration.detect_anomalies A L fpts = some fpts ∧
      CurrentIteration.correct_anomalies A fpts = some fpts) ∧
    (Iteration10.detect_anomalies A L ipts = some (List.replicate ipts.length false) ∧
      Iteration10.correct_anomalies A ipts (List.replicate ipts.length false) = some ipts) := by
  refine ⟨⟨?_, ?_⟩, ?_, ?_⟩
  · obtain ⟨d, hd, hdl, hdv⟩ := CurrentIteration.detect_flags_spec A L fpts
    rw [hd]
    congr 1
    apply List.ext_getElem?
    intro j
    by_cases hj : j < fpts.length
    · obtain ⟨p, hp⟩ := getElem?_of_lt fpts j hj
      rw [hdv j p hp, hp]
      have hpa : p.anomalous = false := hu p (List.getElem?_mem hp)
      by_cases hg : 0 < j ∧ j + 1 < fpts.length
      · have hc : CurrentIteration.flagCond A L fpts j = false := by
          unfold CurrentIteration.flagCond
          split
          · rename_i pm pi pn h1 h2 h3
            have h2' : fpts[j - 1 + 1]? = some pi := by
              rw [Nat.sub_add_cancel (by omega)]; exact h2
            simp [hslowF (j - 1) pm pi h1 h2', hslowF j pi pn h2 h3]
          · rfl
        cases p
        simp_all
      · cases p
        simp_all
    · rw [List.getElem?_eq_none (by omega), List.getElem?_eq_none (by omega)]
  · obtain ⟨out, ho, hol, hov⟩ := CurrentIteration.correct_anomalies_spec A fpts
    rw [ho]
    congr 1
    apply List.ext_getElem?
    intro j
    by_cases hj : j < fpts.length
    · obtain ⟨p, hp⟩ := getElem?_of_lt fpts j hj
      obtain ⟨q, hq, -, -, he, -⟩ := hov j p hp
      rw [hq, hp, he (Or.inl (hu p (List.getElem?_mem hp)))]
    · rw [List.getElem?_eq_none (by omega), List.getElem?_eq_none (by omega)]
  · obtain ⟨flags, hfl, hfll, hflv⟩ := Iteration10.detect_anomalies_spec A L ipts hn
    rw [hfl]
    congr 1
    apply List.ext_getElem?
    intro j
    by_cases hj : j < ipts.length
    · rw [hflv j hj, List.getElem?_replicate_of_lt hj]
      have he : ∀ k, Iteration10.edgeFast A L ipts k = false := by
        intro k
        unfold Iteration10.edgeFast
        split
        · rename_i p q h1 h2
          exact hslowI k p q h1 h2
        · rfl
      simp [Iteration10.flagSpec, he]
    · rw [List.getElem?_eq_none (by omega), List.getElem?_eq_none (by simp; omega)]
  · rw [Iteration10.correct_anomalies_eq A ipts _ (by simp)]
    congr 1
    symm
    apply Iteration10.eq_repairPure A ipts _ ipts rfl
    intro j p hp
    have hj := getElem?_lt_length ipts j p hp
    rw [hp, Iteration10.repairedFix_unflagged A ipts _ j p
      (by rw [List.getElem?_replicate_of_lt hj]; simp)]

/-- C10: on a trajectory none of whose edges passes the speed test (for every pair of
consecutive fixes the test `speed > 50` of the code is false, an edge with elapsed time
`<= 0` having speed 0) detection flags no fix and the trajectory after repair is the input
trajectory.  In the floating variant the fixes come in unflagged, as the parser builds
them.  In the integer variant the vector that `main` takes from the parser to
`output_json` is the one it was given, whatever its size, and on a non-empty vector
`detect_anomalies` returns flags that are all false and `correct_anomalies` the vector it
was given. -/
theorem slow_trajectory_passes_unchanged {F : Type} (A : Arith F) (L : Libm F)
    (fpts : List (CurrentIteration.Point F)) (ipts : List Iteration10.GPSPoint)
    (hu : ∀ p ∈ fpts, p.anomalous = false)
    (hslowF : ∀ (j : Nat) (p q : CurrentIteration.Point F), fpts[j]? = some p →
      fpts[j + 1]? = some q → A.lt (A.ofInt 50) (CurrentIteration.edgeSpeed A L p q) = false)
    (hslowI : ∀ (j : Nat) (p q : Iteration10.GPSPoint), ipts[j]? = some p →
      ipts[j + 1]? = some q → Iteration10.fastEdge A L p q = false) :
    (CurrentIteration.detect_anomalies A L fpts = some fpts ∧
      CurrentIteration.correct_anomalies A fpts = some fpts ∧
      CurrentIteration.detectAndCorrect A L fpts = some fpts) ∧
    (Iteration10.detectAndCorrect A L ipts = some ipts ∧
      (0 < ipts.length →
        Iteration10.detect_anomalies A L ipts = some (List.replicate ipts.length false) ∧
        Iteration10.correct_anomalies A ipts (List.replicate ipts.length false) =
          some ipts)) := by
  have hF := (slow_trajectory_untouched A L fpts [⟨0, 0, 0⟩] hu hslowF (by simp)
    (fun j p q hp hq => by simp at hq)).1
  have hI : 0 < ipts.length →
      Iteration10.detect_anomalies A L ipts = some (List.replicate ipts.length false) ∧
      Iteration10.correct_anomalies A ipts (List.replicate ipts.length false) = some ipts :=
    fun hn => (slow_trajectory_untouched A L [] ipts (by simp)
      (fun j p q hp => by simp at hp) hn hslowI).2
  refine ⟨⟨hF.1, hF.2, by simp [CurrentIteration.detectAndCorrect, hF.1, hF.2]⟩, ?_, hI⟩
  unfold Iteration10.detectAndCorrect
  by_cases h2 : ipts.length < 2
  · rw [if_pos h2]
  · have h := hI (by omega)
    rw [if_neg h2, h.1]
    exact h.2

theorem slow_trajectory_passes_unchanged_witness :
    (CurrentIteration.detect_anomalies Dbl.exact Dbl.sampleLibm CurrentIteration.still =
        some CurrentIteration.still ∧
      CurrentIteration.correct_anomalies Dbl.exact CurrentIteration.still =
        some CurrentIteration.still ∧
      CurrentIteration.detectAndCorrect Dbl.exact Dbl.sampleLibm CurrentIteration.still =
        some CurrentIteration.still) ∧
    (Iteration10.detectAndCorrect Dbl.exact Dbl.sampleLibm Iteration10.still =
        some Iteration10.still ∧
      (0 < Iteration10.still.length →
        Iteration10.detect_anomalies Dbl.exact Dbl.sampleLibm Iteration10.still =
          some (List.replicate Iteration10.still.length false) ∧
        Iteration10.correct_anomalies Dbl.exact Iteration10.still
          (List.replicate Iteration10.still.length false) = some Iteration10.still)) :=
  slow_trajectory_passes_unchanged Dbl.exact Dbl.sampleLibm CurrentIteration.still
    Iteration10.still (by simp [CurrentIteration.still])
    (by
      intro j p q hp hq
      have hj := getElem?_lt_length _ (j + 1) q hq
      have hj3 : j < 2 := by simp [CurrentIteration.still] at hj; omega
      interval_cases j
      · simp only [CurrentIteration.still, List.getElem?_cons_zero, List.getElem?_cons_succ,
          Option.some.injEq] at hp hq
        subst hp hq
        decide!
      · simp only [CurrentIteration.still, List.getElem?_cons_zero, List.getElem?_cons_succ,
          Option.some.injEq] at hp hq
        subst hp hq
        decide!)
    (by
      intro j p q hp hq
      have hj := getElem?_lt_length _ (j + 1) q hq
      have hj3 : j < 2 := by simp [Iteration10.still] at hj; omega
      interval_cases j
      · simp only [Iteration10.still, List.getElem?_cons_zero, List.getElem?_cons_succ,
          Option.some.injEq] at hp hq
        subst hp hq
        decide!
      · simp only [Iteration10.still, List.getElem?_cons_zero, List.getElem?_cons_succ,
          Option.some.injEq] at hp hq
        subst hp hq
        decide!)

/-! ## Anchors of the integer variant -/

namespace Iteration10

/-- When `p` is the greatest unflagged index below `i` and `q` the least unflagged index
above `i`, the two searches of `correct_anomalies` find `p` and `q`, and the repaired fix
is the interpolation between the original fixes at `p` and `q`. -/
theorem repairedFix_anchors {F : Type} (A : Arith F) (orig : List GPSPoint)
    (flags : List Bool) (hlen : flags.length = orig.length) (i p q : Nat)
    (pi pp pq : GPSPoint) (hfi : flags[i]? = some true)
    (hpi : p < i) (hiq : i < q)
    (hfp : flags[p]? = some false) (hfq : flags[q]? = some false)
    (hbelow : ∀ j, p < j → j < i → flags[j]? = some true)
    (habove : ∀ j, i < j → j < q → flags[j]? = some true)
    (hop : orig[p]? = some pp) (hoq : orig[q]? = some pq)
    (ht : pp.time ≠ pq.time) :
    repairedFix A orig flags i pi =
      { lat := interp A pp.time pq.time pi.time pp.lat pq.lat,
        lon := interp A pp.time pq.time pi.time pp.lon pq.lon,
        time := pi.time } := by
  have hql := getElem?_lt_length orig q pq hoq
  obtain ⟨r, hr, hrle, hr0, hrall⟩ := findPrev_spec flags (i - 1) (by omega)
  obtain ⟨u, hu, huge, hule, hu0, huall⟩ :=
    findNextAux_spec flags (orig.length - 1 - (i + 1)) (i + 1) (by omega)
  have hrp : r = p := by
    rcases Nat.lt_trichotomy r p with h | h | h
    · have := hrall p h (by omega)
      rw [hfp] at this; exact absurd this (by simp)
    · exact h
    · rcases hr0 with h0 | h0
      · omega
      · have := hbelow r h (by omega)
        rw [h0] at this; exact absurd this (by simp)
  have huq : u = q := by
    rcases Nat.lt_trichotomy u q with h | h | h
    · rcases hu0 with h0 | h0
      · omega
      · have := habove u (by omega) h
        rw [h0] at this; exact absurd this (by simp)
    · exact h
    · have := huall q (by omega) h
      rw [hfq] at this; exact absurd this (by simp)
  subst hrp huq
  have hne : ¬ (i = 0 ∨ orig.length ≤ i + 1) := by omega
  have ht' : ¬ pq.time = pp.time := fun h => ht h.symm
  unfold repairedFix
  rw [if_neg hne, hfi, if_pos rfl]
  simp [findNext, hr, hu, hfp, hfq, hop, hoq, ht']

/-- In flags returned by `detect_anomalies` every flagged index has an unflagged index
below it and one above it, hence a greatest and a least such. -/
theorem anchors_exist (flags : List Bool) (n : Nat) (hl : flags.length = n)
    (h0 : flags[0]? = some false) (hlast : flags[n - 1]? = some false) (i : Nat)
    (hfi : flags[i]? = some true) :
    ∃ p q, p < i ∧ i < q ∧ flags[p]? = some false ∧ flags[q]? = some false ∧
      (∀ j, p < j → j < i → flags[j]? = some true) ∧
      (∀ j, i < j → j < q → flags[j]? = some true) := by
  have hil := getElem?_lt_length flags i true hfi
  have hi0 : 0 < i := by
    by_contra hc
    have : i = 0 := by omega
    subst this
    rw [h0] at hfi; exact absurd hfi (by simp)
  have hin : i + 1 < n := by
    by_contra hc
    have : i = n - 1 := by omega
    subst this
    rw [hlast] at hfi; exact absurd hfi (by simp)
  obtain ⟨r, -, hrle, hr0, hrall⟩ := findPrev_spec flags (i - 1) (by omega)
  obtain ⟨u, -, huge, hule, hu0, huall⟩ :=
    findNextAux_spec flags (n - 1 - (i + 1)) (i + 1) (by omega)
  refine ⟨r, u, by omega, by omega, ?_, ?_, fun j h1 h2 => hrall j h1 (by omega),
    fun j h1 h2 => huall j (by omega) h2⟩
  · rcases hr0 with h | h
    · subst h; exact h0
    · exact h
  · rcases hu0 with h | h
    · have : u = n - 1 := by omega
      subst this; exact hlast
    · exact h

end Iteration10

/-! ## The spike example -/

theorem Dbl.lt_div_one (h : Dbl) (hh : Dbl.lt (.fin 50) h = true) :
    Dbl.lt (.fin 50) (Dbl.div h (.fin 1)) = true := by
  cases h <;> simp_all [Dbl.lt, Dbl.div]

theorem isub_one_zero : isub 1 0 = 1 := by decide

theorem CurrentIteration.spike_first_edge_fast (L : Libm Dbl)
    (hF : Dbl.lt (.fin 50)
      (CurrentIteration.haversine Dbl.exact L (.fin 0) (.fin 0) (.fin 10) (.fin 10)) = true) :
    Dbl.exact.lt (Dbl.exact.ofInt 50)
      (CurrentIteration.edgeSpeed Dbl.exact L
        { lat := .fin 0, lon := .fin 0, time := 0 }
        { lat := .fin 10, lon := .fin 10, time := 1 }) = true := by
  rw [CurrentIteration.edgeSpeed_fast_iff Dbl.exact L (by intro d; simp [Dbl.exact, Dbl.lt])
    (by simp [Dbl.exact, Dbl.lt])]
  refine ⟨by decide, ?_⟩
  have h := Dbl.lt_div_one _ hF
  simp only [isub_one_zero]
  simpa [Dbl.exact] using h

theorem Iteration10.spike_incoming_edge_fast (L : Libm Dbl)
    (hI : Dbl.lt (.fin 50)
      (Iteration10.haversine Dbl.exact L 0 0 10000000 10000000) = true) :
    Iteration10.fastEdge Dbl.exact L { lat := 0, lon := 0, time := 0 }
      { lat := 10000000, lon := 10000000, time := 1 } = true := by
  rw [Iteration10.fastEdge_iff]
  refine ⟨by decide, ?_⟩
  have h := Dbl.lt_div_one _ hI
  simp only [isub_one_zero]
  simpa [Dbl.exact] using h

/-- C9: on the three-fix trajectory `(0, 0, 0)`, `(10, 10, 1)`, `(0.0002, 0.0002, 2)`
(integer variant: `0`, `10000000`, `200` microdegrees) detection flags exactly index 1 and
repair replaces fix 1 by the midpoint of fixes 0 and 2, `0.0001` (`100` microdegrees), at
time 1.  Arithmetic is exact; of the C library the statement uses only that the haversine
distance of the first edge, about 1568 km, comes out above 50 m. -/
theorem spike_flagged_and_repaired (L : Libm Dbl)
    (hF : Dbl.lt (.fin 50)
      (CurrentIteration.haversine Dbl.exact L (.fin 0) (.fin 0) (.fin 10) (.fin 10)) = true)
    (hI : Dbl.lt (.fin 50)
      (Iteration10.haversine Dbl.exact L 0 0 10000000 10000000) = true) :
    (∃ d, CurrentIteration.detect_anomalies Dbl.exact L CurrentIteration.spike = some d ∧
      d.map (fun p => p.anomalous) = [false, true, false] ∧
      CurrentIteration.correct_anomalies Dbl.exact d =
        some [{ lat := .fin 0, lon := .fin 0, time := 0, anomalous := false },
              { lat := .fin (1 / 10000), lon := .fin (1 / 10000), time := 1, anomalous := true },
              { lat := .fin (2 / 10000), lon := .fin (2 / 10000), time := 2,
                anomalous := false }]) ∧
    (Iteration10.detect_anomalies Dbl.exact L Iteration10.spike = some [false, true, false] ∧
      Iteration10.correct_anomalies Dbl.exact Iteration10.spike [false, true, false] =
        some [{ lat := 0, lon := 0, time := 0 }, { lat := 100, lon := 100, time := 1 },
              { lat := 200, lon := 200, time := 2 }]) := by
  have hF' := CurrentIteration.spike_first_edge_fast L hF
  have hI' := Iteration10.spike_incoming_edge_fast L hI
  refine ⟨⟨[{ lat := .fin 0, lon := .fin 0, time := 0, anomalous := false },
            { lat := .fin 10, lon := .fin 10, time := 1, anomalous := true },
            { lat := .fin (2 / 10000), lon := .fin (2 / 10000), time := 2,
              anomalous := false }], ?_, rfl, ?_⟩, ?_, ?_⟩
  · simp [CurrentIteration.detect_anomalies, CurrentIteration.spike, forRange, forLoop,
      CurrentIteration.detectStep, setAt, hF']
  · simp [CurrentIteration.correct_anomalies, forRange, forLoop,
      CurrentIteration.correctStep, CurrentIteration.clampFrac, CurrentIteration.lerp, setAt,
      isub, wrap32, Dbl.exact, Dbl.lt, Dbl.div, Dbl.add, Dbl.sub, Dbl.mul, Dbl.neg]
    norm_num
  · cases h2 : Iteration10.fastEdge Dbl.exact L { lat := 10000000, lon := 10000000, time := 1 }
        { lat := 200, lon := 200, time := 2 } <;>
      simp [Iteration10.detect_anomalies, Iteration10.spike, forRange, forLoop,
        Iteration10.detectIn, Iteration10.detectOut, setAt, hI', h2]
  · simp [Iteration10.correct_anomalies, Iteration10.spike, forRange, forLoop,
      Iteration10.correctStep, Iteration10.findPrev, Iteration10.findNext,
      Iteration10.findNextAux, Iteration10.interp, setAt, isub, wrap32, Dbl.exact, Dbl.div,
      Dbl.add, Dbl.mul, Dbl.round, Dbl.toInt, Dbl.roundQ]
    norm_num

theorem spike_flagged_and_repaired_witness :
    (∃ d, CurrentIteration.detect_anomalies Dbl.exact Dbl.sampleLibm
        CurrentIteration.spike = some d ∧
      d.map (fun p => p.anomalous) = [false, true, false] ∧
      CurrentIteration.correct_anomalies Dbl.exact d =
        some [{ lat := .fin 0, lon := .fin 0, time := 0, anomalous := false },
              { lat := .fin (1 / 10000), lon := .fin (1 / 10000), time := 1, anomalous := true },
              { lat := .fin (2 / 10000), lon := .fin (2 / 10000), time := 2,
                anomalous := false }]) ∧
    (Iteration10.detect_anomalies Dbl.exact Dbl.sampleLibm Iteration10.spike =
        some [false, true, false] ∧
      Iteration10.correct_anomalies Dbl.exact Iteration10.spike [false, true, false] =
        some [{ lat := 0, lon := 0, time := 0 }, { lat := 100, lon := 100, time := 1 },
              { lat := 200, lon := 200, time := 2 }]) :=
  spike_flagged_and_repaired Dbl.sampleLibm (by decide!) (by decide!)

/-! ## Anchors and interpolation (C3) -/

/-- C3 (counterexample): in the floating variant, on four fixes with latitudes
`0, 64, 64, 0` at times `0, 1, 2, 3` and the two interior fixes flagged, fix 1 has the
unflagged anchors 0 and 3, both at latitude 0, so every interpolation between them is 0;
`correct_anomalies` writes 32, the midpoint of fixes 0 and 2. -/
theorem neighbours_not_anchors_counterexample :
    ∃ out q, CurrentIteration.correct_anomalies Dbl.exact CurrentIteration.chain = some out ∧
      out[1]? = some q ∧ q.lat = .fin 32 ∧
      Dbl.exact.add (.fin 0)
        (Dbl.exact.mul (Dbl.exact.div (Dbl.exact.ofInt (isub 1 0)) (Dbl.exact.ofInt (isub 3 0)))
          (Dbl.exact.sub (.fin 0) (.fin 0))) = .fin 0 ∧
      q.lat ≠ .fin 0 := by
  refine ⟨[{ lat := .fin 0, lon := .fin 0, time := 0, anomalous := false },
           { lat := .fin 32, lon := .fin 0, time := 1, anomalous := true },
           { lat := .fin 16, lon := .fin 0, time := 2, anomalous := true },
           { lat := .fin 0, lon := .fin 0, time := 3, anomalous := false }], _, ?_, rfl, rfl,
    ?_, by simp⟩
  · simp [CurrentIteration.correct_anomalies, CurrentIteration.chain, forRange, forLoop,
      CurrentIteration.correctStep, CurrentIteration.clampFrac, CurrentIteration.lerp, setAt,
      isub, wrap32, Dbl.exact, Dbl.lt, Dbl.div, Dbl.add, Dbl.sub, Dbl.mul, Dbl.neg]
    norm_num
  · simp [isub, wrap32, Dbl.exact, Dbl.div, Dbl.add, Dbl.sub, Dbl.mul, Dbl.neg]

theorem Iteration10.detect_flags_shape {F : Type} (A : Arith F) (L : Libm F)
    (ipts : List Iteration10.GPSPoint) (flags : List Bool)
    (hdet : Iteration10.detect_anomalies A L ipts = some flags) :
    flags.length = ipts.length ∧ flags[0]? = some false ∧
      flags[ipts.length - 1]? = some false := by
  have hn : 0 < ipts.length := by
    cases ipts with
    | nil => rw [Iteration10.detect_anomalies_nil] at hdet; exact Option.noConfusion hdet
    | cons a l => simp
  obtain ⟨fl, hfl, hl, hv⟩ := Iteration10.detect_anomalies_spec A L ipts hn
  rw [hdet] at hfl
  have e : flags = fl := Option.some.inj hfl
  subst e
  refine ⟨hl, ?_, ?_⟩
  · rw [hv 0 hn]; simp [Iteration10.flagSpec]
  · rw [hv (ipts.length - 1) (by omega)]
    simp only [Iteration10.flagSpec]
    rw [decide_eq_false (by omega)]
    rfl

/-- C3 (amended): in the integer variant, with flags returned by `detect_anomalies`, every
flagged index `i` has a greatest unflagged index `p` below it and a least unflagged index
`q` above it, and when the fixes at `p` and `q` differ in time `correct_anomalies` sets
fix `i` to `round(v_p + alpha * (v_q - v_p))` for latitude and longitude, with
`alpha = (t_i - t_p) / (t_q - t_p)` and the values of the trajectory before the repair;
so three consecutive flagged fixes between two unflagged ones are all repaired from that
outer pair.  The floating variant searches for no anchor: it sets a flagged interior fix
`i` to the interpolation, with the fraction clamped to `[0, 1]`, between fix `i - 1` as the
pass has left it (repaired already when it is flagged, the input fix when it is not) and
fix `i + 1` of the input, flagged or not. -/
theorem flagged_fix_interpolated {F : Type} (A : Arith F) (L : Libm F)
    (fpts : List (CurrentIteration.Point F)) (ipts : List Iteration10.GPSPoint)
    (flags : List Bool) (hdet : Iteration10.detect_anomalies A L ipts = some flags) :
    (∃ out, Iteration10.correct_anomalies A ipts flags = some out ∧
      (∀ (i : Nat), flags[i]? = some true →
        ∃ p q, p < i ∧ i < q ∧ flags[p]? = some false ∧ flags[q]? = some false ∧
          (∀ j, p < j → j < i → flags[j]? = some true) ∧
          (∀ j, i < j → j < q → flags[j]? = some true)) ∧
      (∀ (i p q : Nat) (pi pp pq : Iteration10.GPSPoint), flags[i]? = some true →
        p < i → i < q → flags[p]? = some false → flags[q]? = some false →
        (∀ j, p < j → j < i → flags[j]? = some true) →
        (∀ j, i < j → j < q → flags[j]? = some true) →
        ipts[i]? = some pi → ipts[p]? = some pp → ipts[q]? = some pq →
        pp.time ≠ pq.time →
        out[i]? = some
          { lat := Iteration10.interp A pp.time pq.time pi.time pp.lat pq.lat,
            lon := Iteration10.interp A pp.time pq.time pi.time pp.lon pq.lon,
            time := pi.time }) ∧
      (∀ (i : Nat) (pp x y z pq : Iteration10.GPSPoint),
        flags[i]? = some false → flags[i + 1]? = some true → flags[i + 2]? = some true →
        flags[i + 3]? = some true → flags[i + 4]? = some false →
        ipts[i]? = some pp → ipts[i + 1]? = some x → ipts[i + 2]? = some y →
        ipts[i + 3]? = some z → ipts[i + 4]? = some pq → pp.time ≠ pq.time →
        out[i + 1]? = some
          { lat := Iteration10.interp A pp.time pq.time x.time pp.lat pq.lat,
            lon := Iteration10.interp A pp.time pq.time x.time pp.lon pq.lon,
            time := x.time } ∧
        out[i + 2]? = some
          { lat := Iteration10.interp A pp.time pq.time y.time pp.lat pq.lat,
            lon := Iteration10.interp A pp.time pq.time y.time pp.lon pq.lon,
            time := y.time } ∧
        out[i + 3]? = some
          { lat := Iteration10.interp A pp.time pq.time z.time pp.lat pq.lat,
            lon := Iteration10.interp A pp.time pq.time z.time pp.lon pq.lon,
            time := z.time })) ∧
    (∃ out, CurrentIteration.correct_anomalies A fpts = some out ∧
      ∀ (i : Nat) (l p r : CurrentIteration.Point F), 0 < i →
        fpts[i - 1]? = some l → fpts[i]? = some p → fpts[i + 1]? = some r →
        p.anomalous = true →
        ∃ lo, out[i - 1]? = some lo ∧ lo.time = l.time ∧ (l.anomalous = false → lo = l) ∧
          out[i]? = some { p with
            lat := CurrentIteration.lerp A lo.lat r.lat
              (CurrentIteration.clampFrac A p.time l.time r.time),
            lon := CurrentIteration.lerp A lo.lon r.lon
              (CurrentIteration.clampFrac A p.time l.time r.time) }) := by
  obtain ⟨hlen, h0, hlast⟩ := Iteration10.detect_flags_shape A L ipts flags hdet
  have hgen : ∀ (i p q : Nat) (pi pp pq : Iteration10.GPSPoint), flags[i]? = some true →
      p < i → i < q → flags[p]? = some false → flags[q]? = some false →
      (∀ j, p < j → j < i → flags[j]? = some true) →
      (∀ j, i < j → j < q → flags[j]? = some true) →
      ipts[i]? = some pi → ipts[p]? = some pp → ipts[q]? = some pq →
      pp.time ≠ pq.time →
      (Iteration10.repairPure A ipts flags)[i]? = some
        { lat := Iteration10.interp A pp.time pq.time pi.time pp.lat pq.lat,
          lon := Iteration10.interp A pp.time pq.time pi.time pp.lon pq.lon,
          time := pi.time } := by
    intro i p q pi pp pq hfi hpi hiq hfp hfq hb ha hoi hop hoq ht
    simp only [Iteration10.repairPure, List.getElem?_mapIdx, hoi, Option.map_some']
    rw [Iteration10.repairedFix_anchors A ipts flags hlen i p q pi pp pq hfi hpi hiq hfp hfq
      hb ha hop hoq ht]
  have hcase : ∀ (i j : Nat), flags[i + 1]? = some true → flags[i + 2]? = some true →
      flags[i + 3]? = some true → i + 1 ≤ j → j ≤ i + 3 → flags[j]? = some true := by
    intro i j h1 h2 h3 hj1 hj2
    have : j = i + 1 ∨ j = i + 2 ∨ j = i + 3 := by omega
    rcases this with e | e | e <;> subst e <;> assumption
  refine ⟨⟨_, Iteration10.correct_anomalies_eq A ipts flags hlen, ?_, hgen, ?_⟩, ?_⟩
  · intro i hfi
    exact Iteration10.anchors_exist flags ipts.length hlen h0 hlast i hfi
  · intro i pp x y z pq f0 f1 f2 f3 f4 hpp hx hy hz hpq ht
    refine ⟨?_, ?_, ?_⟩
    · exact hgen (i + 1) i (i + 4) x pp pq f1 (by omega) (by omega) f0 f4
        (fun j h1 h2 => by omega)
        (fun j h1 h2 => hcase i j f1 f2 f3 (by omega) (by omega)) hx hpp hpq ht
    · exact hgen (i + 2) i (i + 4) y pp pq f2 (by omega) (by omega) f0 f4
        (fun j h1 h2 => hcase i j f1 f2 f3 (by omega) (by omega))
        (fun j h1 h2 => hcase i j f1 f2 f3 (by omega) (by omega)) hy hpp hpq ht
    · exact hgen (i + 3) i (i + 4) z pp pq f3 (by omega) (by omega) f0 f4
        (fun j h1 h2 => hcase i j f1 f2 f3 (by omega) (by omega))
        (fun j h1 h2 => by omega) hz hpp hpq ht
  · obtain ⟨out, ho, hol, hov⟩ := CurrentIteration.correct_anomalies_spec A fpts
    refine ⟨out, ho, ?_⟩
    intro i l p r hi hl hp hr hpa
    have hrl := getElem?_lt_length fpts (i + 1) r hr
    obtain ⟨q, hq, hqt, hqa, -, hqv⟩ := hov i p hp
    obtain ⟨l', r', hl', hr', e1, e2⟩ := hqv hpa hi hrl
    obtain ⟨ql, hql, hqlt, -, hqle, -⟩ := hov (i - 1) l hl
    rw [hql] at hl'
    rw [hr] at hr'
    have el : l' = ql := (Option.some.inj hl').symm
    have er : r' = r := (Option.some.inj hr').symm
    subst el er
    refine ⟨l', hql, hqlt, fun hla => hqle (Or.inl hla), ?_⟩
    rw [hq]
    congr 1
    cases q
    cases p
    simp_all

theorem flagged_fix_interpolated_witness :
    Iteration10.detect_anomalies Dbl.exact Dbl.sampleLibm Iteration10.triple =
      some Iteration10.tripleFlags ∧
    (CurrentIteration.chain.map fun p => p.anomalous) = [false, true, true, false] ∧
    Iteration10.correct_anomalies Dbl.exact Iteration10.triple Iteration10.tripleFlags =
      some [{ lat := 0, lon := 0, time := 0 }, { lat := 10000000, lon := 0, time := 1 },
        { lat := 20000000, lon := 0, time := 2 }, { lat := 30000000, lon := 0, time := 3 },
        { lat := 40000000, lon := 0, time := 4 }] ∧
    ((∃ out, Iteration10.correct_anomalies Dbl.exact Iteration10.triple Iteration10.tripleFlags =
      some out ∧
      (∀ (i : Nat), Iteration10.tripleFlags[i]? = some true →
        ∃ p q, p < i ∧ i < q ∧ Iteration10.tripleFlags[p]? = some false ∧
          Iteration10.tripleFlags[q]? = some false ∧
          (∀ j, p < j → j < i → Iteration10.tripleFlags[j]? = some true) ∧
          (∀ j, i < j → j < q → Iteration10.tripleFlags[j]? = some true)) ∧
      (∀ (i p q : Nat) (pi pp pq : Iteration10.GPSPoint), Iteration10.tripleFlags[i]? = some true →
        p < i → i < q → Iteration10.tripleFlags[p]? = some false → Iteration10.tripleFlags[q]? =
          some false →
        (∀ j, p < j → j < i → Iteration10.tripleFlags[j]? = some true) →
        (∀ j, i < j → j < q → Iteration10.tripleFlags[j]? = some true) →
        Iteration10.triple[i]? = some pi → Iteration10.triple[p]? = some pp →
          Iteration10.triple[q]? = some pq →
        pp.time ≠ pq.time →
        out[i]? = some
          { lat := Iteration10.interp Dbl.exact pp.time pq.time pi.time pp.lat pq.lat,
            lon := Iteration10.interp Dbl.exact pp.time pq.time pi.time pp.lon pq.lon,
            time := pi.time }) ∧
      (∀ (i : Nat) (pp x y z pq : Iteration10.GPSPoint),
        Iteration10.tripleFlags[i]? = some false → Iteration10.tripleFlags[i + 1]? = some true →
          Iteration10.tripleFlags[i + 2]? = some true →
        Iteration10.tripleFlags[i + 3]? = some true → Iteration10.tripleFlags[i + 4]? = some false →
        Iteration10.triple[i]? = some pp → Iteration10.triple[i + 1]? = some x →
          Iteration10.triple[i + 2]? = some y →
        Iteration10.triple[i + 3]? = some z → Iteration10.triple[i + 4]? = some pq →
          pp.time ≠ pq.time →
        out[i + 1]? = some
          { lat := Iteration10.interp Dbl.exact pp.time pq.time x.time pp.lat pq.lat,
            lon := Iteration10.interp Dbl.exact pp.time pq.time x.time pp.lon pq.lon,
            time := x.time } ∧
        out[i + 2]? = some
          { lat := Iteration10.interp Dbl.exact pp.time pq.time y.time pp.lat pq.lat,
            lon := Iteration10.interp Dbl.exact pp.time pq.time y.time pp.lon pq.lon,
            time := y.time } ∧
        out[i + 3]? = some
          { lat := Iteration10.interp Dbl.exact pp.time pq.time z.time pp.lat pq.lat,
            lon := Iteration10.interp Dbl.exact pp.time pq.time z.time pp.lon pq.lon,
            time := z.time })) ∧
    (∃ out, CurrentIteration.correct_anomalies Dbl.exact CurrentIteration.chain = some out ∧
      ∀ (i : Nat) (l p r : CurrentIteration.Point Dbl), 0 < i →
        CurrentIteration.chain[i - 1]? = some l → CurrentIteration.chain[i]? = some p →
          CurrentIteration.chain[i + 1]? = some r →
        p.anomalous = true →
        ∃ lo, out[i - 1]? = some lo ∧ lo.time = l.time ∧ (l.anomalous = false → lo = l) ∧
          out[i]? = some { p with
            lat := CurrentIteration.lerp Dbl.exact lo.lat r.lat
              (CurrentIteration.clampFrac Dbl.exact p.time l.time r.time),
            lon := CurrentIteration.lerp Dbl.exact lo.lon r.lon
              (CurrentIteration.clampFrac Dbl.exact p.time l.time r.time) })) :=
  ⟨by decide!, by decide, by decide!, flagged_fix_interpolated Dbl.exact Dbl.sampleLibm
    CurrentIteration.chain Iteration10.triple Iteration10.tripleFlags (by decide!)⟩

/-! ## The repair pass as a pure map (C8) -/

/-- C8 (counterexample): in the floating variant, on four fixes with latitudes
`0, 64, 64, 0` at times `0, 1, 2, 3` and the two interior fixes flagged, the loop repairs
fix 2 from the latitude 32 it has just written to fix 1 and gives `0, 32, 16, 0`; the pure
map over the original coordinates gives `0, 32, 32, 0`, and visiting index 2 before
index 1 gives `0, 16, 32, 0`. -/
theorem inplace_repair_order_counterexample :
    CurrentIteration.correct_anomalies Dbl.exact CurrentIteration.chain =
      some [{ lat := .fin 0, lon := .fin 0, time := 0, anomalous := false },
            { lat := .fin 32, lon := .fin 0, time := 1, anomalous := true },
            { lat := .fin 16, lon := .fin 0, time := 2, anomalous := true },
            { lat := .fin 0, lon := .fin 0, time := 3, anomalous := false }] ∧
    CurrentIteration.repairPure Dbl.exact CurrentIteration.chain =
      [{ lat := .fin 0, lon := .fin 0, time := 0, anomalous := false },
       { lat := .fin 32, lon := .fin 0, time := 1, anomalous := true },
       { lat := .fin 32, lon := .fin 0, time := 2, anomalous := true },
       { lat := .fin 0, lon := .fin 0, time := 3, anomalous := false }] ∧
    forList (CurrentIteration.correctStep Dbl.exact) [2, 1] CurrentIteration.chain =
      some [{ lat := .fin 0, lon := .fin 0, time := 0, anomalous := false },
            { lat := .fin 16, lon := .fin 0, time := 1, anomalous := true },
            { lat := .fin 32, lon := .fin 0, time := 2, anomalous := true },
            { lat := .fin 0, lon := .fin 0, time := 3, anomalous := false }] ∧
    CurrentIteration.correct_anomalies Dbl.exact CurrentIteration.chain ≠
      some (CurrentIteration.repairPure Dbl.exact CurrentIteration.chain) ∧
    CurrentIteration.correct_anomalies Dbl.exact CurrentIteration.chain ≠
      forList (CurrentIteration.correctStep Dbl.exact) [2, 1] CurrentIteration.chain := by
  have h1 : CurrentIteration.correct_anomalies Dbl.exact CurrentIteration.chain =
      some [{ lat := .fin 0, lon := .fin 0, time := 0, anomalous := false },
            { lat := .fin 32, lon := .fin 0, time := 1, anomalous := true },
            { lat := .fin 16, lon := .fin 0, time := 2, anomalous := true },
            { lat := .fin 0, lon := .fin 0, time := 3, anomalous := false }] := by
    simp [CurrentIteration.correct_anomalies, CurrentIteration.chain, forRange, forLoop,
      CurrentIteration.correctStep, CurrentIteration.clampFrac, CurrentIteration.lerp, setAt,
      isub, wrap32, Dbl.exact, Dbl.lt, Dbl.div, Dbl.add, Dbl.sub, Dbl.mul, Dbl.neg]
    norm_num
  have h2 : CurrentIteration.repairPure Dbl.exact CurrentIteration.chain =
      [{ lat := .fin 0, lon := .fin 0, time := 0, anomalous := false },
       { lat := .fin 32, lon := .fin 0, time := 1, anomalous := true },
       { lat := .fin 32, lon := .fin 0, time := 2, anomalous := true },
       { lat := .fin 0, lon := .fin 0, time := 3, anomalous := false }] := by
    simp [CurrentIteration.repairPure, CurrentIteration.chain, List.mapIdx, List.mapIdx.go,
      CurrentIteration.clampFrac, CurrentIteration.lerp,
      isub, wrap32, Dbl.exact, Dbl.lt, Dbl.div, Dbl.add, Dbl.sub, Dbl.mul, Dbl.neg]
    norm_num
  have h3 : forList (CurrentIteration.correctStep Dbl.exact) [2, 1] CurrentIteration.chain =
      some [{ lat := .fin 0, lon := .fin 0, time := 0, anomalous := false },
            { lat := .fin 16, lon := .fin 0, time := 1, anomalous := true },
            { lat := .fin 32, lon := .fin 0, time := 2, anomalous := true },
            { lat := .fin 0, lon := .fin 0, time := 3, anomalous := false }] := by
    simp [CurrentIteration.chain, forList,
      CurrentIteration.correctStep, CurrentIteration.clampFrac, CurrentIteration.lerp, setAt,
      isub, wrap32, Dbl.exact, Dbl.lt, Dbl.div, Dbl.add, Dbl.sub, Dbl.mul, Dbl.neg]
    norm_num
  refine ⟨h1, h2, h3, ?_, ?_⟩
  · rw [h1, h2]; simp
  · rw [h1, h3]; simp

/-- C8 (amended): in the integer variant the in-place loop of `correct_anomalies` returns
the pure map `repairPure`, which reads only the trajectory as it was before the pass, and
so does a pass that visits the interior indices in any other order.  In the floating
variant the loop agrees with the pure map over the original coordinates at index 0 and at
every index whose left neighbour is unflagged. -/
theorem repair_is_pure_map {F : Type} (A : Arith F)
    (fpts : List (CurrentIteration.Point F)) (ipts : List Iteration10.GPSPoint)
    (flags : List Bool) (hlen : flags.length = ipts.length) :
    (Iteration10.correct_anomalies A ipts flags = some (Iteration10.repairPure A ipts flags) ∧
      ∀ order : List Nat, (∀ i, i ∈ order ↔ 0 < i ∧ i + 1 < ipts.length) →
        forList (Iteration10.correctStep A flags ipts.length) order ipts =
          some (Iteration10.repairPure A ipts flags)) ∧
    (∃ out, CurrentIteration.correct_anomalies A fpts = some out ∧
      ∀ (i : Nat), (i = 0 ∨ ∃ l, fpts[i - 1]? = some l ∧ l.anomalous = false) →
        out[i]? = (CurrentIteration.repairPure A fpts)[i]?) := by
  refine ⟨⟨Iteration10.correct_anomalies_eq A ipts flags hlen,
    fun order ho => Iteration10.forList_correctStep_eq A ipts flags hlen order ho⟩, ?_⟩
  obtain ⟨out, ho, hol, hov⟩ := CurrentIteration.correct_anomalies_spec A fpts
  refine ⟨out, ho, ?_⟩
  intro i hi
  simp only [CurrentIteration.repairPure, List.getElem?_mapIdx]
  by_cases hil : i < fpts.length
  · obtain ⟨p, hp⟩ := getElem?_of_lt fpts i hil
    obtain ⟨q, hq, hqt, hqa, hqe, hqv⟩ := hov i p hp
    rw [hq, hp, Option.map_some']
    congr 1
    by_cases hc : p.anomalous = true ∧ 0 < i ∧ i + 1 < fpts.length
    · obtain ⟨hpa, hi0, hi1⟩ := hc
      obtain ⟨l', r, hl', hr, e1, e2⟩ := hqv hpa hi0 hi1
      rcases hi with hz | ⟨l, hl, hla⟩
      · omega
      · obtain ⟨ql, hql, -, -, hqle, -⟩ := hov (i - 1) l hl
        rw [hqle (Or.inl hla)] at hql
        rw [hql] at hl'
        have el : l' = l := (Option.some.inj hl').symm
        subst el
        rw [if_pos ⟨hpa, hi0, hi1⟩]
        simp only [hl, hr]
        cases q
        cases p
        simp_all
    · rw [if_neg hc]
      apply hqe
      by_cases hpa : p.anomalous = true
      · right
        by_contra hcon
        exact hc ⟨hpa, by omega, by omega⟩
      · left
        simpa using hpa
  · have h1 : out[i]? = none := List.getElem?_eq_none (by omega)
    have h2 : fpts[i]? = none := List.getElem?_eq_none (by omega)
    rw [h1, h2]
    rfl

theorem repair_is_pure_map_witness :
    Iteration10.spikeFlags.length = Iteration10.spike.length ∧
    ((Iteration10.correct_anomalies Dbl.exact Iteration10.spike Iteration10.spikeFlags =
      some (Iteration10.repairPure Dbl.exact Iteration10.spike Iteration10.spikeFlags) ∧
      ∀ order : List Nat, (∀ i, i ∈ order ↔ 0 < i ∧ i + 1 < Iteration10.spike.length) →
        forList
            (Iteration10.correctStep Dbl.exact Iteration10.spikeFlags Iteration10.spike.length)
            order Iteration10.spike =
          some (Iteration10.repairPure Dbl.exact Iteration10.spike Iteration10.spikeFlags)) ∧
    (∃ out, CurrentIteration.correct_anomalies Dbl.exact CurrentIteration.chain = some out ∧
      ∀ (i : Nat), (i = 0 ∨ ∃ l, CurrentIteration.chain[i - 1]? = some l ∧ l.anomalous = false) →
        out[i]? = (CurrentIteration.repairPure Dbl.exact CurrentIteration.chain)[i]?)) :=
  ⟨by decide, repair_is_pure_map Dbl.exact CurrentIteration.chain Iteration10.spike
    Iteration10.spikeFlags (by decide)⟩

/-! ## Zero-width intervals (C6) -/

theorem isub_eq_zero_iff (a b : Int) (ha : -2147483648 ≤ a ∧ a ≤ 2147483647)
    (hb : -2147483648 ≤ b ∧ b ≤ 2147483647) : isub a b = 0 ↔ a = b := by
  unfold isub wrap32
  omega

/-- In the integer variant a flagged interior fix whose two anchors carry the same
timestamp is kept as it is: the test `t1 == t0` comes before the division. -/
theorem Iteration10.equal_anchor_times_kept {F : Type} (A : Arith F)
    (orig : List Iteration10.GPSPoint) (flags : List Bool) (i prev next : Nat)
    (pi pp pn : Iteration10.GPSPoint)
    (hprev : Iteration10.findPrev flags (i - 1) = some prev)
    (hnext : Iteration10.findNext flags orig.length (i + 1) = some next)
    (hop : orig[prev]? = some pp) (hon : orig[next]? = some pn)
    (ht : pn.time = pp.time) :
    Iteration10.repairedFix A orig flags i pi = pi := by
  unfold Iteration10.repairedFix
  simp only [hprev, hnext, hop, hon]
  repeat' split
  all_goals first | rfl | simp_all

/-- C6 (failing input): in the floating variant, on the fixes `(0, 0)` at time 0,
`(64, 0)` at time 1 and `(0, 0)` at time 0 with the middle fix flagged, the two
neighbours of the flagged fix have the same timestamp; `correct_anomalies` divides by the
zero difference, the quotient `+inf` is clamped to 1, and the latitude of the fix changes
from 64 to 0.  The integer variant leaves the same fix as it is. -/
theorem equal_times_divides_by_zero :
    Dbl.exact.ofInt (isub 0 0) = .fin 0 ∧
    Dbl.exact.div (Dbl.exact.ofInt (isub 1 0)) (Dbl.exact.ofInt (isub 0 0)) = .pinf ∧
    CurrentIteration.clampFrac Dbl.exact 1 0 0 = .fin 1 ∧
    CurrentIteration.correct_anomalies Dbl.exact CurrentIteration.tie =
      some [{ lat := .fin 0, lon := .fin 0, time := 0, anomalous := false },
            { lat := .fin 0, lon := .fin 0, time := 1, anomalous := true },
            { lat := .fin 0, lon := .fin 0, time := 0, anomalous := false }] ∧
    Iteration10.correct_anomalies Dbl.exact Iteration10.tie [false, true, false] =
      some Iteration10.tie := by
  refine ⟨?_, ?_, ?_, ?_, ?_⟩
  · simp [isub, wrap32, Dbl.exact]
  · simp [isub, wrap32, Dbl.exact, Dbl.div, Dbl.infOfSign]
  · simp [CurrentIteration.clampFrac, isub, wrap32, Dbl.exact, Dbl.div, Dbl.infOfSign, Dbl.lt]
  · have e1 : isub 1 0 = 1 := by decide
    have e2 : isub 0 0 = 0 := by decide
    simp [CurrentIteration.correct_anomalies, CurrentIteration.tie, forRange, forLoop,
      CurrentIteration.correctStep, CurrentIteration.clampFrac, CurrentIteration.lerp, setAt,
      e1, e2, Dbl.exact, Dbl.lt, Dbl.div, Dbl.add, Dbl.sub, Dbl.mul, Dbl.neg,
      Dbl.infOfSign]
  · simp [Iteration10.correct_anomalies, Iteration10.tie, forRange, forLoop,
      Iteration10.correctStep, Iteration10.findPrev, Iteration10.findNext,
      Iteration10.findNextAux]

/-! ## The interpolation fraction (C7) -/

theorem Dbl.roundQ_between (m M : Int) (w : ℚ) (h1 : (m : ℚ) ≤ w) (h2 : w ≤ (M : ℚ)) :
    m ≤ Dbl.roundQ w ∧ Dbl.roundQ w ≤ M := by
  unfold Dbl.roundQ
  split
  · constructor
    · rw [Int.le_floor]; linarith
    · have : ⌊w + 1 / 2⌋ < M + 1 := by
        rw [Int.floor_lt]; push_cast; linarith
      omega
  · constructor
    · have : m - 1 < ⌈w - 1 / 2⌉ := by
        rw [Int.lt_ceil]; push_cast; linarith
      omega
    · rw [Int.ceil_le]; linarith

theorem Dbl.toInt_intCast (z : Int) (h : -2147483648 ≤ z ∧ z ≤ 2147483647) :
    Dbl.toInt (.fin (z : ℚ)) = z := by
  unfold Dbl.toInt
  by_cases hz : (0 : ℚ) ≤ (z : ℚ)
  · simp [hz, Int.floor_intCast, h.1, h.2]
  · simp [hz, Int.ceil_intCast, h.1, h.2]

theorem isub_self (a : Int) : isub a a = 0 := by
  unfold isub wrap32
  omega

/-! ## Rounding to binary64 -/

theorem Dbl.rne_intCast (n : Int) : Dbl.rne (n : ℚ) = n := by
  unfold Dbl.rne
  simp

theorem Dbl.rne_mono {x y : ℚ} (h : x ≤ y) : Dbl.rne x ≤ Dbl.rne y := by
  have hf : ⌊x⌋ ≤ ⌊y⌋ := Int.floor_mono h
  rcases hf.lt_or_eq with hlt | heq
  · have h1 : Dbl.rne x ≤ ⌊x⌋ + 1 := by
      unfold Dbl.rne
      split_ifs <;> omega
    have h2 : ⌊y⌋ ≤ Dbl.rne y := by
      unfold Dbl.rne
      split_ifs <;> omega
    omega
  · unfold Dbl.rne
    rw [heq]
    split_ifs <;> first | omega | (exfalso; linarith)

/-- A multiple of the unit above `q` is above the rounding of `q` to that unit. -/
theorem Dbl.round_unit_le (q : ℚ) (a k : Int) (h : q ≤ (k : ℚ) * 2 ^ a) :
    (Dbl.rne (q / 2 ^ a) : ℚ) * 2 ^ a ≤ (k : ℚ) * 2 ^ a := by
  have hpos : (0 : ℚ) < 2 ^ a := zpow_pos (by norm_num) a
  have h1 : q / 2 ^ a ≤ (k : ℚ) := by rw [div_le_iff₀ hpos]; exact h
  have h2 := Dbl.rne_mono h1
  rw [Dbl.rne_intCast] at h2
  have h3 : (Dbl.rne (q / 2 ^ a) : ℚ) ≤ (k : ℚ) := by exact_mod_cast h2
  exact mul_le_mul_of_nonneg_right h3 hpos.le

/-- A multiple of the unit below `q` is below the rounding of `q` to that unit. -/
theorem Dbl.le_round_unit (q : ℚ) (a k : Int) (h : (k : ℚ) * 2 ^ a ≤ q) :
    (k : ℚ) * 2 ^ a ≤ (Dbl.rne (q / 2 ^ a) : ℚ) * 2 ^ a := by
  have hpos : (0 : ℚ) < 2 ^ a := zpow_pos (by norm_num) a
  have h1 : (k : ℚ) ≤ q / 2 ^ a := by rw [le_div_iff₀ hpos]; exact h
  have h2 := Dbl.rne_mono h1
  rw [Dbl.rne_intCast] at h2
  have h3 : (k : ℚ) ≤ (Dbl.rne (q / 2 ^ a) : ℚ) := by exact_mod_cast h2
  exact mul_le_mul_of_nonneg_right h3 hpos.le

/-- A power of two with an exponent `b >= a` is an integer multiple of `2 ^ a`. -/
theorem Dbl.zpow_multiple (a b : Int) (h : a ≤ b) :
    ∃ k : Int, ((2 : ℚ) ^ b) = (k : ℚ) * 2 ^ a := by
  obtain ⟨n, hn⟩ : ∃ n : Nat, b - a = n := ⟨(b - a).toNat, (Int.toNat_of_nonneg (by omega)).symm⟩
  refine ⟨((2 ^ n : Nat) : Int), ?_⟩
  have hb : b = (n : Int) + a := by omega
  rw [hb, zpow_add₀ (by norm_num : (2 : ℚ) ≠ 0), zpow_natCast]
  push_cast
  rfl

theorem Dbl.ulpExp_mono {x y : ℚ} (hx : x ≠ 0) (h : |x| ≤ |y|) :
    Dbl.ulpExp x ≤ Dbl.ulpExp y := by
  unfold Dbl.ulpExp
  have := Int.log_mono_right (b := 2) (abs_pos.mpr hx) h
  omega

/-- The magnitude of a value is below `2 ^ (ulpExp + 53)`. -/
theorem Dbl.abs_lt_zpow (q : ℚ) : |q| < 2 ^ (Dbl.ulpExp q + 53) := by
  have h1 := Int.lt_zpow_succ_log_self (b := 2) (by norm_num) |q|
  have h2 : Int.log 2 |q| + 1 ≤ Dbl.ulpExp q + 53 := by
    unfold Dbl.ulpExp
    omega
  have h3 : ((2 : ℕ) : ℚ) ^ (Int.log 2 |q| + 1) ≤ ((2 : ℕ) : ℚ) ^ (Dbl.ulpExp q + 53) :=
    zpow_le_zpow_right₀ (by norm_num) h2
  have h4 : ((2 : ℕ) : ℚ) = 2 := by norm_num
  rw [h4] at h1 h3
  exact lt_of_lt_of_le h1 h3

/-- Above the smallest unit, the magnitude of a value is at least `2 ^ (ulpExp + 52)`. -/
theorem Dbl.zpow_le_abs (q : ℚ) (hq : q ≠ 0) (hu : -1074 < Dbl.ulpExp q) :
    2 ^ (Dbl.ulpExp q + 52) ≤ |q| := by
  have h1 := Int.zpow_log_le_self (b := 2) (by norm_num) (abs_pos.mpr hq)
  have h2 : Dbl.ulpExp q + 52 = Int.log 2 |q| := by
    unfold Dbl.ulpExp at hu ⊢
    omega
  have h4 : ((2 : ℕ) : ℚ) = 2 := by norm_num
  rw [h4] at h1
  rw [h2]
  exact h1

theorem Dbl.round64_nonneg {q : ℚ} (h : 0 ≤ q) : 0 ≤ Dbl.round64 q := by
  unfold Dbl.round64
  split
  · exact le_refl _
  · have := Dbl.le_round_unit q (Dbl.ulpExp q) 0 (by simpa using h)
    simpa using this

theorem Dbl.round64_nonpos {q : ℚ} (h : q ≤ 0) : Dbl.round64 q ≤ 0 := by
  unfold Dbl.round64
  split
  · exact le_refl _
  · have := Dbl.round_unit_le q (Dbl.ulpExp q) 0 (by simpa using h)
    simpa using this

/-- Rounding to binary64 is monotone. -/
theorem Dbl.round64_mono : Monotone Dbl.round64 := by
  intro x y hxy
  by_cases hx0 : x = 0
  · subst hx0
    have : Dbl.round64 0 = 0 := by simp [Dbl.round64]
    rw [this]
    exact Dbl.round64_nonneg hxy
  by_cases hy0 : y = 0
  · subst hy0
    have : Dbl.round64 0 = 0 := by simp [Dbl.round64]
    rw [this]
    exact Dbl.round64_nonpos hxy
  rcases lt_or_gt_of_ne hx0 with hxneg | hxpos
  · rcases lt_or_gt_of_ne hy0 with hyneg | hypos
    · -- both negative: the unit of `x` is at least the unit of `y`
      have habs : |y| ≤ |x| := by
        rw [abs_of_neg hxneg, abs_of_neg hyneg]; linarith
      have hu := Dbl.ulpExp_mono hy0 habs
      simp only [Dbl.round64, hx0, hy0, if_false]
      rcases hu.lt_or_eq with hlt | heq
      · have hB := Dbl.zpow_le_abs x hx0 (by unfold Dbl.ulpExp at hlt ⊢; omega)
        rw [abs_of_neg hxneg] at hB
        have hy' := Dbl.abs_lt_zpow y
        rw [abs_of_neg hyneg] at hy'
        have hexp : (2 : ℚ) ^ (Dbl.ulpExp y + 53) ≤ 2 ^ (Dbl.ulpExp x + 52) :=
          zpow_le_zpow_right₀ (by norm_num) (by omega)
        obtain ⟨k1, hk1⟩ := Dbl.zpow_multiple (Dbl.ulpExp x) (Dbl.ulpExp x + 52) (by omega)
        obtain ⟨k2, hk2⟩ := Dbl.zpow_multiple (Dbl.ulpExp y) (Dbl.ulpExp x + 52) (by omega)
        have e1 := Dbl.round_unit_le x (Dbl.ulpExp x) (-k1) (by push_cast; linarith)
        have e2 := Dbl.le_round_unit y (Dbl.ulpExp y) (-k2) (by push_cast; linarith)
        push_cast at e1 e2
        linarith
      · rw [heq]
        have hpos : (0 : ℚ) < 2 ^ Dbl.ulpExp x := zpow_pos (by norm_num) _
        have h1 : y / 2 ^ Dbl.ulpExp x ≥ x / 2 ^ Dbl.ulpExp x :=
          div_le_div_of_nonneg_right hxy hpos.le
        have h2 := Dbl.rne_mono h1
        have h3 : (Dbl.rne (x / 2 ^ Dbl.ulpExp x) : ℚ) ≤ Dbl.rne (y / 2 ^ Dbl.ulpExp x) := by
          exact_mod_cast h2
        exact mul_le_mul_of_nonneg_right h3 hpos.le
    · exact le_trans (Dbl.round64_nonpos hxneg.le) (Dbl.round64_nonneg (le_of_lt hypos))
  · have hypos : 0 < y := lt_of_lt_of_le hxpos hxy
    have habs : |x| ≤ |y| := by
      rw [abs_of_pos hxpos, abs_of_pos hypos]; exact hxy
    have hu := Dbl.ulpExp_mono hx0 habs
    simp only [Dbl.round64, hx0, hy0, if_false]
    rcases hu.lt_or_eq with hlt | heq
    · have hB := Dbl.zpow_le_abs y hy0 (by unfold Dbl.ulpExp at hlt ⊢; omega)
      rw [abs_of_pos hypos] at hB
      have hx' := Dbl.abs_lt_zpow x
      rw [abs_of_pos hxpos] at hx'
      have hexp : (2 : ℚ) ^ (Dbl.ulpExp x + 53) ≤ 2 ^ (Dbl.ulpExp y + 52) :=
        zpow_le_zpow_right₀ (by norm_num) (by omega)
      obtain ⟨k1, hk1⟩ := Dbl.zpow_multiple (Dbl.ulpExp x) (Dbl.ulpExp y + 52) (by omega)
      obtain ⟨k2, hk2⟩ := Dbl.zpow_multiple (Dbl.ulpExp y) (Dbl.ulpExp y + 52) (by omega)
      have e1 := Dbl.round_unit_le x (Dbl.ulpExp x) k1 (by linarith)
      have e2 := Dbl.le_round_unit y (Dbl.ulpExp y) k2 (by linarith)
      linarith
    · rw [heq]
      have hpos : (0 : ℚ) < 2 ^ Dbl.ulpExp y := zpow_pos (by norm_num) _
      have h1 : x / 2 ^ Dbl.ulpExp y ≤ y / 2 ^ Dbl.ulpExp y :=
        div_le_div_of_nonneg_right hxy hpos.le
      have h2 := Dbl.rne_mono h1
      have h3 : (Dbl.rne (x / 2 ^ Dbl.ulpExp y) : ℚ) ≤ Dbl.rne (y / 2 ^ Dbl.ulpExp y) := by
        exact_mod_cast h2
      exact mul_le_mul_of_nonneg_right h3 hpos.le

/-- Integers of magnitude below `2 ^ 53` are binary64 values. -/
theorem Dbl.round64_intCast (z : Int) (hz : |z| < 9007199254740992) :
    Dbl.round64 (z : ℚ) = z := by
  by_cases hz0 : (z : ℚ) = 0
  · simp [Dbl.round64, hz0]
  simp only [Dbl.round64, hz0, if_false]
  have hq : |(z : ℚ)| < 2 ^ (53 : Int) := by
    have : ((|z| : Int) : ℚ) < ((9007199254740992 : Int) : ℚ) := by exact_mod_cast hz
    rw [Int.cast_abs] at this
    norm_num at this ⊢
    exact this
  have hlog : Int.log 2 |(z : ℚ)| < 53 := by
    have := (Int.lt_zpow_iff_log_lt (b := 2) (by norm_num) (abs_pos.mpr hz0)).mp
      (by simpa using hq)
    exact this
  have hu : Dbl.ulpExp (z : ℚ) ≤ 0 := by
    unfold Dbl.ulpExp
    omega
  obtain ⟨m, hm⟩ : ∃ m : Nat, -Dbl.ulpExp (z : ℚ) = m :=
    ⟨(-Dbl.ulpExp (z : ℚ)).toNat, (Int.toNat_of_nonneg (by omega)).symm⟩
  have hu' : Dbl.ulpExp (z : ℚ) = -(m : Int) := by omega
  rw [hu']
  have hdiv : (z : ℚ) / 2 ^ (-(m : Int)) = ((z * 2 ^ m : Int) : ℚ) := by
    rw [zpow_neg, zpow_natCast]
    push_cast
    field_simp
  rw [hdiv, Dbl.rne_intCast, zpow_neg, zpow_natCast]
  push_cast
  field_simp

/-- The two clamping tests of the floating variant: whatever the quotient of the time
differences is, the fraction that is used is not below 0 and not above 1 (it is in
`[0, 1]`, or NaN).  The hypotheses are three comparisons of the constants `0.0` and
`1.0`. -/
theorem CurrentIteration.clampFrac_clamped {F : Type} (A : Arith F)
    (h00 : A.lt (A.ofInt 0) (A.ofInt 0) = false)
    (h11 : A.lt (A.ofInt 1) (A.ofInt 1) = false)
    (h10 : A.lt (A.ofInt 1) (A.ofInt 0) = false) (t tprev tnext : Int) :
    A.lt (CurrentIteration.clampFrac A t tprev tnext) (A.ofInt 0) = false ∧
      A.lt (A.ofInt 1) (CurrentIteration.clampFrac A t tprev tnext) = false := by
  unfold CurrentIteration.clampFrac
  simp only
  by_cases hlow : A.lt (A.div (A.ofInt (isub t tprev)) (A.ofInt (isub tnext tprev)))
      (A.ofInt 0) = true
  · simp only [hlow, if_true, h10, Bool.false_eq_true, if_false, h00, and_self]
  · have hlow' := Bool.eq_false_iff.mpr hlow
    simp only [hlow', Bool.false_eq_true, if_false]
    by_cases hhigh : A.lt (A.ofInt 1)
        (A.div (A.ofInt (isub t tprev)) (A.ofInt (isub tnext tprev))) = true
    · simp only [hhigh, if_true, h10, h11, and_self]
    · have hhigh' := Bool.eq_false_iff.mpr hhigh
      simp only [hhigh', Bool.false_eq_true, if_false, hlow', and_self]

theorem wrap32_range (x : Int) : -2147483648 ≤ wrap32 x ∧ wrap32 x ≤ 2147483647 := by
  unfold wrap32
  omega

/-- The interpolation of the integer variant in rounded arithmetic: with time differences
in order the result lies between the two anchor values.  The rounding is monotone and
leaves the integers up to `2 ^ 32` as they are. -/
theorem Iteration10.interp_rounded_between (R : ℚ → ℚ) (hmono : Monotone R)
    (hint : ∀ z : Int, |z| ≤ 4294967296 → R (z : ℚ) = (z : ℚ))
    (t0 t1 t vprev vnext : Int)
    (h0 : 0 ≤ isub t t0) (h1 : isub t t0 ≤ isub t1 t0) (hpos : 0 < isub t1 t0)
    (hv : isub vnext vprev = vnext - vprev)
    (hp : isInt32 vprev) (hn : isInt32 vnext) :
    min vprev vnext ≤ Iteration10.interp (Dbl.rounding R) t0 t1 t vprev vnext ∧
      Iteration10.interp (Dbl.rounding R) t0 t1 t vprev vnext ≤ max vprev vnext := by
  unfold isInt32 at hp hn
  have ra := wrap32_range (t - t0)
  have rb := wrap32_range (t1 - t0)
  have hRa : R ((isub t t0 : Int) : ℚ) = ((isub t t0 : Int) : ℚ) :=
    hint _ (by unfold isub; rw [abs_le]; omega)
  have hRb : R ((isub t1 t0 : Int) : ℚ) = ((isub t1 t0 : Int) : ℚ) :=
    hint _ (by unfold isub; rw [abs_le]; omega)
  have hRd : R ((vnext - vprev : Int) : ℚ) = ((vnext - vprev : Int) : ℚ) :=
    hint _ (by rw [abs_le]; omega)
  have hRp : R ((vprev : Int) : ℚ) = (vprev : ℚ) := hint _ (by rw [abs_le]; omega)
  have hRn : R ((vnext : Int) : ℚ) = (vnext : ℚ) := hint _ (by rw [abs_le]; omega)
  have hR0 : R 0 = 0 := by simpa using hint 0 (by norm_num)
  have hR1 : R 1 = 1 := by simpa using hint 1 (by norm_num)
  have hdpos : (0 : ℚ) < ((isub t1 t0 : Int) : ℚ) := by exact_mod_cast hpos
  have hd : ((isub t1 t0 : Int) : ℚ) ≠ 0 := ne_of_gt hdpos
  have hnum0 : (0 : ℚ) ≤ ((isub t t0 : Int) : ℚ) := by exact_mod_cast h0
  have hnum1 : ((isub t t0 : Int) : ℚ) ≤ ((isub t1 t0 : Int) : ℚ) := by exact_mod_cast h1
  -- the fraction
  generalize hα : R (((isub t t0 : Int) : ℚ) / ((isub t1 t0 : Int) : ℚ)) = α
  have hα0 : 0 ≤ α := by
    rw [← hα, ← hR0]
    exact hmono (div_nonneg hnum0 hdpos.le)
  have hα1 : α ≤ 1 := by
    rw [← hα, ← hR1]
    exact hmono ((div_le_one hdpos).mpr hnum1)
  -- the product and the sum
  generalize hw : R (α * ((vnext - vprev : Int) : ℚ)) = w
  generalize hu : R ((vprev : ℚ) + w) = u
  have hval : Iteration10.interp (Dbl.rounding R) t0 t1 t vprev vnext =
      Dbl.toInt (.fin ((Dbl.roundQ u : Int) : ℚ)) := by
    simp only [Iteration10.interp, Dbl.rounding, hRa, hRb, Dbl.div, hd, if_false,
      Dbl.roundWith, hα, hv, hRd, Dbl.mul, hw, hRp, Dbl.add, hu, Dbl.round]
  have hbetween : ((min vprev vnext : Int) : ℚ) ≤ u ∧ u ≤ ((max vprev vnext : Int) : ℚ) := by
    rcases le_total vprev vnext with hle | hle
    · have hq : (vprev : ℚ) ≤ (vnext : ℚ) := by exact_mod_cast hle
      have hdq : (0 : ℚ) ≤ ((vnext - vprev : Int) : ℚ) := by push_cast; linarith
      have hw0 : 0 ≤ w := by
        rw [← hw, ← hR0]
        exact hmono (mul_nonneg hα0 hdq)
      have hw1 : w ≤ ((vnext - vprev : Int) : ℚ) := by
        rw [← hw, ← hRd]
        exact hmono (by nlinarith)
      rw [min_eq_left hle, max_eq_right hle]
      constructor
      · rw [← hu, ← hRp]
        exact hmono (by linarith)
      · rw [← hu, ← hRn]
        apply hmono
        push_cast at hw1 ⊢
        linarith
    · have hq : (vnext : ℚ) ≤ (vprev : ℚ) := by exact_mod_cast hle
      have hdq : ((vnext - vprev : Int) : ℚ) ≤ 0 := by push_cast; linarith
      have hw0 : w ≤ 0 := by
        rw [← hw, ← hR0]
        exact hmono (mul_nonpos_of_nonneg_of_nonpos hα0 hdq)
      have hw1 : ((vnext - vprev : Int) : ℚ) ≤ w := by
        rw [← hw, ← hRd]
        exact hmono (by nlinarith)
      rw [min_eq_right hle, max_eq_left hle]
      constructor
      · rw [← hu, ← hRn]
        apply hmono
        push_cast at hw1 ⊢
        linarith
      · rw [← hu, ← hRp]
        exact hmono (by linarith)
  have hb := Dbl.roundQ_between (min vprev vnext) (max vprev vnext) u hbetween.1 hbetween.2
  have hrange : -2147483648 ≤ Dbl.roundQ u ∧ Dbl.roundQ u ≤ 2147483647 := by
    have m1 : -2147483648 ≤ min vprev vnext := le_min hp.1 hn.1
    have m2 : max vprev vnext ≤ 2147483647 := max_le hp.2 hn.2
    exact ⟨le_trans m1 hb.1, le_trans hb.2 m2⟩
  rw [hval, Dbl.toInt_intCast _ hrange]
  exact hb

/-- C7 (counterexample).  Integer variant: on three fixes with latitudes
`0, 10000000, 100` at times `0, 5, 1` and the middle fix flagged, `alpha` is
`(5 - 0) / (1 - 0) = 5`, it is not clamped, and the repaired latitude is 500, outside the
interval from 0 to 100 of the two anchors.  Floating variant, in binary64 arithmetic: the
input with latitudes `0.5, 10, 0.1` at times `0, 1, 1` is parsed to the fixes of
`rounded`; with the middle fix flagged the fraction is clamped to 1 and the latitude
written is `0.5 + (0.1 - 0.5) * 1.0`, which rounds to `0.09999999999999998`, below the
latitudes of both neighbours. -/
theorem repair_outside_anchors_counterexample :
    (Dbl.ieee.div (Dbl.ieee.ofInt (isub 5 0)) (Dbl.ieee.ofInt (isub 1 0)) = .fin 5 ∧
      Iteration10.correct_anomalies Dbl.ieee Iteration10.unordered [false, true, false] =
        some [{ lat := 0, lon := 0, time := 0 }, { lat := 500, lon := 0, time := 5 },
              { lat := 100, lon := 0, time := 1 }] ∧
      ¬ ((500 : Int) ≤ max 0 100)) ∧
    (CurrentIteration.parse_json_array Dbl.ieee Dbl.ieeeLits inputRounded [] =
        some (true, CurrentIteration.rounded.map fun p => { p with anomalous := false }) ∧
      CurrentIteration.clampFrac Dbl.ieee 1 0 1 = .fin 1 ∧
      CurrentIteration.correct_anomalies Dbl.ieee CurrentIteration.rounded =
        some [{ lat := .fin (1 / 2), lon := .fin 0, time := 0, anomalous := false },
              { lat := .fin (900719925474099 / 9007199254740992), lon := .fin 0, time := 1,
                anomalous := true },
              { lat := .fin (3602879701896397 / 36028797018963968), lon := .fin 0, time := 1,
                anomalous := false }] ∧
      Dbl.ieee.lt (.fin (900719925474099 / 9007199254740992))
        (.fin (3602879701896397 / 36028797018963968)) = true ∧
      Dbl.ieee.lt (.fin (900719925474099 / 9007199254740992)) (.fin (1 / 2)) = true) := by
  refine ⟨⟨by decide!, by decide!, by decide⟩, by decide!, by decide!, by decide!,
    by decide!, by decide!⟩

/-- C7 (amended).  The floating variant clamps the fraction: the fraction it uses is
neither below 0 nor above 1, whatever the timestamps (it is NaN when both time differences
are zero), and each coordinate it writes to a flagged fix is `prev + (next - prev) * frac`
evaluated in double arithmetic, of the two neighbours it reads; nothing clamps that value,
and rounding can leave it outside the interval of the neighbours' values.  The integer
variant does not clamp `alpha`: a repaired coordinate lies between the two anchors' values,
inclusive, when the time differences are in order, `0 <= t_i - t_p <= t_q - t_p` and
`0 < t_q - t_p`, the anchors' coordinates are in the range of `int` and their difference
does not overflow.  The hypotheses on the arithmetic hold for binary64: the three
comparisons of `0.0` and `1.0`, a rounding that is monotone and leaves the integers up to
`2 ^ 32` as they are. -/
theorem repaired_between_anchors {F : Type} (A : Arith F) (R : ℚ → ℚ)
    (h00 : A.lt (A.ofInt 0) (A.ofInt 0) = false)
    (h11 : A.lt (A.ofInt 1) (A.ofInt 1) = false)
    (h10 : A.lt (A.ofInt 1) (A.ofInt 0) = false)
    (hmono : Monotone R)
    (hint : ∀ z : Int, |z| ≤ 4294967296 → R (z : ℚ) = (z : ℚ))
    (fpts : List (CurrentIteration.Point F))
    (ipts : List Iteration10.GPSPoint) (flags : List Bool)
    (hlen : flags.length = ipts.length) :
    (∃ out, CurrentIteration.correct_anomalies A fpts = some out ∧
      ∀ (j : Nat) (p : CurrentIteration.Point F), fpts[j]? = some p →
        p.anomalous = true → 0 < j → j + 1 < fpts.length →
        ∃ l r q, out[j - 1]? = some l ∧ fpts[j + 1]? = some r ∧ out[j]? = some q ∧
          A.lt (CurrentIteration.clampFrac A p.time l.time r.time) (A.ofInt 0) = false ∧
          A.lt (A.ofInt 1) (CurrentIteration.clampFrac A p.time l.time r.time) = false ∧
          q.lat = CurrentIteration.lerp A l.lat r.lat
            (CurrentIteration.clampFrac A p.time l.time r.time) ∧
          q.lon = CurrentIteration.lerp A l.lon r.lon
            (CurrentIteration.clampFrac A p.time l.time r.time)) ∧
    (∃ out, Iteration10.correct_anomalies (Dbl.rounding R) ipts flags = some out ∧
      ∀ (i p q : Nat) (pi pp pq : Iteration10.GPSPoint), flags[i]? = some true →
        p < i → i < q → flags[p]? = some false → flags[q]? = some false →
        (∀ j, p < j → j < i → flags[j]? = some true) →
        (∀ j, i < j → j < q → flags[j]? = some true) →
        ipts[i]? = some pi → ipts[p]? = some pp → ipts[q]? = some pq →
        0 ≤ isub pi.time pp.time → isub pi.time pp.time ≤ isub pq.time pp.time →
        0 < isub pq.time pp.time →
        isInt32 pp.lat → isInt32 pq.lat → isub pq.lat pp.lat = pq.lat - pp.lat →
        isInt32 pp.lon → isInt32 pq.lon → isub pq.lon pp.lon = pq.lon - pp.lon →
        ∃ o, out[i]? = some o ∧
          min pp.lat pq.lat ≤ o.lat ∧ o.lat ≤ max pp.lat pq.lat ∧
          min pp.lon pq.lon ≤ o.lon ∧ o.lon ≤ max pp.lon pq.lon) := by
  constructor
  · obtain ⟨out, ho, hol, hov⟩ := CurrentIteration.correct_anomalies_spec A fpts
    refine ⟨out, ho, ?_⟩
    intro j p hp hpa hj0 hj1
    obtain ⟨q, hq, -, -, -, hqv⟩ := hov j p hp
    obtain ⟨l, r, hl, hr, e1, e2⟩ := hqv hpa hj0 hj1
    have hc := CurrentIteration.clampFrac_clamped A h00 h11 h10 p.time l.time r.time
    exact ⟨l, r, q, hl, hr, hq, hc.1, hc.2, e1, e2⟩
  · refine ⟨_, Iteration10.correct_anomalies_eq (Dbl.rounding R) ipts flags hlen, ?_⟩
    intro i p q pi pp pq hfi hpi hiq hfp hfq hb ha hoi hop hoq h0 h1 hpos
      hlat1 hlat2 hlat3 hlon1 hlon2 hlon3
    have ht : pp.time ≠ pq.time := by
      intro he
      rw [he, isub_self] at hpos
      exact absurd hpos (by decide)
    refine ⟨{ lat := Iteration10.interp (Dbl.rounding R) pp.time pq.time pi.time pp.lat pq.lat,
              lon := Iteration10.interp (Dbl.rounding R) pp.time pq.time pi.time pp.lon pq.lon,
              time := pi.time }, ?_, ?_⟩
    · simp only [Iteration10.repairPure, List.getElem?_mapIdx, hoi, Option.map_some']
      rw [Iteration10.repairedFix_anchors (Dbl.rounding R) ipts flags hlen i p q pi pp pq hfi
        hpi hiq hfp hfq hb ha hop hoq ht]
    · have b1 := Iteration10.interp_rounded_between R hmono hint pp.time pq.time pi.time
        pp.lat pq.lat h0 h1 hpos hlat3 hlat1 hlat2
      have b2 := Iteration10.interp_rounded_between R hmono hint pp.time pq.time pi.time
        pp.lon pq.lon h0 h1 hpos hlon3 hlon1 hlon2
      exact ⟨b1.1, b1.2, b2.1, b2.2⟩

theorem repaired_between_anchors_witness :
    Monotone Dbl.round64 ∧
    (∀ z : Int, |z| ≤ 4294967296 → Dbl.round64 (z : ℚ) = (z : ℚ)) ∧
    Iteration10.spikeFlags.length = Iteration10.spike.length ∧
    CurrentIteration.clampFrac Dbl.ieee 5 5 5 = .nan ∧
    ((∃ out, CurrentIteration.correct_anomalies Dbl.ieee CurrentIteration.rounded = some out ∧
      ∀ (j : Nat) (p : CurrentIteration.Point Dbl), CurrentIteration.rounded[j]? = some p →
        p.anomalous = true → 0 < j → j + 1 < CurrentIteration.rounded.length →
        ∃ l r q, out[j - 1]? = some l ∧ CurrentIteration.rounded[j + 1]? = some r ∧ out[j]? =
          some q ∧
          Dbl.ieee.lt (CurrentIteration.clampFrac Dbl.ieee p.time l.time r.time) (Dbl.ieee.ofInt 0) = false ∧
          Dbl.ieee.lt (Dbl.ieee.ofInt 1) (CurrentIteration.clampFrac Dbl.ieee p.time l.time r.time) = false ∧
          q.lat = CurrentIteration.lerp Dbl.ieee l.lat r.lat
            (CurrentIteration.clampFrac Dbl.ieee p.time l.time r.time) ∧
          q.lon = CurrentIteration.lerp Dbl.ieee l.lon r.lon
            (CurrentIteration.clampFrac Dbl.ieee p.time l.time r.time)) ∧
    (∃ out, Iteration10.correct_anomalies Dbl.ieee Iteration10.spike Iteration10.spikeFlags =
      some out ∧
      ∀ (i p q : Nat) (pi pp pq : Iteration10.GPSPoint), Iteration10.spikeFlags[i]? = some true →
        p < i → i < q → Iteration10.spikeFlags[p]? = some false → Iteration10.spikeFlags[q]? =
          some false →
        (∀ j, p < j → j < i → Iteration10.spikeFlags[j]? = some true) →
        (∀ j, i < j → j < q → Iteration10.spikeFlags[j]? = some true) →
        Iteration10.spike[i]? = some pi → Iteration10.spike[p]? = some pp →
          Iteration10.spike[q]? = some pq →
        0 ≤ isub pi.time pp.time → isub pi.time pp.time ≤ isub pq.time pp.time →
        0 < isub pq.time pp.time →
        isInt32 pp.lat → isInt32 pq.lat → isub pq.lat pp.lat = pq.lat - pp.lat →
        isInt32 pp.lon → isInt32 pq.lon → isub pq.lon pp.lon = pq.lon - pp.lon →
        ∃ o, out[i]? = some o ∧
          min pp.lat pq.lat ≤ o.lat ∧ o.lat ≤ max pp.lat pq.lat ∧
          min pp.lon pq.lon ≤ o.lon ∧ o.lon ≤ max pp.lon pq.lon)) :=
  ⟨Dbl.round64_mono, fun z hz => Dbl.round64_intCast z (by omega), by decide, by decide!,
    repaired_between_anchors Dbl.ieee Dbl.round64 (by decide!) (by decide!) (by decide!)
      Dbl.round64_mono (fun z hz => Dbl.round64_intCast z (by omega))
      CurrentIteration.rounded Iteration10.spike Iteration10.spikeFlags (by decide)⟩

/-! ## Parsing: positions only advance -/

theorem forLoop_some_inv {σ : Type} (body : Nat → σ → Option σ) (P : Nat → σ → Prop) :
    ∀ (k i : Nat) (s t : σ), P i s →
      (∀ (j : Nat) (u v : σ), i ≤ j → j < i + k → P j u → body j u = some v → P (j + 1) v) →
      forLoop body i k s = some t → P (i + k) t := by
  intro k
  induction k with
  | zero =>
    intro i s t h _ ht
    simp only [forLoop] at ht
    cases ht
    exact h
  | succ k ih =>
    intro i s t h hstep ht
    simp only [forLoop] at ht
    cases hb : body i s with
    | none => rw [hb] at ht; exact Option.noConfusion ht
    | some u =>
      rw [hb] at ht
      have hu := hstep i s u (le_refl i) (by omega) h hb
      have := ih (i + 1) u t hu (fun j a b h1 h2 hp hq => hstep j a b (by omega) (by omega) hp hq) ht
      have e : i + 1 + k = i + (k + 1) := by omega
      rw [← e]; exact this

theorem skipSpace_length_le (r : List Char) : (skipSpace r).length ≤ r.length := by
  unfold skipSpace
  induction r with
  | nil => simp
  | cons c t ih =>
    simp only [List.dropWhile]
    split
    · simp only [List.length_cons]; omega
    · simp

theorem digitsLoop_length_le (r : List Char) : ∀ v, (digitsLoop v r).2.length ≤ r.length := by
  induction r with
  | nil => intro v; simp [digitsLoop]
  | cons c t ih =>
    intro v
    simp only [digitsLoop]
    split
    · have := ih (iadd (imul v 10) (digitVal c))
      simp only [List.length_cons]; omega
    · simp

theorem digitsLoop_length_lt (c : Char) (t : List Char) (v : Int) (hc : isdigit c = true) :
    (digitsLoop v (c :: t)).2.length < (c :: t).length := by
  simp only [digitsLoop, hc, if_true, List.length_cons]
  have := digitsLoop_length_le t (iadd (imul v 10) (digitVal c))
  omega

theorem dropWhile_length_le {α : Type} (p : α → Bool) (l : List α) :
    (l.dropWhile p).length ≤ l.length := by
  induction l with
  | nil => simp
  | cons c t ih =>
    simp only [List.dropWhile]
    split
    · simp only [List.length_cons]; omega
    · simp

theorem takeSign_length_le (r : List Char) : (takeSign r).2.length ≤ r.length := by
  unfold takeSign
  cases r with
  | nil => simp
  | cons c t =>
    simp only
    split
    · simp
    · simp

namespace Iteration10

theorem parse_int_length (s : List Char) (v : Int) (r : List Char)
    (h : parse_int s = some (v, r)) : r.length < s.length := by
  unfold parse_int at h
  have hs := skipSpace_length_le s
  have hg := takeSign_length_le (skipSpace s)
  generalize takeSign (skipSpace s) = sg at h hg
  obtain ⟨neg, r0⟩ := sg
  simp only at h hg
  cases r0 with
  | nil => exact Option.noConfusion h
  | cons c t =>
    simp only at h
    by_cases hd : isdigit c = true
    · simp only [hd, Bool.not_true, Bool.false_eq_true, if_false, Option.some.injEq,
        Prod.mk.injEq] at h
      have := digitsLoop_length_lt c t 0 hd
      rw [← h.2]
      omega
    · simp [hd] at h

theorem parse_key_length (s key r : List Char) (h : parse_key s = some (key, r)) :
    r.length < s.length := by
  unfold parse_key at h
  have hs := skipSpace_length_le s
  generalize skipSpace s = r0 at h hs
  cases r0 with
  | nil => simp at h
  | cons c t =>
    simp only at h
    by_cases hq : c = '"'
    · simp only [hq, ne_eq, not_true_eq_false, if_false] at h
      have hd := dropWhile_length_le (fun x => decide (x ≠ '"')) t
      generalize List.dropWhile (fun x => decide (x ≠ '"')) t = r1 at h hd
      cases r1 with
      | nil => simp at h
      | cons q r2 =>
        simp only at h
        have h2 := skipSpace_length_le r2
        generalize skipSpace r2 = r3 at h h2
        cases r3 with
        | nil => simp at h
        | cons d r4 =>
          simp only at h
          by_cases hc : d = ':'
          · simp only [hc, ne_eq, not_true_eq_false, if_false, Option.some.injEq,
              Prod.mk.injEq] at h
            rw [← h.2]
            simp only [List.length_cons] at hd h2 hs ⊢
            omega
          · simp [hc] at h
    · simp [hq] at h

end Iteration10

namespace Iteration10

theorem storeField_spec (key : List Char) (value : Int) (st st2 : PointState)
    (h : storeField key value st = some st2) :
    st2.rest = st.rest ∧ st2.keys = st.keys ∧
      ((key = "lat".toList ∧ st2.lat = some value ∧ st2.lon = st.lon ∧ st2.time = st.time) ∨
       (key = "lon".toList ∧ st2.lat = st.lat ∧ st2.lon = some value ∧ st2.time = st.time) ∨
       (key = "time".toList ∧ st2.lat = st.lat ∧ st2.lon = st.lon ∧
         st2.time = some value)) := by
  unfold storeField at h
  split at h
  · cases h; exact ⟨rfl, rfl, Or.inl ⟨by assumption, rfl, rfl, rfl⟩⟩
  · split at h
    · cases h; exact ⟨rfl, rfl, Or.inr (Or.inl ⟨by assumption, rfl, rfl, rfl⟩)⟩
    · split at h
      · cases h; exact ⟨rfl, rfl, Or.inr (Or.inr ⟨by assumption, rfl, rfl, rfl⟩)⟩
      · exact Option.noConfusion h

theorem endField_spec (i : Nat) (st st' : PointState) (key r : List Char)
    (h : endField i st key r = some st') :
    st'.rest.length ≤ r.length ∧ st'.keys = st.keys ++ [key] ∧ st'.lat = st.lat ∧
      st'.lon = st.lon ∧ st'.time = st.time ∧
      (i < 2 → r = ',' :: st'.rest) ∧ (¬ i < 2 → st'.rest = r) := by
  unfold endField at h
  split at h
  · rename_i hi
    cases r with
    | nil => exact Option.noConfusion h
    | cons c t =>
      simp only at h
      split at h
      · exact Option.noConfusion h
      · rename_i hc
        cases h
        have hc' : c = ',' := by simpa using hc
        subst hc'
        exact ⟨by simp, rfl, rfl, rfl, rfl, fun _ => rfl, fun hn => absurd hi hn⟩
  · rename_i hi
    cases h
    exact ⟨le_refl _, rfl, rfl, rfl, rfl, fun h2 => absurd h2 hi, fun _ => rfl⟩

/-- What a successful iteration of the loop of `parse_gps_point` did. -/
theorem fieldStep_spec (i : Nat) (st st' : PointState) (h : fieldStep i st = some st') :
    ∃ key r value r2 st2, parse_key st.rest = some (key, r) ∧
      parse_int r = some (value, r2) ∧ storeField key value st = some st2 ∧
      endField i st2 key (skipSpace r2) = some st' := by
  unfold fieldStep at h
  cases hk : parse_key st.rest with
  | none => simp [hk] at h
  | some kr =>
    obtain ⟨key, r⟩ := kr
    cases hv : parse_int r with
    | none => simp [hk, hv] at h
    | some vr =>
      obtain ⟨value, r2⟩ := vr
      cases hs : storeField key value st with
      | none => simp [hk, hv, hs] at h
      | some st2 =>
        simp only [hk, hv, hs, Option.bind_eq_bind, Option.some_bind] at h
        exact ⟨key, r, value, r2, st2, rfl, hv, hs, h⟩

theorem fieldStep_length (i : Nat) (st st' : PointState) (h : fieldStep i st = some st') :
    st'.rest.length < st.rest.length := by
  obtain ⟨key, r, value, r2, st2, hk, hv, hs, he⟩ := fieldStep_spec i st st' h
  have h1 := parse_key_length _ _ _ hk
  have h2 := parse_int_length _ _ _ hv
  have h3 := skipSpace_length_le r2
  have h4 := (endField_spec i st2 st' key _ he).1
  omega

theorem parse_gps_point_keys_length (s : List Char) (pt : GPSPoint) (r : List Char)
    (ks : List (List Char)) (h : parse_gps_point_keys s = some (pt, r, ks)) :
    r.length < s.length := by
  unfold parse_gps_point_keys at h
  have hs := skipSpace_length_le s
  generalize skipSpace s = r0 at h hs
  cases r0 with
  | nil => exact Option.noConfusion h
  | cons c t =>
    simp only at h
    split at h
    · exact Option.noConfusion h
    · cases hf : forRange 0 3 fieldStep { rest := t } with
      | none => simp [hf] at h
      | some st =>
        simp only [hf, Option.bind_eq_bind, Option.some_bind] at h
        have hlen : st.rest.length ≤ t.length := by
          have := forLoop_some_inv fieldStep
            (fun _ (u : PointState) => u.rest.length ≤ t.length) 3 0 { rest := t } st
            (le_refl _)
            (fun j u v _ _ hu hb => by
              have := fieldStep_length j u v hb
              simp only at hu ⊢
              omega)
            hf
          exact this
        have h2 := skipSpace_length_le st.rest
        generalize skipSpace st.rest = r1 at h h2
        cases r1 with
        | nil => exact Option.noConfusion h
        | cons d r2 =>
          simp only at h
          split at h
          · exact Option.noConfusion h
          · split at h
            · simp only [Option.some.injEq, Prod.mk.injEq] at h
              rw [← h.2.1]
              simp only [List.length_cons] at h2 hs ⊢
              omega
            · exact Option.noConfusion h

/-- An iteration of the `while (true)` loop of `parse_gps_array` that neither returns nor
breaks leaves a strictly shorter rest: the position has advanced. -/
theorem arrayStep_next_length (rest : List Char) (points : List GPSPoint)
    (keys : List (List (List Char))) (r : List Char) (points' : List GPSPoint)
    (keys' : List (List (List Char)))
    (h : arrayStep rest points keys = .next r points' keys') : r.length < rest.length := by
  have hitem : ∀ (x : List Char), arrayStep.arrayItem x points keys = .next r points' keys' →
      r.length < x.length := by
    intro x hx
    unfold arrayStep.arrayItem at hx
    cases hp : parse_gps_point_keys x with
    | none => simp [hp] at hx
    | some res =>
      obtain ⟨pt, r1, ks⟩ := res
      have h1 := parse_gps_point_keys_length x pt r1 ks hp
      have h2 := skipSpace_length_le r1
      simp only [hp] at hx
      generalize skipSpace r1 = r2 at hx h2
      cases r2 with
      | nil =>
        simp only [ArrayStep.next.injEq] at hx
        rw [← hx.1]; simp only [List.length_nil]; omega
      | cons c t =>
        simp only at hx
        split at hx
        · simp only [ArrayStep.next.injEq] at hx
          rw [← hx.1]; simp only [List.length_cons] at h2; omega
        · split at hx
          · exact ArrayStep.noConfusion hx
          · simp only [ArrayStep.next.injEq] at hx
            rw [← hx.1]; omega
  unfold arrayStep at h
  have hs := skipSpace_length_le rest
  generalize skipSpace rest = r0 at h hs
  cases r0 with
  | nil =>
    have := hitem [] h
    simp at this
  | cons c t =>
    simp only at h
    split at h
    · exact ArrayStep.noConfusion h
    · have := hitem (c :: t) h
      omega

end Iteration10

namespace CurrentIteration

theorem numLoop_length {F : Type} (A : Arith F) (P : ParseLits F) (r : List Char) :
    ∀ (val : F) (has_dot : Bool) (frac : F) (res : F) (r' : List Char),
      numLoop A P val has_dot frac r = some (res, r') → r'.length ≤ r.length := by
  induction r with
  | nil =>
    intro val hd fr res r' h
    simp only [numLoop, Option.some.injEq, Prod.mk.injEq] at h
    rw [← h.2]
  | cons c t ih =>
    intro val hd fr res r' h
    simp only [numLoop] at h
    split at h
    · split at h
      · split at h
        · exact Option.noConfusion h
        · have := ih _ _ _ _ _ h
          simp only [List.length_cons]; omega
      · split at h
        · have := ih _ _ _ _ _ h
          simp only [List.length_cons]; omega
        · have := ih _ _ _ _ _ h
          simp only [List.length_cons]; omega
    · simp only [Option.some.injEq, Prod.mk.injEq] at h
      rw [← h.2]

/-- What a successful value branch did: the key is one of the three, the flags can only
be raised, and the rest is a part of what it was given. -/
theorem valueStep_spec {F : Type} (A : Arith F) (P : ParseLits F) (key : List Char)
    (st st' : ObjState F) (r : List Char) (h : valueStep A P key st r = some st') :
    st'.rest.length ≤ r.length ∧ st'.keys = st.keys ∧
      ((key = "lat".toList ∧ st'.lat_set = true ∧ st'.lon_set = st.lon_set ∧
          st'.time_set = st.time_set) ∨
       (key = "lon".toList ∧ st'.lat_set = st.lat_set ∧ st'.lon_set = true ∧
          st'.time_set = st.time_set) ∨
       (key = "time".toList ∧ st'.lat_set = st.lat_set ∧ st'.lon_set = st.lon_set ∧
          st'.time_set = true)) := by
  unfold valueStep at h
  have hs := takeSign_length_le r
  generalize takeSign r = sg at h hs
  split at h
  · rename_i hk
    simp only at h
    cases hn : numLoop A P (A.ofInt 0) false P.tenth sg.2 with
    | none => simp [hn] at h
    | some res =>
      obtain ⟨val, r2⟩ := res
      have hl := numLoop_length A P _ _ _ _ _ _ hn
      simp only [hn] at h
      split at h
      · rename_i hlat
        cases h
        exact ⟨by simp only; omega, rfl, Or.inl ⟨hlat, rfl, rfl, rfl⟩⟩
      · rename_i hlat
        cases h
        have hlon : key = "lon".toList := by
          rcases hk with h1 | h1
          · exact absurd h1 hlat
          · exact h1
        exact ⟨by simp only; omega, rfl, Or.inr (Or.inl ⟨hlon, rfl, rfl, rfl⟩)⟩
  · split at h
    · rename_i hk ht
      simp only at h
      have hl := digitsLoop_length_le sg.2 0
      cases h
      exact ⟨by simp only; omega, rfl, Or.inr (Or.inr ⟨ht, rfl, rfl, rfl⟩)⟩
    · exact Option.noConfusion h

end CurrentIteration

namespace CurrentIteration

/-- What an iteration of the object loop that reaches the next test of the loop condition
did: it read one key, one of the three, raised that key's flag, and advanced. -/
theorem objStep_next {F : Type} (A : Arith F) (P : ParseLits F) (st st' : ObjState F)
    (h : objStep A P st = .next st') :
    st'.rest.length < st.rest.length ∧ ∃ key, st'.keys = st.keys ++ [key] ∧
      ((key = "lat".toList ∧ st'.lat_set = true ∧ st'.lon_set = st.lon_set ∧
          st'.time_set = st.time_set) ∨
       (key = "lon".toList ∧ st'.lat_set = st.lat_set ∧ st'.lon_set = true ∧
          st'.time_set = st.time_set) ∨
       (key = "time".toList ∧ st'.lat_set = st.lat_set ∧ st'.lon_set = st.lon_set ∧
          st'.time_set = true)) := by
  unfold objStep at h
  have hs := skipSpace_length_le st.rest
  generalize skipSpace st.rest = r0 at h hs
  cases r0 with
  | nil => exact Step.noConfusion h
  | cons c t =>
    simp only at h
    split at h
    · exact Step.noConfusion h
    · split at h
      · exact Step.noConfusion h
      · have hd := dropWhile_length_le (fun x => decide (x ≠ '"')) t
        generalize List.dropWhile (fun x => decide (x ≠ '"')) t = r1 at h hd
        cases r1 with
        | nil => exact Step.noConfusion h
        | cons q r2 =>
          simp only at h
          have h2 := skipSpace_length_le r2
          generalize skipSpace r2 = r3 at h h2
          cases r3 with
          | nil => exact Step.noConfusion h
          | cons d r4 =>
            simp only at h
            split at h
            · exact Step.noConfusion h
            · have h4 := skipSpace_length_le r4
              cases hv : valueStep A P (List.takeWhile (fun x => decide (x ≠ '"')) t) st
                  (skipSpace r4) with
              | none => simp only [hv] at h; exact Step.noConfusion h
              | some st2 =>
                obtain ⟨hl, hk, hfl⟩ := valueStep_spec A P _ st st2 _ hv
                simp only [hv] at h
                have h5 := skipSpace_length_le st2.rest
                generalize skipSpace st2.rest = r5 at h h5
                have hlen : r5.length < st.rest.length := by
                  simp only [List.length_cons] at hd h2 hs
                  omega
                cases r5 with
                | nil =>
                  simp only [Step.next.injEq] at h
                  subst h
                  exact ⟨by simp only [List.length_nil]; omega, _, by simp only [hk], hfl⟩
                | cons e r6 =>
                  simp only at h
                  split at h
                  · simp only [Step.next.injEq] at h
                    subst h
                    exact ⟨by simp only [List.length_cons] at hlen ⊢; omega, _,
                      by simp only [hk], hfl⟩
                  · simp only [Step.next.injEq] at h
                    subst h
                    exact ⟨hlen, _, by simp only [hk], hfl⟩

/-- An iteration of the object loop that ends with `break` read the closing brace and
changed nothing else. -/
theorem objStep_done {F : Type} (A : Arith F) (P : ParseLits F) (st st' : ObjState F)
    (h : objStep A P st = .done st') :
    st'.rest.length < st.rest.length ∧ st'.keys = st.keys ∧ st'.lat_set = st.lat_set ∧
      st'.lon_set = st.lon_set ∧ st'.time_set = st.time_set := by
  unfold objStep at h
  have hs := skipSpace_length_le st.rest
  generalize skipSpace st.rest = r0 at h hs
  cases r0 with
  | nil => exact Step.noConfusion h
  | cons c t =>
    simp only at h
    split at h
    · simp only [Step.done.injEq] at h
      subst h
      exact ⟨by simp only [List.length_cons] at hs ⊢; omega, rfl, rfl, rfl, rfl⟩
    · split at h
      · exact Step.noConfusion h
      · generalize List.dropWhile (fun x => decide (x ≠ '"')) t = r1 at h
        cases r1 with
        | nil => exact Step.noConfusion h
        | cons q r2 =>
          simp only at h
          generalize skipSpace r2 = r3 at h
          cases r3 with
          | nil => exact Step.noConfusion h
          | cons d r4 =>
            simp only at h
            split at h
            · exact Step.noConfusion h
            · cases hv : valueStep A P (List.takeWhile (fun x => decide (x ≠ '"')) t) st
                  (skipSpace r4) with
              | none => simp only [hv] at h; exact Step.noConfusion h
              | some st2 =>
                simp only [hv] at h
                generalize skipSpace st2.rest = r5 at h
                cases r5 with
                | nil => exact Step.noConfusion h
                | cons e r6 =>
                  simp only at h
                  split at h <;> exact Step.noConfusion h

end CurrentIteration

namespace CurrentIteration

theorem objLoop_spec {F : Type} (A : Arith F) (P : ParseLits F) :
    ∀ (fuel : Nat) (st : ObjState F), st.rest.length ≤ fuel → KeysOk st →
      ∃ r, objLoop A P fuel st = some r ∧
        ∀ o, r = some o → o.rest.length ≤ st.rest.length ∧ KeysOk o := by
  intro fuel
  induction fuel with
  | zero =>
    intro st hlen hk
    unfold objLoop
    cases hr : st.rest with
    | nil =>
      refine ⟨some st, rfl, ?_⟩
      intro o ho
      cases ho
      exact ⟨by rw [hr], hk⟩
    | cons c t => rw [hr] at hlen; simp at hlen
  | succ fuel ih =>
    intro st hlen hk
    unfold objLoop
    cases hr : st.rest with
    | nil =>
      refine ⟨some st, rfl, ?_⟩
      intro o ho
      cases ho
      exact ⟨by rw [hr], hk⟩
    | cons c t =>
      simp only
      cases hs : objStep A P st with
      | fail => exact ⟨none, rfl, fun o ho => Option.noConfusion ho⟩
      | done st' =>
        obtain ⟨h1, h2, h3, h4, h5⟩ := objStep_done A P st st' hs
        refine ⟨some st', rfl, ?_⟩
        intro o ho
        cases ho
        rw [hr] at h1
        refine ⟨by omega, ?_⟩
        unfold KeysOk at hk ⊢
        rw [h2, h3, h4, h5]
        exact hk
      | next st' =>
        obtain ⟨h1, key, h2, h3⟩ := objStep_next A P st st' hs
        have hk' : KeysOk st' := by
          unfold KeysOk at hk ⊢
          obtain ⟨ha, hb, hc, hd⟩ := hk
          rw [h2]
          refine ⟨?_, ?_, ?_, ?_⟩
          · intro k hkm
            rcases List.mem_append.mp hkm with hm | hm
            · exact ha k hm
            · have : k = key := by simpa using hm
              subst this
              rcases h3 with h | h | h
              · exact Or.inl h.1
              · exact Or.inr (Or.inl h.1)
              · exact Or.inr (Or.inr h.1)
          · intro hset
            rcases h3 with h | h | h
            · rw [h.1]; simp
            · rw [h.2.1] at hset; exact List.mem_append_left _ (hb hset)
            · rw [h.2.1] at hset; exact List.mem_append_left _ (hb hset)
          · intro hset
            rcases h3 with h | h | h
            · rw [h.2.2.1] at hset; exact List.mem_append_left _ (hc hset)
            · rw [h.1]; simp
            · rw [h.2.2.1] at hset; exact List.mem_append_left _ (hc hset)
          · intro hset
            rcases h3 with h | h | h
            · rw [h.2.2.2] at hset; exact List.mem_append_left _ (hd hset)
            · rw [h.2.2.2] at hset; exact List.mem_append_left _ (hd hset)
            · rw [h.1]; simp
        rw [hr] at h1 hlen
        simp only [List.length_cons] at h1 hlen
        obtain ⟨r, hr2, hr3⟩ := ih st' (by omega) hk'
        refine ⟨r, hr2, ?_⟩
        intro o ho
        obtain ⟨h6, h7⟩ := hr3 o ho
        exact ⟨by simp only [List.length_cons]; omega, h7⟩

/-- What an iteration of the array loop does: it never lacks fuel; `break` follows the
closing bracket; the next iteration follows one more object, whose keys are the three. -/
theorem arrStep_spec {F : Type} (A : Arith F) (P : ParseLits F) (st : ArrState F) :
    ∃ r, arrStep A P st = some r ∧
      (∀ st', r = .done st' → st'.rest.length < st.rest.length ∧ st'.points = st.points ∧
        st'.keys = st.keys ∧ ∃ ws, st.rest = ws ++ ']' :: st'.rest) ∧
      (∀ st', r = .next st' → st'.rest.length < st.rest.length ∧
        ∃ pt ks, st'.points = st.points ++ [pt] ∧ st'.keys = st.keys ++ [ks] ∧
          threeKeys ks) := by
  unfold arrStep
  have hs := skipSpace_length_le st.rest
  have hws : ∃ ws, st.rest = ws ++ skipSpace st.rest :=
    ⟨st.rest.takeWhile isspace, by unfold skipSpace; exact (List.takeWhile_append_dropWhile _ _).symm⟩
  generalize skipSpace st.rest = r0 at hs hws
  cases r0 with
  | nil =>
    exact ⟨.fail, rfl, fun _ h => Step.noConfusion h, fun _ h => Step.noConfusion h⟩
  | cons c t =>
    simp only
    split
    · rename_i hc
      subst hc
      refine ⟨_, rfl, ?_, fun _ h => Step.noConfusion h⟩
      intro st' h
      simp only [Step.done.injEq] at h
      subst h
      exact ⟨by simp only [List.length_cons] at hs ⊢; omega, rfl, rfl, hws⟩
    · split
      · exact ⟨.fail, rfl, fun _ h => Step.noConfusion h, fun _ h => Step.noConfusion h⟩
      · obtain ⟨r, hr, hr2⟩ := objLoop_spec A P t.length
          { lat := P.nan, lon := P.nan, rest := t } (le_refl _)
          ⟨by simp, by simp, by simp, by simp⟩
        simp only [hr]
        cases r with
        | none =>
          exact ⟨.fail, rfl, fun _ h => Step.noConfusion h, fun _ h => Step.noConfusion h⟩
        | some o =>
          obtain ⟨ho1, ho2⟩ := hr2 o rfl
          simp only
          split
          · exact ⟨.fail, rfl, fun _ h => Step.noConfusion h, fun _ h => Step.noConfusion h⟩
          · rename_i hflags
            have hfl : o.lat_set = true ∧ o.lon_set = true ∧ o.time_set = true := by
              have := hflags
              simp only [Bool.or_eq_true, Bool.not_eq_true', not_or, Bool.not_eq_false] at this
              exact ⟨this.1.1, this.1.2, this.2⟩
            have hthree : threeKeys o.keys :=
              ⟨ho2.1, ho2.2.1 hfl.1, ho2.2.2.1 hfl.2.1, ho2.2.2.2 hfl.2.2⟩
            have h5 := skipSpace_length_le o.rest
            generalize skipSpace o.rest = r5 at h5
            simp only [List.length_cons] at hs ho1
            cases r5 with
            | nil =>
              refine ⟨_, rfl, fun _ h => Step.noConfusion h, ?_⟩
              intro st' h
              simp only [Step.next.injEq] at h
              subst h
              exact ⟨by simp only [List.length_nil]; omega, _, _, rfl, rfl, hthree⟩
            | cons e r6 =>
              simp only [List.length_cons] at h5
              simp only
              split
              · refine ⟨_, rfl, fun _ h => Step.noConfusion h, ?_⟩
                intro st' h
                simp only [Step.next.injEq] at h
                subst h
                exact ⟨by simp only; omega, _, _, rfl, rfl, hthree⟩
              · refine ⟨_, rfl, fun _ h => Step.noConfusion h, ?_⟩
                intro st' h
                simp only [Step.next.injEq] at h
                subst h
                exact ⟨by simp only [List.length_cons]; omega, _, _, rfl, rfl, hthree⟩

end CurrentIteration

namespace CurrentIteration

theorem arrLoop_spec {F : Type} (A : Arith F) (P : ParseLits F) :
    ∀ (fuel : Nat) (st : ArrState F), st.rest.length ≤ fuel →
      ∃ b extra ekeys, arrLoop A P fuel st =
          some (b, st.points ++ extra, st.keys ++ ekeys) ∧
        extra.length = ekeys.length ∧ ∀ ks ∈ ekeys, threeKeys ks := by
  intro fuel
  induction fuel with
  | zero =>
    intro st hlen
    unfold arrLoop
    cases hr : st.rest with
    | nil => exact ⟨true, [], [], by simp, rfl, by simp⟩
    | cons c t => rw [hr] at hlen; simp at hlen
  | succ fuel ih =>
    intro st hlen
    unfold arrLoop
    cases hr : st.rest with
    | nil => exact ⟨true, [], [], by simp, rfl, by simp⟩
    | cons c t =>
      simp only
      obtain ⟨r, hstep, hdone, hnext⟩ := arrStep_spec A P st
      rw [hstep]
      cases r with
      | fail => exact ⟨false, [], [], by simp, rfl, by simp⟩
      | done st' =>
        obtain ⟨-, hp, hk, -⟩ := hdone st' rfl
        exact ⟨decide (skipSpace st'.rest = []), [], [], by simp [hp, hk], rfl, by simp⟩
      | next st' =>
        obtain ⟨h1, pt, ks, hp, hk, hthree⟩ := hnext st' rfl
        obtain ⟨b, extra, ekeys, hrec, hl, hall⟩ := ih st' (by omega)
        refine ⟨b, pt :: extra, ks :: ekeys, ?_, by simp [hl], ?_⟩
        · simp only [hrec, hp, hk, List.append_assoc, List.singleton_append]
        · intro x hx
          rcases List.mem_cons.mp hx with h | h
          · subst h; exact hthree
          · exact hall x h

/-- `parse_json_array` always returns; `points` at the return is what was given followed
by one fix for each object read, and the keys of each of these objects are the three. -/
theorem parse_json_array_keys_spec {F : Type} (A : Arith F) (P : ParseLits F)
    (input : List Char) (points : List (Point F)) :
    ∃ b extra keys, parse_json_array_keys A P input points = some (b, points ++ extra, keys) ∧
      extra.length = keys.length ∧ ∀ ks ∈ keys, threeKeys ks := by
  unfold parse_json_array_keys
  generalize skipSpace input = r0
  cases r0 with
  | nil => exact ⟨false, [], [], by simp, rfl, by simp⟩
  | cons c t =>
    simp only
    split
    · exact ⟨false, [], [], by simp, rfl, by simp⟩
    · obtain ⟨b, extra, ekeys, h, hl, hall⟩ :=
        arrLoop_spec A P t.length { rest := t, points := points } (le_refl _)
      exact ⟨b, extra, ekeys, by simpa using h, hl, hall⟩

end CurrentIteration

namespace Iteration10

theorem perm_three (ks : List (List Char)) (hl : ks.length = 3) (h : threeKeys ks) :
    ks.Perm ["lat".toList, "lon".toList, "time".toList] := by
  obtain ⟨hall, h1, h2, h3⟩ := h
  match ks, hl with
  | [a, b, c], _ =>
    have ha := hall a (by simp)
    have hb := hall b (by simp)
    have hc := hall c (by simp)
    rcases ha with ha | ha | ha <;> rcases hb with hb | hb | hb <;>
      rcases hc with hc | hc | hc <;> subst ha hb hc <;>
      first
        | (exfalso; revert h1; decide)
        | (exfalso; revert h2; decide)
        | (exfalso; revert h3; decide)
        | decide

/-- A successful `parse_gps_point` read exactly three key/value pairs, and their keys are
`lat`, `lon` and `time` in some order. -/
theorem parse_gps_point_keys_perm (s : List Char) (pt : GPSPoint) (r : List Char)
    (ks : List (List Char)) (h : parse_gps_point_keys s = some (pt, r, ks)) :
    ks.Perm ["lat".toList, "lon".toList, "time".toList] := by
  unfold parse_gps_point_keys at h
  generalize skipSpace s = r0 at h
  cases r0 with
  | nil => exact Option.noConfusion h
  | cons c t =>
    simp only at h
    split at h
    · exact Option.noConfusion h
    · cases hf : forRange 0 3 fieldStep { rest := t } with
      | none => simp [hf] at h
      | some st =>
        simp only [hf, Option.bind_eq_bind, Option.some_bind] at h
        have hinv := forLoop_some_inv fieldStep
          (fun i (u : PointState) => u.keys.length = i ∧
            (∀ k ∈ u.keys, k = "lat".toList ∨ k = "lon".toList ∨ k = "time".toList) ∧
            (u.lat.isSome = true → "lat".toList ∈ u.keys) ∧
            (u.lon.isSome = true → "lon".toList ∈ u.keys) ∧
            (u.time.isSome = true → "time".toList ∈ u.keys))
          3 0 { rest := t } st
          ⟨rfl, by simp, by simp, by simp, by simp⟩
          (fun j u v _ _ hu hb => by
            obtain ⟨key, r1, value, r2, st2, -, -, hs, he⟩ := fieldStep_spec j u v hb
            obtain ⟨hs1, hs2, hs3⟩ := storeField_spec key value u st2 hs
            obtain ⟨-, he2, he3, he4, he5, -⟩ := endField_spec j st2 v key _ he
            obtain ⟨hu1, hu2, hu3, hu4, hu5⟩ := hu
            rw [he2, hs2, he3, he4, he5]
            refine ⟨by simp [hu1], ?_, ?_, ?_, ?_⟩
            · intro k hk
              rcases List.mem_append.mp hk with hm | hm
              · exact hu2 k hm
              · have : k = key := by simpa using hm
                subst this
                rcases hs3 with h | h | h
                · exact Or.inl h.1
                · exact Or.inr (Or.inl h.1)
                · exact Or.inr (Or.inr h.1)
            · intro hset
              rcases hs3 with h | h | h
              · rw [h.1]; simp
              · rw [h.2.1] at hset; exact List.mem_append_left _ (hu3 hset)
              · rw [h.2.1] at hset; exact List.mem_append_left _ (hu3 hset)
            · intro hset
              rcases hs3 with h | h | h
              · rw [h.2.2.1] at hset; exact List.mem_append_left _ (hu4 hset)
              · rw [h.1]; simp
              · rw [h.2.2.1] at hset; exact List.mem_append_left _ (hu4 hset)
            · intro hset
              rcases hs3 with h | h | h
              · rw [h.2.2.2] at hset; exact List.mem_append_left _ (hu5 hset)
              · rw [h.2.2.2] at hset; exact List.mem_append_left _ (hu5 hset)
              · rw [h.1]; simp)
          hf
        obtain ⟨hk1, hk2, hk3, hk4, hk5⟩ := hinv
        generalize skipSpace st.rest = r1 at h
        cases r1 with
        | nil => exact Option.noConfusion h
        | cons d r2 =>
          simp only at h
          split at h
          · exact Option.noConfusion h
          · split at h
            · rename_i lat lon time e1 e2 e3
              simp only [Option.some.injEq, Prod.mk.injEq] at h
              rw [← h.2.2]
              exact perm_three st.keys hk1
                ⟨hk2, hk3 (by rw [e1]; rfl), hk4 (by rw [e2]; rfl), hk5 (by rw [e3]; rfl)⟩
            · exact Option.noConfusion h

end Iteration10

/-! ## Parsing: the rest is a suffix of the input -/

theorem skipSpace_suffix (r : List Char) : skipSpace r <:+ r :=
  List.dropWhile_suffix _

theorem takeSign_suffix (r : List Char) : (takeSign r).2 <:+ r := by
  unfold takeSign
  cases r with
  | nil => exact List.suffix_refl _
  | cons c t =>
    simp only
    split
    · exact List.suffix_cons c t
    · exact List.suffix_refl _

theorem digitsLoop_suffix (r : List Char) : ∀ v, (digitsLoop v r).2 <:+ r := by
  induction r with
  | nil => intro v; exact List.suffix_refl _
  | cons c t ih =>
    intro v
    simp only [digitsLoop]
    split
    · exact (ih _).trans (List.suffix_cons c t)
    · exact List.suffix_refl _

namespace Iteration10

theorem parse_int_suffix (s : List Char) (v : Int) (r : List Char)
    (h : parse_int s = some (v, r)) : r <:+ s := by
  unfold parse_int at h
  have hg := (takeSign_suffix (skipSpace s)).trans (skipSpace_suffix s)
  generalize takeSign (skipSpace s) = sg at h hg
  obtain ⟨neg, r0⟩ := sg
  simp only at h hg
  cases r0 with
  | nil => exact Option.noConfusion h
  | cons c t =>
    simp only at h
    split at h
    · exact Option.noConfusion h
    · simp only [Option.some.injEq, Prod.mk.injEq] at h
      rw [← h.2]
      exact (digitsLoop_suffix (c :: t) 0).trans hg

theorem parse_key_suffix (s key r : List Char) (h : parse_key s = some (key, r)) :
    r <:+ s := by
  unfold parse_key at h
  have hs := skipSpace_suffix s
  generalize skipSpace s = r0 at h hs
  cases r0 with
  | nil => exact Option.noConfusion h
  | cons c t =>
    simp only at h
    split at h
    · exact Option.noConfusion h
    · have hd : List.dropWhile (fun x => decide (x ≠ '"')) t <:+ t := List.dropWhile_suffix _
      generalize List.dropWhile (fun x => decide (x ≠ '"')) t = r1 at h hd
      cases r1 with
      | nil => exact Option.noConfusion h
      | cons q r2 =>
        simp only at h
        have h2 := skipSpace_suffix r2
        generalize skipSpace r2 = r3 at h h2
        cases r3 with
        | nil => exact Option.noConfusion h
        | cons d r4 =>
          simp only at h
          split at h
          · exact Option.noConfusion h
          · simp only [Option.some.injEq, Prod.mk.injEq] at h
            rw [← h.2]
            exact (List.suffix_cons d r4).trans (h2.trans ((List.suffix_cons q r2).trans
              (hd.trans ((List.suffix_cons c t).trans hs))))

theorem endField_suffix (i : Nat) (st st' : PointState) (key r : List Char)
    (h : endField i st key r = some st') : st'.rest <:+ r := by
  obtain ⟨-, -, -, -, -, h1, h2⟩ := endField_spec i st st' key r h
  by_cases hi : i < 2
  · rw [h1 hi]; exact List.suffix_cons _ _
  · rw [h2 hi]

theorem fieldStep_suffix (i : Nat) (st st' : PointState) (h : fieldStep i st = some st') :
    st'.rest <:+ st.rest := by
  obtain ⟨key, r, value, r2, st2, hk, hv, hs, he⟩ := fieldStep_spec i st st' h
  exact (endField_suffix i st2 st' key _ he).trans ((skipSpace_suffix r2).trans
    ((parse_int_suffix _ _ _ hv).trans (parse_key_suffix _ _ _ hk)))

theorem parse_gps_point_keys_suffix (s : List Char) (pt : GPSPoint) (r : List Char)
    (ks : List (List Char)) (h : parse_gps_point_keys s = some (pt, r, ks)) : r <:+ s := by
  unfold parse_gps_point_keys at h
  have hs := skipSpace_suffix s
  generalize skipSpace s = r0 at h hs
  cases r0 with
  | nil => exact Option.noConfusion h
  | cons c t =>
    simp only at h
    split at h
    · exact Option.noConfusion h
    · cases hf : forRange 0 3 fieldStep { rest := t } with
      | none => simp [hf] at h
      | some st =>
        simp only [hf, Option.bind_eq_bind, Option.some_bind] at h
        have hsuf : st.rest <:+ t :=
          forLoop_some_inv fieldStep (fun _ (u : PointState) => u.rest <:+ t) 3 0
            { rest := t } st (List.suffix_refl _)
            (fun j u v _ _ hu hb => (fieldStep_suffix j u v hb).trans hu) hf
        have h2 := skipSpace_suffix st.rest
        generalize skipSpace st.rest = r1 at h h2
        cases r1 with
        | nil => exact Option.noConfusion h
        | cons d r2 =>
          simp only at h
          split at h
          · exact Option.noConfusion h
          · split at h
            · simp only [Option.some.injEq, Prod.mk.injEq] at h
              rw [← h.2.1]
              exact (List.suffix_cons d r2).trans (h2.trans (hsuf.trans
                ((List.suffix_cons c t).trans hs)))
            · exact Option.noConfusion h

/-- What an iteration of the `while (true)` loop of `parse_gps_array` does to the rest,
to `points` and to the keys. -/
theorem arrayStep_spec (rest : List Char) (points : List GPSPoint)
    (keys : List (List (List Char))) :
    (∀ p, arrayStep rest points keys = .fail p → p = points) ∧
    (∀ r p k, arrayStep rest points keys = .done r p k →
      (']' :: r) <:+ rest ∧ ∃ extra ekeys, p = points ++ extra ∧ k = keys ++ ekeys ∧
        extra.length = ekeys.length ∧
        ∀ ks ∈ ekeys, ks.Perm ["lat".toList, "lon".toList, "time".toList]) ∧
    (∀ r p k, arrayStep rest points keys = .next r p k →
      r <:+ rest ∧ ∃ pt ks, p = points ++ [pt] ∧ k = keys ++ [ks] ∧
        ks.Perm ["lat".toList, "lon".toList, "time".toList]) := by
  have hitem : ∀ (x : List Char), x <:+ rest →
      (∀ p, arrayStep.arrayItem x points keys = .fail p → p = points) ∧
      (∀ r p k, arrayStep.arrayItem x points keys = .done r p k →
        (']' :: r) <:+ rest ∧ ∃ pt ks, p = points ++ [pt] ∧ k = keys ++ [ks] ∧
          ks.Perm ["lat".toList, "lon".toList, "time".toList]) ∧
      (∀ r p k, arrayStep.arrayItem x points keys = .next r p k →
        r <:+ rest ∧ ∃ pt ks, p = points ++ [pt] ∧ k = keys ++ [ks] ∧
          ks.Perm ["lat".toList, "lon".toList, "time".toList]) := by
    intro x hx
    unfold arrayStep.arrayItem
    cases hp : parse_gps_point_keys x with
    | none =>
      simp only
      exact ⟨fun p h => by cases h; rfl, fun _ _ _ h => ArrayStep.noConfusion h,
        fun _ _ _ h => ArrayStep.noConfusion h⟩
    | some res =>
      obtain ⟨pt, r1, ks⟩ := res
      have h1 := (parse_gps_point_keys_suffix x pt r1 ks hp).trans hx
      have hperm := parse_gps_point_keys_perm x pt r1 ks hp
      have h2 := (skipSpace_suffix r1).trans h1
      simp only
      generalize skipSpace r1 = r2 at h2
      cases r2 with
      | nil =>
        simp only
        refine ⟨fun _ h => ArrayStep.noConfusion h, fun _ _ _ h => ArrayStep.noConfusion h, ?_⟩
        intro r p k h
        simp only [ArrayStep.next.injEq] at h
        obtain ⟨e1, e2, e3⟩ := h
        subst e1 e2 e3
        exact ⟨h2, pt, ks, rfl, rfl, hperm⟩
      | cons c t =>
        simp only
        split
        · refine ⟨fun _ h => ArrayStep.noConfusion h, fun _ _ _ h => ArrayStep.noConfusion h,
            ?_⟩
          intro r p k h
          simp only [ArrayStep.next.injEq] at h
          obtain ⟨e1, e2, e3⟩ := h
          subst e1 e2 e3
          exact ⟨(List.suffix_cons c _).trans h2, pt, ks, rfl, rfl, hperm⟩
        · split
          · rename_i hc
            subst hc
            refine ⟨fun _ h => ArrayStep.noConfusion h, ?_,
              fun _ _ _ h => ArrayStep.noConfusion h⟩
            intro r p k h
            simp only [ArrayStep.done.injEq] at h
            obtain ⟨e1, e2, e3⟩ := h
            subst e1 e2 e3
            exact ⟨h2, pt, ks, rfl, rfl, hperm⟩
          · refine ⟨fun _ h => ArrayStep.noConfusion h,
              fun _ _ _ h => ArrayStep.noConfusion h, ?_⟩
            intro r p k h
            simp only [ArrayStep.next.injEq] at h
            obtain ⟨e1, e2, e3⟩ := h
            subst e1 e2 e3
            exact ⟨h2, pt, ks, rfl, rfl, hperm⟩
  unfold arrayStep
  have hs := skipSpace_suffix rest
  generalize skipSpace rest = r0 at hs
  cases r0 with
  | nil =>
    simp only
    obtain ⟨h1, h2, h3⟩ := hitem [] hs
    refine ⟨h1, ?_, h3⟩
    intro r p k h
    obtain ⟨ha, pt, ks, hb, hc, hd⟩ := h2 r p k h
    exact ⟨ha, [pt], [ks], hb, hc, rfl, by simpa using hd⟩
  | cons c t =>
    simp only
    split
    · rename_i hc
      subst hc
      refine ⟨fun _ h => ArrayStep.noConfusion h, ?_, fun _ _ _ h => ArrayStep.noConfusion h⟩
      intro r p k h
      simp only [ArrayStep.done.injEq] at h
      obtain ⟨e1, e2, e3⟩ := h
      subst e1 e2 e3
      exact ⟨hs, [], [], by simp, by simp, rfl, by simp⟩
    · obtain ⟨h1, h2, h3⟩ := hitem (c :: t) hs
      refine ⟨h1, ?_, h3⟩
      intro r p k h
      obtain ⟨ha, pt, ks, hb, hc, hd⟩ := h2 r p k h
      exact ⟨ha, [pt], [ks], hb, hc, rfl, by simpa using hd⟩

end Iteration10

namespace Iteration10

theorem arrayLoop_spec : ∀ (fuel : Nat) (rest : List Char) (points : List GPSPoint)
    (keys : List (List (List Char))), rest.length < fuel →
    ∃ b extra ekeys, arrayLoop fuel rest points keys =
        some (b, points ++ extra, keys ++ ekeys) ∧
      extra.length = ekeys.length ∧
      (∀ ks ∈ ekeys, ks.Perm ["lat".toList, "lon".toList, "time".toList]) ∧
      (b = true → ']' ∈ rest) := by
  intro fuel
  induction fuel with
  | zero => intro rest _ _ h; omega
  | succ fuel ih =>
    intro rest points keys hlen
    obtain ⟨hfail, hdone, hnext⟩ := arrayStep_spec rest points keys
    unfold arrayLoop
    cases hstep : arrayStep rest points keys with
    | fail p =>
      have := hfail p hstep
      subst this
      exact ⟨false, [], [], by simp, rfl, by simp, by simp⟩
    | done r p k =>
      obtain ⟨hsuf, extra, ekeys, hp, hk, hl, hperm⟩ := hdone r p k hstep
      subst hp hk
      exact ⟨decide (skipSpace r = []), extra, ekeys, rfl, hl, hperm,
        fun _ => hsuf.subset (by simp)⟩
    | next r p k =>
      obtain ⟨hsuf, pt, ks, hp, hk, hperm⟩ := hnext r p k hstep
      subst hp hk
      have hlt := arrayStep_next_length rest points keys r _ _ hstep
      obtain ⟨b, extra, ekeys, hrec, hl, hall, hb⟩ := ih r (points ++ [pt]) (keys ++ [ks])
        (by omega)
      refine ⟨b, pt :: extra, ks :: ekeys, ?_, by simp [hl], ?_, fun h => hsuf.subset (hb h)⟩
      · simp only [hrec, List.append_assoc, List.singleton_append]
      · intro x hx
        rcases List.mem_cons.mp hx with h | h
        · subst h; exact hperm
        · exact hall x h

/-- `parse_gps_array` always returns; `points` at the return is what was given followed by
one fix for each object read; each of these objects had exactly the keys `lat`, `lon`,
`time`, each once; and `true` is returned only if the input holds a closing bracket. -/
theorem parse_gps_array_keys_spec (s : List Char) (points : List GPSPoint) :
    ∃ b extra keys, parse_gps_array_keys s points = some (b, points ++ extra, keys) ∧
      extra.length = keys.length ∧
      (∀ ks ∈ keys, ks.Perm ["lat".toList, "lon".toList, "time".toList]) ∧
      (b = true → ']' ∈ s) := by
  unfold parse_gps_array_keys
  have hs := skipSpace_suffix s
  have hl := skipSpace_length_le s
  generalize skipSpace s = r0 at hs hl
  cases r0 with
  | nil => exact ⟨false, [], [], by simp, rfl, by simp, by simp⟩
  | cons c t =>
    simp only
    split
    · exact ⟨false, [], [], by simp, rfl, by simp, by simp⟩
    · simp only [List.length_cons] at hl
      obtain ⟨b, extra, ekeys, h, hlen, hall, hb⟩ := arrayLoop_spec (s.length + 1) t points []
        (by omega)
      exact ⟨b, extra, ekeys, by simpa using h, hlen, hall,
        fun hbt => hs.subset (List.mem_cons_of_mem _ (hb hbt))⟩

end Iteration10

/-! ## The parsers return (C11) -/

/-- C11: for every input string and every contents of `points`, both parsers return,
with `true` or `false` and the final contents of `points` (the fuel of the model never
runs out); and every iteration of a parser loop that goes on to a next iteration leaves a
strictly shorter rest of the input, that is, it has advanced the position: the
`while (true)` loop of `parse_gps_array`, and the array loop and the object loop of
`parse_json_array`. -/
theorem parsers_return {F : Type} (A : Arith F) (P : ParseLits F) (s : List Char)
    (fpts : List (CurrentIteration.Point F)) (ipts : List Iteration10.GPSPoint) :
    (∃ b pts, CurrentIteration.parse_json_array A P s fpts = some (b, pts)) ∧
    (∃ b pts, Iteration10.parse_gps_array s ipts = some (b, pts)) ∧
    (∀ (rest r : List Char) (points points' : List Iteration10.GPSPoint)
      (keys keys' : List (List (List Char))),
      Iteration10.arrayStep rest points keys = .next r points' keys' →
      r.length < rest.length) ∧
    (∀ (st st' : CurrentIteration.ArrState F),
      CurrentIteration.arrStep A P st = some (.next st') →
      st'.rest.length < st.rest.length) ∧
    (∀ (st st' : CurrentIteration.ObjState F),
      CurrentIteration.objStep A P st = .next st' →
      st'.rest.length < st.rest.length) := by
  refine ⟨?_, ?_, ?_, ?_, ?_⟩
  · obtain ⟨b, extra, keys, h, -, -⟩ :=
      CurrentIteration.parse_json_array_keys_spec A P s fpts
    exact ⟨b, fpts ++ extra, by simp [CurrentIteration.parse_json_array, h]⟩
  · obtain ⟨b, extra, keys, h, -, -, -⟩ := Iteration10.parse_gps_array_keys_spec s ipts
    exact ⟨b, ipts ++ extra, by simp [Iteration10.parse_gps_array, h]⟩
  · intro rest r points points' keys keys' h
    exact Iteration10.arrayStep_next_length rest points keys r points' keys' h
  · intro st st' h
    obtain ⟨r, hr, -, hnext⟩ := CurrentIteration.arrStep_spec A P st
    rw [h] at hr
    exact (hnext st' (Option.some.inj hr).symm).1
  · intro st st' h
    exact (CurrentIteration.objStep_next A P st st' h).1

/-! ## A missing closing bracket (C12) -/

/-- In the integer variant an input without a closing bracket is rejected. -/
theorem Iteration10.reject_without_bracket (s : List Char) (points : List GPSPoint)
    (h : ']' ∉ s) : ∃ pts, Iteration10.parse_gps_array s points = some (false, pts) := by
  obtain ⟨b, extra, keys, hp, -, -, hb⟩ := Iteration10.parse_gps_array_keys_spec s points
  cases b with
  | true => exact absurd (hb rfl) h
  | false => exact ⟨points ++ extra, by simp [Iteration10.parse_gps_array, hp]⟩

/-- C12 (failing input): `parse_json_array` of the floating variant returns `true` on
`[{"lat":1,"lon":2,"time":3}`, with the one fix in `points`, and on the single character
`[`: its array loop also ends when the input ends, and nothing records whether the
closing bracket was met.  `parse_gps_array` returns `false` on both. -/
theorem missing_bracket_accepted :
    CurrentIteration.parse_json_array Dbl.exact Dbl.lits inputNoClose [] =
      some (true, [{ lat := .fin 1, lon := .fin 2, time := 3 }]) ∧
    CurrentIteration.parse_json_array Dbl.exact Dbl.lits inputOnlyOpen [] = some (true, []) ∧
    Iteration10.parse_gps_array inputNoClose [] =
      some (false, [{ lat := 1, lon := 2, time := 3 }]) ∧
    Iteration10.parse_gps_array inputOnlyOpen [] = some (false, []) := by
  refine ⟨by decide!, by decide!, by decide, by decide⟩

/-! ## The keys of an object (C13, C14) -/

/-- The digit loop consumes a run of digits and stops before a character that is not a
digit. -/
theorem digitsLoop_split (r : List Char) :
    ∀ v : Int, ∃ ds, r = ds ++ (digitsLoop v r).2 ∧ (∀ c ∈ ds, isdigit c = true) ∧
      ∀ c ∈ (digitsLoop v r).2.head?, isdigit c = false := by
  induction r with
  | nil => intro v; exact ⟨[], rfl, by simp, by simp [digitsLoop]⟩
  | cons c t ih =>
    intro v
    unfold digitsLoop
    by_cases hc : isdigit c = true
    · obtain ⟨ds, h1, h2, h3⟩ := ih (iadd (imul v 10) (digitVal c))
      refine ⟨c :: ds, ?_, ?_, ?_⟩
      · simp only [hc, if_true, List.cons_append]
        exact congrArg (List.cons c) h1
      · intro x hx
        rcases List.mem_cons.1 hx with hx | hx
        · exact hx ▸ hc
        · exact h2 x hx
      · simpa only [hc, if_true] using h3
    · exact ⟨[], by simp [hc], by simp, by simp [hc]⟩

/-- What `parse_int` accepts: white space, an optional minus sign and at least one digit;
the rest of the input starts where the digits end. -/
theorem Iteration10.parse_int_shape (s r : List Char) (v : Int)
    (h : Iteration10.parse_int s = some (v, r)) :
    ∃ ws sign ds, s = ws ++ sign ++ ds ++ r ∧ (∀ c ∈ ws, isspace c = true) ∧
      (sign = [] ∨ sign = ['-']) ∧ ds ≠ [] ∧ (∀ c ∈ ds, isdigit c = true) ∧
      ∀ c ∈ r.head?, isdigit c = false := by
  have hs : s = s.takeWhile isspace ++ skipSpace s :=
    (List.takeWhile_append_dropWhile isspace s).symm
  have hws : ∀ c ∈ s.takeWhile isspace, isspace c = true :=
    fun c hc => List.mem_takeWhile_imp hc
  have hsg : ∃ sign, skipSpace s = sign ++ (takeSign (skipSpace s)).2 ∧
      (sign = [] ∨ sign = ['-']) := by
    unfold takeSign
    cases skipSpace s with
    | nil => exact ⟨[], rfl, Or.inl rfl⟩
    | cons c t =>
      by_cases hc : c = '-'
      · exact ⟨['-'], by simp [hc], Or.inr rfl⟩
      · exact ⟨[], by simp [hc], Or.inl rfl⟩
  obtain ⟨sign, hsign, hor⟩ := hsg
  unfold Iteration10.parse_int at h
  generalize takeSign (skipSpace s) = sg at h hsign
  obtain ⟨neg, r1⟩ := sg
  cases r1 with
  | nil => simp at h
  | cons c t =>
    simp only at h
    by_cases hc : isdigit c = true
    · simp only [hc, Bool.not_true, Bool.false_eq_true, if_false, Option.some.injEq,
        Prod.mk.injEq] at h
      obtain ⟨ds, h1, h2, h3⟩ := digitsLoop_split (c :: t) 0
      rw [h.2] at h1 h3
      refine ⟨s.takeWhile isspace, sign, ds, ?_, hws, hor, ?_, h2, h3⟩
      · rw [List.append_assoc, List.append_assoc, ← h1, ← hsign]
        exact hs
      · intro hds
        have hlt := digitsLoop_length_lt c t 0 hc
        rw [h.2] at hlt
        rw [hds, List.nil_append] at h1
        rw [← h1] at hlt
        exact lt_irrefl _ hlt
    · simp [hc] at h

/-- C15 (failing input): `parse_json_array` of the floating variant returns `true` on
values without a digit: `"time":}` is read as time 0, `"lat":-` and `"lat":.` as latitude
0; its number loops do not require a digit.  It rejects `1e5`, and `parse_gps_array`
rejects all four inputs. -/
theorem value_without_digits_accepted :
    CurrentIteration.parse_json_array Dbl.exact Dbl.lits inputNoDigits [] =
      some (true, [{ lat := .fin 1, lon := .fin 2, time := 0 }]) ∧
    CurrentIteration.parse_json_array Dbl.exact Dbl.lits inputMinus [] =
      some (true, [{ lat := .fin 0, lon := .fin 2, time := 3 }]) ∧
    CurrentIteration.parse_json_array Dbl.exact Dbl.lits inputDot [] =
      some (true, [{ lat := .fin 0, lon := .fin 2, time := 3 }]) ∧
    CurrentIteration.parse_json_array Dbl.exact Dbl.lits inputExponent [] =
      some (false, []) ∧
    Iteration10.parse_gps_array inputNoDigits [] = some (false, []) ∧
    Iteration10.parse_gps_array inputMinus [] = some (false, []) ∧
    Iteration10.parse_gps_array inputDot [] = some (false, []) ∧
    Iteration10.parse_gps_array inputExponent [] = some (false, []) := by
  refine ⟨by decide!, by decide!, by decide!, by decide!, by decide, by decide, by decide,
    by decide⟩

/-! ## Writing and reading back an integer -/

/-- The character of a decimal digit is a digit, not white space and not the minus sign,
and its value is the digit. -/
theorem digit_char (d : Nat) (hd : d < 10) :
    isdigit (Char.ofNat (48 + d)) = true ∧ isspace (Char.ofNat (48 + d)) = false ∧
      Char.ofNat (48 + d) ≠ '-' ∧ digitVal (Char.ofNat (48 + d)) = (d : Int) := by
  interval_cases d <;> decide

/-- The digit loop stops at once before a character that is not a digit. -/
theorem digitsLoop_stop (v : Int) (rest : List Char)
    (h : ∀ c ∈ rest.head?, isdigit c = false) : digitsLoop v rest = (v, rest) := by
  cases rest with
  | nil => rfl
  | cons c t =>
    have hc : isdigit c = false := h c (by simp)
    simp [digitsLoop, hc]

/-- The digit loop on the characters of a list of digits. -/
theorem digitsLoop_digits (L : List Nat) (rest : List Char)
    (hrest : ∀ c ∈ rest.head?, isdigit c = false) :
    ∀ v : Int, (∀ d ∈ L, d < 10) →
      digitsLoop v (L.map (fun d => Char.ofNat (48 + d)) ++ rest) =
        (L.foldl (fun (a : Int) (d : Nat) => iadd (imul a 10) (d : Int)) v, rest) := by
  induction L with
  | nil => intro v _; simpa using digitsLoop_stop v rest hrest
  | cons d L ih =>
    intro v hL
    have hd := digit_char d (hL d (by simp))
    simp only [List.map_cons, List.cons_append, digitsLoop, hd.1, if_true, hd.2.2.2,
      List.foldl_cons]
    exact ih _ (fun x hx => hL x (List.mem_cons_of_mem _ hx))

/-- The wrapped accumulation of digits is the wrapped exact accumulation. -/
theorem foldl_wrap (L : List Nat) :
    ∀ x : Int, L.foldl (fun (a : Int) (d : Nat) => iadd (imul a 10) (d : Int)) (wrap32 x) =
      wrap32 (L.foldl (fun (a : Int) (d : Nat) => a * 10 + (d : Int)) x) := by
  induction L with
  | nil => intro x; rfl
  | cons d L ih =>
    intro x
    simp only [List.foldl_cons]
    have h : iadd (imul (wrap32 x) 10) (d : Int) = wrap32 (x * 10 + (d : Int)) := by
      unfold iadd imul wrap32
      omega
    rw [h]
    exact ih _

/-- Accumulating digits, most significant first, gives the number they denote. -/
theorem foldl_digits (L : List Nat) :
    L.reverse.foldl (fun (a : Int) (d : Nat) => a * 10 + (d : Int)) 0 =
      ((Nat.ofDigits 10 L : Nat) : Int) := by
  rw [List.foldl_reverse]
  induction L with
  | nil => simp
  | cons d L ih =>
    simp only [List.foldr_cons, ih, Nat.ofDigits_cons]
    push_cast
    ring

/-- The rendering of a natural number is the characters of a non-empty list of decimal
digits that denotes it. -/
theorem renderNat_spec (n : Nat) :
    ∃ L : List Nat, renderNat n = L.map (fun d => Char.ofNat (48 + d)) ∧ L ≠ [] ∧
      (∀ d ∈ L, d < 10) ∧
      L.foldl (fun (a : Int) (d : Nat) => a * 10 + (d : Int)) 0 = (n : Int) := by
  by_cases hn : n = 0
  · exact ⟨[0], by simp [renderNat, hn], by simp, by simp, by simp [hn]⟩
  · refine ⟨(Nat.digits 10 n).reverse, by simp [renderNat, hn], ?_, ?_, ?_⟩
    · simpa [Nat.digits_ne_nil_iff_ne_zero] using hn
    · intro d hd
      exact Nat.digits_lt_base (by norm_num) (List.mem_reverse.1 hd)
    · rw [foldl_digits, Nat.ofDigits_digits]

/-- Reading back with `parse_int` what `operator<<` wrote for an `int`, when the next
character is not a digit. -/
theorem Iteration10.parse_int_render (z : Int) (hz : isInt32 z) (rest : List Char)
    (hrest : ∀ c ∈ rest.head?, isdigit c = false) :
    Iteration10.parse_int (renderInt z ++ rest) = some (z, rest) := by
  obtain ⟨L, hL, hne, hlt, hval⟩ := renderNat_spec z.natAbs
  obtain ⟨d, L', rfl⟩ := List.exists_cons_of_ne_nil hne
  have hd := digit_char d (hlt d (by simp))
  have hloop := digitsLoop_digits (d :: L') rest hrest 0 hlt
  have hw : (0 : Int) = wrap32 0 := by decide
  rw [hw, foldl_wrap, hval] at hloop
  rw [← hw] at hloop
  simp only [List.map_cons, List.cons_append] at hloop hL
  unfold isInt32 at hz
  unfold renderInt
  by_cases hneg : z < 0
  · simp only [hneg, if_true, hL, List.cons_append]
    have h1 : skipSpace ('-' :: Char.ofNat (48 + d) ::
        (L'.map (fun d => Char.ofNat (48 + d)) ++ rest)) = '-' :: Char.ofNat (48 + d) ::
        (L'.map (fun d => Char.ofNat (48 + d)) ++ rest) := by
      simp [skipSpace, List.dropWhile, isspace]
    simp only [Iteration10.parse_int, h1, takeSign, if_true, hd.1, Bool.not_true,
      Bool.false_eq_true, if_false, hloop]
    have : ineg (wrap32 (z.natAbs : Int)) = z := by
      unfold ineg wrap32
      omega
    rw [this]
  · simp only [hneg, if_false, hL, List.cons_append]
    have h1 : skipSpace (Char.ofNat (48 + d) ::
        (L'.map (fun d => Char.ofNat (48 + d)) ++ rest)) = Char.ofNat (48 + d) ::
        (L'.map (fun d => Char.ofNat (48 + d)) ++ rest) := by
      simp [skipSpace, List.dropWhile, hd.2.1]
    simp only [Iteration10.parse_int, h1, takeSign, hd.2.2.1, if_false, hd.1, Bool.not_true,
      Bool.false_eq_true, hloop]
    have : wrap32 (z.natAbs : Int) = z := by
      unfold wrap32
      omega
    rw [this]

/-! ## Writing and reading back a trajectory (C17, C18) -/

/-- Reading back a key that `output_json` wrote. -/
theorem Iteration10.parse_key_render (rest : List Char) :
    Iteration10.parse_key ("\"lat\":".toList ++ rest) = some ("lat".toList, rest) ∧
    Iteration10.parse_key ("\"lon\":".toList ++ rest) = some ("lon".toList, rest) ∧
    Iteration10.parse_key ("\"time\":".toList ++ rest) = some ("time".toList, rest) :=
  ⟨rfl, rfl, rfl⟩

/-- One iteration of the loop of `parse_gps_point` on a key and a value that `output_json`
wrote. -/
theorem Iteration10.fieldStep_render (i : Nat) (st : Iteration10.PointState)
    (name key r : List Char) (z : Int) (hz : isInt32 z)
    (hr : ∀ c ∈ r.head?, isdigit c = false)
    (hname : Iteration10.parse_key (name ++ (renderInt z ++ r)) = some (key, renderInt z ++ r))
    (hrest : st.rest = name ++ (renderInt z ++ r)) :
    Iteration10.fieldStep i st =
      (Iteration10.storeField key z st).bind
        fun st' => Iteration10.endField i st' key (skipSpace r) := by
  simp only [Iteration10.fieldStep, hrest, hname, Iteration10.parse_int_render z hz r hr,
    Option.bind_eq_bind, Option.some_bind]

/-- Reading back with `parse_gps_point` the object that `output_json` wrote for a fix. -/
theorem Iteration10.parse_gps_point_render (p : Iteration10.GPSPoint)
    (hp : isInt32 p.lat ∧ isInt32 p.lon ∧ isInt32 p.time) (rest : List Char) :
    Iteration10.parse_gps_point_keys (Iteration10.renderFix p ++ rest) =
      some (p, rest, ["lat".toList, "lon".toList, "time".toList]) := by
  have hcomma : ∀ r : List Char, ∀ c ∈ (',' :: r).head?, isdigit c = false := by
    intro r c hc
    simp only [List.head?_cons, Option.mem_def, Option.some.injEq] at hc
    subst hc
    decide
  have hbrace : ∀ r : List Char, ∀ c ∈ (Char.ofNat 125 :: r).head?, isdigit c = false := by
    intro r c hc
    simp only [List.head?_cons, Option.mem_def, Option.some.injEq] at hc
    subst hc
    decide
  generalize h3 : Char.ofNat 125 :: rest = r3
  generalize h2 : "\"time\":".toList ++ (renderInt p.time ++ r3) = r2
  generalize h1 : "\"lon\":".toList ++ (renderInt p.lon ++ (',' :: r2)) = r1
  generalize h0 : "\"lat\":".toList ++ (renderInt p.lat ++ (',' :: r1)) = r0
  have htext : Iteration10.renderFix p ++ rest = Char.ofNat 123 :: r0 := by
    subst h0 h1 h2 h3
    simp [Iteration10.renderFix]
  rw [htext]
  have e0 : Iteration10.fieldStep 0 ⟨none, none, none, r0, []⟩ =
      some ⟨some p.lat, none, none, r1, ["lat".toList]⟩ := by
    rw [Iteration10.fieldStep_render 0 _ "\"lat\":".toList "lat".toList (',' :: r1) p.lat
      hp.1 (hcomma _) (Iteration10.parse_key_render _).1 h0.symm]
    rfl
  have e1 : Iteration10.fieldStep 1 ⟨some p.lat, none, none, r1, ["lat".toList]⟩ =
      some ⟨some p.lat, some p.lon, none, r2, ["lat".toList, "lon".toList]⟩ := by
    rw [Iteration10.fieldStep_render 1 _ "\"lon\":".toList "lon".toList (',' :: r2) p.lon
      hp.2.1 (hcomma _) (Iteration10.parse_key_render _).2.1 h1.symm]
    rfl
  have e2 : Iteration10.fieldStep 2 ⟨some p.lat, some p.lon, none, r2,
      ["lat".toList, "lon".toList]⟩ =
      some ⟨some p.lat, some p.lon, some p.time, r3,
        ["lat".toList, "lon".toList, "time".toList]⟩ := by
    rw [Iteration10.fieldStep_render 2 _ "\"time\":".toList "time".toList r3 p.time
      hp.2.2 (h3 ▸ hbrace _) (Iteration10.parse_key_render _).2.2 h2.symm]
    subst h3
    rfl
  have hloop : forRange 0 3 Iteration10.fieldStep ⟨none, none, none, r0, []⟩ =
      some ⟨some p.lat, some p.lon, some p.time, r3,
        ["lat".toList, "lon".toList, "time".toList]⟩ := by
    simp only [forRange, forLoop, e0, e1, e2, Option.bind, Nat.sub_zero, Nat.zero_add,
      Nat.reduceAdd]
  have hsk : skipSpace (Char.ofNat 123 :: r0) = Char.ofNat 123 :: r0 := rfl
  unfold Iteration10.parse_gps_point_keys
  rw [hsk]
  simp only [ne_eq, not_true_eq_false, if_false]
  rw [hloop]
  subst h3
  rfl

/-- After the first fix the loop of `output_json` writes a comma before every fix. -/
theorem Iteration10.outputLoop_succ (ps : List Iteration10.GPSPoint) :
    ∀ i : Nat, Iteration10.outputLoop (i + 1) ps =
      (ps.map fun q => ',' :: Iteration10.renderFix q).flatten := by
  induction ps with
  | nil => intro i; rfl
  | cons p ps ih =>
    intro i
    simp only [Iteration10.outputLoop, ih (i + 1), List.map_cons, List.flatten_cons]
    simp

/-- Joining with a separator: nothing before the first element, the separator before
every other one. -/
theorem intercalate_cons {α : Type} (sep x : List α) (xs : List (List α)) :
    sep.intercalate (x :: xs) = x ++ (xs.map fun y => sep ++ y).flatten := by
  induction xs generalizing x with
  | nil => simp [List.intercalate]
  | cons y ys ih =>
    have h := ih y
    simp only [List.intercalate, List.intersperse, List.flatten_cons, List.map_cons] at h ⊢
    rw [h]
    simp

/-- One iteration of the `while (true)` loop of `parse_gps_array` on an object that
`output_json` wrote. -/
theorem Iteration10.arrayStep_render (p : Iteration10.GPSPoint)
    (hp : isInt32 p.lat ∧ isInt32 p.lon ∧ isInt32 p.time) (tail : List Char)
    (points : List Iteration10.GPSPoint) (keys : List (List (List Char))) :
    Iteration10.arrayStep (Iteration10.renderFix p ++ tail) points keys =
      match skipSpace tail with
      | [] => .next [] (points ++ [p]) (keys ++ [["lat".toList, "lon".toList, "time".toList]])
      | c :: r =>
        if c = ',' then
          .next r (points ++ [p]) (keys ++ [["lat".toList, "lon".toList, "time".toList]])
        else if c = ']' then
          .done r (points ++ [p]) (keys ++ [["lat".toList, "lon".toList, "time".toList]])
        else
          .next (c :: r) (points ++ [p])
            (keys ++ [["lat".toList, "lon".toList, "time".toList]]) := by
  have hform : Iteration10.renderFix p ++ tail =
      Char.ofNat 123 :: (Iteration10.renderFix p ++ tail).tail := by
    simp [Iteration10.renderFix]
  have hsk : skipSpace (Char.ofNat 123 :: (Iteration10.renderFix p ++ tail).tail) =
      Char.ofNat 123 :: (Iteration10.renderFix p ++ tail).tail := rfl
  have hne : (Char.ofNat 123 = ']') = False := by decide
  unfold Iteration10.arrayStep
  rw [hform, hsk]
  simp only [hne, if_false]
  rw [← hform]
  unfold Iteration10.arrayStep.arrayItem
  rw [Iteration10.parse_gps_point_render p hp tail]

/-- The `while (true)` loop of `parse_gps_array` on what `output_json` wrote from a fix
on. -/
theorem Iteration10.arrayLoop_render (ps : List Iteration10.GPSPoint) :
    ∀ (p : Iteration10.GPSPoint) (fuel : Nat) (points : List Iteration10.GPSPoint)
      (keys : List (List (List Char))),
      (∀ q ∈ p :: ps, isInt32 q.lat ∧ isInt32 q.lon ∧ isInt32 q.time) →
      ps.length < fuel →
      ∃ keys', Iteration10.arrayLoop fuel
        (Iteration10.renderFix p ++ (Iteration10.outputLoop 1 ps ++ "]\n".toList))
        points keys = some (true, points ++ p :: ps, keys') := by
  induction ps with
  | nil =>
    intro p fuel points keys hall hfuel
    obtain ⟨fuel, rfl⟩ : ∃ k, fuel = k + 1 := ⟨fuel - 1, by omega⟩
    refine ⟨keys ++ [["lat".toList, "lon".toList, "time".toList]], ?_⟩
    unfold Iteration10.arrayLoop
    rw [Iteration10.arrayStep_render p (hall p (by simp))]
    rfl
  | cons q qs ih =>
    intro p fuel points keys hall hfuel
    obtain ⟨fuel, rfl⟩ : ∃ k, fuel = k + 1 := ⟨fuel - 1, by omega⟩
    have hq : ∀ x ∈ q :: qs, isInt32 x.lat ∧ isInt32 x.lon ∧ isInt32 x.time :=
      fun x hx => hall x (List.mem_cons_of_mem _ hx)
    obtain ⟨keys', hk⟩ := ih q fuel (points ++ [p])
      (keys ++ [["lat".toList, "lon".toList, "time".toList]]) hq
      (by simp only [List.length_cons] at hfuel; omega)
    refine ⟨keys', ?_⟩
    have htail : Iteration10.outputLoop 1 (q :: qs) ++ "]\n".toList =
        ',' :: (Iteration10.renderFix q ++ (Iteration10.outputLoop 1 qs ++ "]\n".toList)) := by
      rw [Iteration10.outputLoop_succ (q :: qs) 0, Iteration10.outputLoop_succ qs 0]
      simp
    unfold Iteration10.arrayLoop
    rw [Iteration10.arrayStep_render p (hall p (by simp)), htail]
    have hsk : ∀ r : List Char, skipSpace (',' :: r) = ',' :: r := fun r => rfl
    simp only [hsk, if_true]
    rw [hk]
    simp

/-- The text that `output_json` writes is longer than the trajectory. -/
theorem Iteration10.output_json_length (T : List Iteration10.GPSPoint) :
    T.length < (Iteration10.output_json T).length := by
  have h : ∀ (ps : List Iteration10.GPSPoint) (i : Nat),
      ps.length ≤ (Iteration10.outputLoop i ps).length := by
    intro ps
    induction ps with
    | nil => intro i; simp
    | cons p ps ih =>
      intro i
      have := ih (i + 1)
      simp only [Iteration10.outputLoop, Iteration10.renderFix, List.length_append,
        List.length_cons]
      simp
      omega
  have := h T 0
  simp only [Iteration10.output_json, List.length_append]
  simp
  omega

/-- The rendering of an `int` has no white space. -/
theorem renderInt_no_space (z : Int) : ∀ c ∈ renderInt z, isspace c = false := by
  obtain ⟨L, hL, -, hlt, -⟩ := renderNat_spec z.natAbs
  have hnat : ∀ c ∈ renderNat z.natAbs, isspace c = false := by
    intro c hc
    rw [hL] at hc
    obtain ⟨d, hd, rfl⟩ := List.mem_map.1 hc
    exact (digit_char d (hlt d hd)).2.1
  intro c hc
  unfold renderInt at hc
  split at hc
  · rcases List.mem_cons.1 hc with rfl | h
    · decide
    · exact hnat c h
  · exact hnat c hc

/-- The loop of `output_json` writes no white space. -/
theorem Iteration10.outputLoop_no_space (ps : List Iteration10.GPSPoint) :
    ∀ i : Nat, ∀ c ∈ Iteration10.outputLoop i ps, isspace c = false := by
  induction ps with
  | nil => intro i c hc; simp [Iteration10.outputLoop] at hc
  | cons p ps ih =>
    intro i c hc
    simp only [Iteration10.outputLoop, Iteration10.renderFix, List.mem_append] at hc
    rcases hc with ((hc | ((((((hc | hc) | hc) | hc) | hc) | hc) | hc)) | hc)
    · split at hc
      · simp only [String.toList, List.mem_singleton] at hc
        subst hc
        decide
      · simp at hc
    · revert c; decide
    · exact renderInt_no_space _ c hc
    · revert c; decide
    · exact renderInt_no_space _ c hc
    · revert c; decide
    · exact renderInt_no_space _ c hc
    · revert c; decide
    · exact ih _ c hc

/-- C18: `output_json` writes `[`, the fixes in order joined by single commas, `]` and a
newline, and nothing else; each fix is written as `{"lat":<lat>,"lon":<lon>,"time":<time>}`
with the decimal rendering of the three integers; no white space is written before the
final newline; the empty trajectory is written as `[]` and a newline. -/
theorem output_json_format (T : List Iteration10.GPSPoint) (p : Iteration10.GPSPoint) :
    Iteration10.output_json T =
      "[".toList ++ ",".toList.intercalate (T.map Iteration10.renderFix) ++ "]\n".toList ∧
    Iteration10.renderFix p =
      "\x7b\"lat\":".toList ++ renderInt p.lat ++ ",\"lon\":".toList ++ renderInt p.lon ++
        ",\"time\":".toList ++ renderInt p.time ++ "\x7d".toList ∧
    (∀ c ∈ (Iteration10.output_json T).dropLast, isspace c = false) ∧
    Iteration10.output_json [] = "[]\n".toList ∧
    Iteration10.output_json [⟨1, -20, 300⟩, ⟨0, 4, -5⟩] =
      "[\x7b\"lat\":1,\"lon\":-20,\"time\":300\x7d,\x7b\"lat\":0,\"lon\":4,\"time\":-5\x7d]\n".toList := by
  refine ⟨?_, rfl, ?_, rfl, ?_⟩
  · cases T with
    | nil => rfl
    | cons q qs =>
      rw [List.map_cons, intercalate_cons]
      simp only [Iteration10.output_json, Iteration10.outputLoop,
        Iteration10.outputLoop_succ qs 0, List.map_map]
      simp
      rfl
  · have h : (Iteration10.output_json T).dropLast =
        '[' :: (Iteration10.outputLoop 0 T ++ [']']) := by
      have h2 : Iteration10.output_json T =
          ('[' :: (Iteration10.outputLoop 0 T ++ [']'])) ++ ['\n'] := by
        simp [Iteration10.output_json]
      rw [h2, List.dropLast_concat]
    rw [h]
    intro c hc
    rcases List.mem_cons.1 hc with rfl | hc
    · decide
    · rcases List.mem_append.1 hc with hc | hc
      · exact Iteration10.outputLoop_no_space T 0 c hc
      · rw [List.mem_singleton.1 hc]
        decide
  · simp [Iteration10.output_json, Iteration10.outputLoop, Iteration10.renderFix, renderInt,
      renderNat]

/-- C17: `parse_gps_array` applied to what `output_json` wrote for a trajectory of fixes
with `int` latitude, longitude and time returns `true` and appends exactly the fixes of the
trajectory, in order, to `points`; from the empty vector the result is the trajectory. -/
theorem parse_output_round_trip (T points : List Iteration10.GPSPoint)
    (hT : ∀ p ∈ T, isInt32 p.lat ∧ isInt32 p.lon ∧ isInt32 p.time) :
    Iteration10.parse_gps_array (Iteration10.output_json T) points =
      some (true, points ++ T) ∧
    Iteration10.parse_gps_array (Iteration10.output_json T) [] = some (true, T) := by
  have key : ∀ points : List Iteration10.GPSPoint,
      Iteration10.parse_gps_array (Iteration10.output_json T) points =
        some (true, points ++ T) := by
    intro points
    have hlen := Iteration10.output_json_length T
    have hsk : ∀ r : List Char, skipSpace ('[' :: r) = '[' :: r := fun r => rfl
    cases T with
    | nil => rw [List.append_nil]; rfl
    | cons p ps =>
      obtain ⟨keys', hk⟩ := Iteration10.arrayLoop_render ps p
        ((Iteration10.output_json (p :: ps)).length + 1) points [] hT
        (by simp only [List.length_cons] at hlen; omega)
      have hout : Iteration10.output_json (p :: ps) =
          '[' :: (Iteration10.renderFix p ++
            (Iteration10.outputLoop 1 ps ++ "]\n".toList)) := by
        simp [Iteration10.output_json, Iteration10.outputLoop]
      unfold Iteration10.parse_gps_array Iteration10.parse_gps_array_keys
      rw [hout] at hk ⊢
      rw [hsk]
      simp only [ne_eq, not_true_eq_false, if_false]
      rw [hk]
      rfl
  exact ⟨key points, by simpa using key []⟩

theorem parse_output_round_trip_witness :
    (∀ p ∈ [(⟨1, -2, 3⟩ : Iteration10.GPSPoint), ⟨-2147483648, 0, 2147483647⟩],
      isInt32 p.lat ∧ isInt32 p.lon ∧ isInt32 p.time) ∧
    (Iteration10.parse_gps_array
        (Iteration10.output_json [⟨1, -2, 3⟩, ⟨-2147483648, 0, 2147483647⟩]) [] =
      some (true, [] ++ [⟨1, -2, 3⟩, ⟨-2147483648, 0, 2147483647⟩]) ∧
    Iteration10.parse_gps_array
        (Iteration10.output_json [⟨1, -2, 3⟩, ⟨-2147483648, 0, 2147483647⟩]) [] =
      some (true, [⟨1, -2, 3⟩, ⟨-2147483648, 0, 2147483647⟩])) :=
  ⟨by simp [isInt32], parse_output_round_trip _ [] (by simp [isInt32])⟩

/-! ## What a failed parse leaves in `points` (C16) -/

/-- C16 (counterexample): on `[{"lat":1,"lon":2,"time":3},x` both parsers return `false`
and leave the fix of the first object in the vector that was empty. -/
theorem failure_leaves_fix_counterexample :
    CurrentIteration.parse_json_array Dbl.exact Dbl.lits inputBrokenTail [] =
      some (false, [{ lat := .fin 1, lon := .fin 2, time := 3 }]) ∧
    Iteration10.parse_gps_array inputBrokenTail [] =
      some (false, [{ lat := 1, lon := 2, time := 3 }]) := by
  refine ⟨by decide!, by decide⟩

theorem skipSpace_idem (s : List Char) : skipSpace (skipSpace s) = skipSpace s := by
  unfold skipSpace
  induction s with
  | nil => rfl
  | cons c t ih =>
    by_cases hc : isspace c = true
    · simp only [List.dropWhile_cons, hc, if_true]
      exact ih
    · simp only [List.dropWhile_cons, hc, if_false]
      simp [List.dropWhile_cons, hc]

/-- The `while (true)` loop of `parse_gps_array` on well-formed objects, a comma after
each, followed by a tail that is neither the end of the array nor an object. -/
theorem Iteration10.arrayLoop_broken (tail : List Char)
    (h1 : ∀ r, skipSpace tail ≠ ']' :: r)
    (h2 : Iteration10.parse_gps_point_keys tail = none)
    (T : List Iteration10.GPSPoint) :
    ∀ (fuel : Nat) (points : List Iteration10.GPSPoint) (keys : List (List (List Char))),
      (∀ q ∈ T, isInt32 q.lat ∧ isInt32 q.lon ∧ isInt32 q.time) →
      T.length < fuel →
      ∃ keys', Iteration10.arrayLoop fuel
        ((T.map fun p => Iteration10.renderFix p ++ [',']).flatten ++ tail)
        points keys = some (false, points ++ T, keys') := by
  induction T with
  | nil =>
    intro fuel points keys _ hfuel
    obtain ⟨fuel, rfl⟩ : ∃ k, fuel = k + 1 := ⟨fuel - 1, by omega⟩
    refine ⟨keys, ?_⟩
    have hk : Iteration10.parse_gps_point_keys (skipSpace tail) = none := by
      unfold Iteration10.parse_gps_point_keys at h2 ⊢
      rw [skipSpace_idem]
      exact h2
    have hstep : Iteration10.arrayStep tail points keys = .fail points := by
      unfold Iteration10.arrayStep
      cases hs : skipSpace tail with
      | nil =>
        rw [hs] at hk
        simp only [Iteration10.arrayStep.arrayItem, hk]
      | cons c r =>
        have hc : c ≠ ']' := fun hc => h1 r (by rw [hs, hc])
        rw [hs] at hk
        simp only [hc, if_false, Iteration10.arrayStep.arrayItem, hk]
    simp only [List.map_nil, List.flatten_nil, List.nil_append, Iteration10.arrayLoop, hstep,
      List.append_nil]
  | cons p ps ih =>
    intro fuel points keys hall hfuel
    obtain ⟨fuel, rfl⟩ : ∃ k, fuel = k + 1 := ⟨fuel - 1, by omega⟩
    obtain ⟨keys', hk⟩ := ih fuel (points ++ [p])
      (keys ++ [["lat".toList, "lon".toList, "time".toList]])
      (fun x hx => hall x (List.mem_cons_of_mem _ hx))
      (by simp only [List.length_cons] at hfuel; omega)
    refine ⟨keys', ?_⟩
    have htext : (List.map (fun p => Iteration10.renderFix p ++ [',']) (p :: ps)).flatten ++
        tail = Iteration10.renderFix p ++ (',' ::
          ((List.map (fun p => Iteration10.renderFix p ++ [',']) ps).flatten ++ tail)) := by
      simp
    have hsk : ∀ r : List Char, skipSpace (',' :: r) = ',' :: r := fun r => rfl
    unfold Iteration10.arrayLoop
    rw [htext, Iteration10.arrayStep_render p (hall p (by simp)), hsk]
    simp only [if_true]
    rw [hk]
    simp

theorem takeWhile_append_stop {α : Type} (p : α → Bool) (k : List α) (q : α) (r : List α)
    (hk : ∀ c ∈ k, p c = true) (hq : p q = false) :
    (k ++ q :: r).takeWhile p = k ∧ (k ++ q :: r).dropWhile p = q :: r := by
  induction k with
  | nil => simp [List.takeWhile, List.dropWhile, hq]
  | cons c t ih =>
    have hc : p c = true := hk c (by simp)
    have := ih (fun x hx => hk x (List.mem_cons_of_mem _ hx))
    simp [List.takeWhile, List.dropWhile, hc, this.1, this.2]

/-- The text written for a natural number is the characters of its decimal digits. -/
theorem renderNat_eq (n : Nat) :
    renderNat n = (decDigits n).map fun d => Char.ofNat (48 + d) := by
  unfold renderNat decDigits
  split <;> rfl

theorem decDigits_lt (n : Nat) : ∀ d ∈ decDigits n, d < 10 := by
  intro d hd
  unfold decDigits at hd
  split at hd
  · simp at hd; omega
  · exact Nat.digits_lt_base (by norm_num) (List.mem_reverse.1 hd)

theorem decDigits_ne_nil (n : Nat) : decDigits n ≠ [] := by
  unfold decDigits
  split
  · simp
  · simpa [Nat.digits_ne_nil_iff_ne_zero] using ‹¬ n = 0›

/-- The text written for an `int` starts with a minus sign or a digit: no white space is
skipped before it. -/
theorem skipSpace_renderInt (z : Int) (rest : List Char) :
    skipSpace (renderInt z ++ rest) = renderInt z ++ rest := by
  unfold renderInt
  split
  · rfl
  · rw [renderNat_eq]
    obtain ⟨d, L, hL⟩ := List.exists_cons_of_ne_nil (decDigits_ne_nil z.natAbs)
    have hd := digit_char d (decDigits_lt z.natAbs d (by rw [hL]; simp))
    rw [hL]
    simp [skipSpace, List.dropWhile, hd.2.1]

/-- The number loop of the `lat`/`lon` branch on the characters of a list of digits. -/
theorem CurrentIteration.numLoop_digits {F : Type} (A : Arith F) (P : ParseLits F)
    (frac : F) (L : List Nat) (rest : List Char)
    (hrest : ∀ c ∈ rest.head?, isdigit c = false ∧ c ≠ '.') :
    ∀ v : F, (∀ d ∈ L, d < 10) →
      CurrentIteration.numLoop A P v false frac
          (L.map (fun d => Char.ofNat (48 + d)) ++ rest) =
        some (L.foldl (fun (v : F) (d : Nat) =>
          A.add (A.mul v (A.ofInt 10)) (A.ofInt (d : Int))) v, rest) := by
  induction L with
  | nil =>
    intro v _
    cases rest with
    | nil => rfl
    | cons c t =>
      have hc := hrest c (by simp)
      simp [CurrentIteration.numLoop, hc.1, hc.2]
  | cons d L ih =>
    intro v hL
    have hd := digit_char d (hL d (by simp))
    have hdot : Char.ofNat (48 + d) ≠ '.' := by
      have : d < 10 := hL d (by simp)
      interval_cases d <;> decide
    simp only [List.map_cons, List.cons_append, CurrentIteration.numLoop, hd.1, Bool.true_or,
      if_true, hdot, if_false, Bool.not_false, hd.2.2.2, List.foldl_cons]
    exact ih _ (fun x hx => hL x (List.mem_cons_of_mem _ hx))

/-- The sign test and the number loop on the text written for an `int`. -/
theorem CurrentIteration.numLoop_renderInt {F : Type} (A : Arith F) (P : ParseLits F)
    (z : Int) (rest : List Char)
    (hrest : ∀ c ∈ rest.head?, isdigit c = false ∧ c ≠ '.') :
    (CurrentIteration.numLoop A P (A.ofInt 0) false P.tenth
        (takeSign (renderInt z ++ rest)).2).map
      (fun vr => (if (takeSign (renderInt z ++ rest)).1 then P.neg vr.1 else vr.1, vr.2)) =
      some (CurrentIteration.readInt A P z, rest) := by
  have hnum := CurrentIteration.numLoop_digits A P P.tenth (decDigits z.natAbs) rest hrest
    (A.ofInt 0) (decDigits_lt z.natAbs)
  obtain ⟨d, L, hL⟩ := List.exists_cons_of_ne_nil (decDigits_ne_nil z.natAbs)
  have hd := digit_char d (decDigits_lt z.natAbs d (by rw [hL]; simp))
  unfold renderInt CurrentIteration.readInt CurrentIteration.readDigits
  rw [renderNat_eq]
  by_cases hneg : z < 0
  · simp only [hneg, if_true, List.cons_append, takeSign, hnum, Option.map_some']
  · simp only [hneg, if_false]
    rw [hL] at hnum ⊢
    simp only [List.map_cons, List.cons_append, takeSign, hd.2.2.1, if_false] at hnum ⊢
    simp only [hnum, Option.map_some', Bool.false_eq_true, if_false]

/-- The `lat` and `lon` branches of the value step on the text written for an `int`. -/
theorem CurrentIteration.valueStep_coord {F : Type} (A : Arith F) (P : ParseLits F)
    (st : CurrentIteration.ObjState F) (z : Int) (rest : List Char)
    (hrest : ∀ c ∈ rest.head?, isdigit c = false ∧ c ≠ '.') :
    CurrentIteration.valueStep A P "lat".toList st (renderInt z ++ rest) =
      some { st with lat := CurrentIteration.readInt A P z, lat_set := true, rest := rest } ∧
    CurrentIteration.valueStep A P "lon".toList st (renderInt z ++ rest) =
      some { st with lon := CurrentIteration.readInt A P z, lon_set := true, rest := rest } := by
  have h := CurrentIteration.numLoop_renderInt A P z rest hrest
  have hlat : ("lat".toList = "lat".toList ∨ "lat".toList = "lon".toList) = True := by simp
  have hlon : ("lon".toList = "lat".toList ∨ "lon".toList = "lon".toList) = True := by simp
  have hne : ("lon".toList = "lat".toList) = False := by decide
  constructor
  · unfold CurrentIteration.valueStep
    simp only [hlat, if_true]
    cases hn : CurrentIteration.numLoop A P (A.ofInt 0) false P.tenth
        (takeSign (renderInt z ++ rest)).2 with
    | none => rw [hn] at h; exact Option.noConfusion h
    | some vr =>
      rw [hn] at h
      simp only [Option.map_some', Option.some.injEq, Prod.mk.injEq] at h
      simp [h.1, h.2]
  · unfold CurrentIteration.valueStep
    simp only [hlon, if_true]
    cases hn : CurrentIteration.numLoop A P (A.ofInt 0) false P.tenth
        (takeSign (renderInt z ++ rest)).2 with
    | none => rw [hn] at h; exact Option.noConfusion h
    | some vr =>
      rw [hn] at h
      simp only [Option.map_some', Option.some.injEq, Prod.mk.injEq] at h
      simp [h.1, h.2]

/-- The `time` branch of the value step on the text written for an `int`. -/
theorem CurrentIteration.valueStep_time {F : Type} (A : Arith F) (P : ParseLits F)
    (st : CurrentIteration.ObjState F) (z : Int) (hz : isInt32 z) (rest : List Char)
    (hrest : ∀ c ∈ rest.head?, isdigit c = false) :
    CurrentIteration.valueStep A P "time".toList st (renderInt z ++ rest) =
      some { st with time := z, time_set := true, rest := rest } := by
  have h := Iteration10.parse_int_render z hz rest hrest
  simp only [Iteration10.parse_int, skipSpace_renderInt] at h
  have hk1 : ("time".toList = "lat".toList ∨ "time".toList = "lon".toList) = False := by
    simp
  have hk2 : ("time".toList = "time".toList) = True := by simp
  unfold CurrentIteration.valueStep
  simp only [hk1, if_false, hk2, if_true]
  cases hs : (takeSign (renderInt z ++ rest)).2 with
  | nil => rw [hs] at h; exact Option.noConfusion h
  | cons c t =>
    rw [hs] at h
    simp only at h
    split at h
    · exact Option.noConfusion h
    · simp only [Option.some.injEq, Prod.mk.injEq] at h
      simp only [h.1, h.2]

/-- One iteration of the object loop of `parse_json_array` on a key, a colon and a value
that the value step accepts. -/
theorem CurrentIteration.objStep_field {F : Type} (A : Arith F) (P : ParseLits F)
    (st st' : CurrentIteration.ObjState F) (key v : List Char)
    (hkey : ∀ c ∈ key, (c ≠ '"'))
    (hrest : st.rest = '"' :: (key ++ '"' :: ':' :: v))
    (hsk : skipSpace v = v)
    (hv : CurrentIteration.valueStep A P key st v = some st') :
    CurrentIteration.objStep A P st =
      match skipSpace st'.rest with
      | [] => .next { st' with keys := st'.keys ++ [key], rest := [] }
      | e :: r =>
        if e = ',' then .next { st' with keys := st'.keys ++ [key], rest := r }
        else .next { st' with keys := st'.keys ++ [key], rest := e :: r } := by
  have htd := takeWhile_append_stop (fun x : Char => decide (x ≠ '"')) key '"' (':' :: v)
    (fun c hc => by simpa using hkey c hc) (by simp)
  have h1 : skipSpace ('"' :: (key ++ '"' :: ':' :: v)) = '"' :: (key ++ '"' :: ':' :: v) :=
    rfl
  have h2 : skipSpace (':' :: v) = ':' :: v := rfl
  have hb : ('"' = Char.ofNat 125) = False := by decide
  unfold CurrentIteration.objStep
  rw [hrest, h1]
  simp only [hb, if_false, ne_eq, not_true_eq_false, htd.1, htd.2, h2, hsk, hv]

/-- The object loop of `parse_json_array` on the rest of an object that `output_json`
wrote, after its opening brace. -/
theorem CurrentIteration.objLoop_render {F : Type} (A : Arith F) (P : ParseLits F)
    (p : Iteration10.GPSPoint) (hp : isInt32 p.time) (tail : List Char) (fuel : Nat)
    (st : CurrentIteration.ObjState F)
    (hst : st.rest = "\"lat\":".toList ++ (renderInt p.lat ++ (',' :: ("\"lon\":".toList ++
      (renderInt p.lon ++ (',' :: ("\"time\":".toList ++ (renderInt p.time ++
      (Char.ofNat 125 :: tail)))))))))
    (hfuel : 4 ≤ fuel) :
    CurrentIteration.objLoop A P fuel st = some (some
      { st with lat := CurrentIteration.readInt A P p.lat, lat_set := true,
                lon := CurrentIteration.readInt A P p.lon, lon_set := true,
                time := p.time, time_set := true, rest := tail,
                keys := st.keys ++ ["lat".toList, "lon".toList, "time".toList] }) := by
  obtain ⟨k, rfl⟩ : ∃ k, fuel = k + 4 := ⟨fuel - 4, by omega⟩
  have hcomma : ∀ r : List Char, ∀ c ∈ (',' :: r).head?, isdigit c = false ∧ c ≠ '.' := by
    intro r c hc
    simp only [List.head?_cons, Option.mem_def, Option.some.injEq] at hc
    subst hc
    decide
  have hbrace : ∀ r : List Char, ∀ c ∈ (Char.ofNat 125 :: r).head?, isdigit c = false := by
    intro r c hc
    simp only [List.head?_cons, Option.mem_def, Option.some.injEq] at hc
    subst hc
    decide
  have hsk1 : ∀ r : List Char, skipSpace (',' :: r) = ',' :: r := fun r => rfl
  have hsk2 : ∀ r : List Char, skipSpace (Char.ofNat 125 :: r) = Char.ofNat 125 :: r :=
    fun r => rfl
  have hq : ∀ key : List Char, key = "lat".toList ∨ key = "lon".toList ∨
      key = "time".toList → ∀ c ∈ key, c ≠ '"' := by
    intro key hk
    rcases hk with rfl | rfl | rfl <;> decide
  generalize h3 : Char.ofNat 125 :: tail = r3 at hst
  generalize h2 : "\"time\":".toList ++ (renderInt p.time ++ r3) = r2 at hst
  generalize h1 : "\"lon\":".toList ++ (renderInt p.lon ++ (',' :: r2)) = r1 at hst
  -- the three fields
  have e1 := CurrentIteration.objStep_field A P st _ "lat".toList
    (renderInt p.lat ++ (',' :: r1)) (hq _ (Or.inl rfl)) hst (skipSpace_renderInt _ _)
    (CurrentIteration.valueStep_coord A P st p.lat (',' :: r1) (hcomma _)).1
  simp only [hsk1, if_true] at e1
  have e2 := CurrentIteration.objStep_field A P _ _ "lon".toList
    (renderInt p.lon ++ (',' :: r2)) (hq _ (Or.inr (Or.inl rfl))) h1.symm
    (skipSpace_renderInt _ _)
    (CurrentIteration.valueStep_coord A P
      { st with lat := CurrentIteration.readInt A P p.lat, lat_set := true,
                keys := st.keys ++ ["lat".toList], rest := r1 }
      p.lon (',' :: r2) (hcomma _)).2
  simp only [hsk1, if_true] at e2
  have e3 := CurrentIteration.objStep_field A P _ _ "time".toList
    (renderInt p.time ++ r3) (hq _ (Or.inr (Or.inr rfl))) h2.symm
    (skipSpace_renderInt _ _)
    (CurrentIteration.valueStep_time A P
      { st with lat := CurrentIteration.readInt A P p.lat, lat_set := true,
                lon := CurrentIteration.readInt A P p.lon, lon_set := true,
                keys := st.keys ++ ["lat".toList] ++ ["lon".toList], rest := r2 }
      p.time hp r3 (h3 ▸ hbrace _))
  subst h3
  have hne : (Char.ofNat 125 = ',') = False := by decide
  simp only [hsk2, hne, if_false] at e3
  have step : ∀ (n : Nat) (s : CurrentIteration.ObjState F) (c : Char) (t : List Char),
      s.rest = c :: t → CurrentIteration.objLoop A P (n + 1) s =
        match CurrentIteration.objStep A P s with
        | .fail => some none
        | .done s => some (some s)
        | .next s => CurrentIteration.objLoop A P n s := by
    intro n s c t h
    simp only [CurrentIteration.objLoop, h]
  have e4 : ∀ s : CurrentIteration.ObjState F, s.rest = Char.ofNat 125 :: tail →
      CurrentIteration.objStep A P s = .done { s with rest := tail } := by
    intro s h
    unfold CurrentIteration.objStep
    rw [h, hsk2]
    simp only [if_true]
  rw [step (k + 3) st '"' _ hst, e1]
  simp only
  rw [step (k + 2) _ '"' _ (by rw [← h1]; rfl), e2]
  simp only
  rw [step (k + 1) _ '"' _ (by rw [← h2]; rfl), e3]
  simp only
  rw [step k _ (Char.ofNat 125) tail rfl, e4 _ rfl]
  simp only [List.append_assoc, List.singleton_append, List.cons_append, List.nil_append]

/-- One iteration of the array loop of `parse_json_array` on an object that `output_json`
wrote, followed by a comma. -/
theorem CurrentIteration.arrStep_render {F : Type} (A : Arith F) (P : ParseLits F)
    (p : Iteration10.GPSPoint) (hp : isInt32 p.time) (tail : List Char)
    (st : CurrentIteration.ArrState F)
    (hst : st.rest = Iteration10.renderFix p ++ (',' :: tail)) :
    CurrentIteration.arrStep A P st = some (.next
      { st with rest := tail, points := st.points ++ [CurrentIteration.readFix A P p],
                keys := st.keys ++ [["lat".toList, "lon".toList, "time".toList]] }) := by
  have htext : Iteration10.renderFix p ++ (',' :: tail) = Char.ofNat 123 ::
      ("\"lat\":".toList ++ (renderInt p.lat ++ (',' :: ("\"lon\":".toList ++
      (renderInt p.lon ++ (',' :: ("\"time\":".toList ++ (renderInt p.time ++
      (Char.ofNat 125 :: (',' :: tail)))))))))) := by
    simp [Iteration10.renderFix]
  generalize ht : "\"lat\":".toList ++ (renderInt p.lat ++ (',' :: ("\"lon\":".toList ++
      (renderInt p.lon ++ (',' :: ("\"time\":".toList ++ (renderInt p.time ++
      (Char.ofNat 125 :: (',' :: tail))))))))) = t at htext
  have hlen : 4 ≤ t.length := by
    rw [← ht]
    simp only [List.length_append, List.length_cons, String.toList]
    simp
    omega
  have hobj := CurrentIteration.objLoop_render A P p hp (',' :: tail) t.length
    { lat := P.nan, lon := P.nan, rest := t } ht.symm hlen
  have hsk : skipSpace (Char.ofNat 123 :: t) = Char.ofNat 123 :: t := rfl
  have hsk1 : skipSpace (',' :: tail) = ',' :: tail := rfl
  have hb1 : (Char.ofNat 123 = ']') = False := by decide
  unfold CurrentIteration.arrStep
  rw [hst, htext, hsk]
  simp only [hb1, if_false, ne_eq, not_true_eq_false, hobj, Bool.not_true, Bool.or_self,
    Bool.false_eq_true, hsk1, if_true, List.nil_append, CurrentIteration.readFix]

/-- The array loop of `parse_json_array` on well-formed objects, a comma after each,
followed by a non-empty tail that is neither the end of the array nor an object. -/
theorem CurrentIteration.arrLoop_broken {F : Type} (A : Arith F) (P : ParseLits F)
    (tail : List Char) (hne : tail ≠ [])
    (htail : ∀ c ∈ (skipSpace tail).head?, c ≠ ']' ∧ c ≠ Char.ofNat 123)
    (T : List Iteration10.GPSPoint) :
    ∀ (fuel : Nat) (st : CurrentIteration.ArrState F),
      (∀ q ∈ T, isInt32 q.time) →
      st.rest = (T.map fun p => Iteration10.renderFix p ++ [',']).flatten ++ tail →
      T.length < fuel →
      ∃ keys', CurrentIteration.arrLoop A P fuel st =
        some (false, st.points ++ T.map (CurrentIteration.readFix A P), keys') := by
  have step : ∀ (n : Nat) (s : CurrentIteration.ArrState F) (c : Char) (t : List Char),
      s.rest = c :: t → CurrentIteration.arrLoop A P (n + 1) s =
        match CurrentIteration.arrStep A P s with
        | none => none
        | some .fail => some (false, s.points, s.keys)
        | some (.done s) => some (decide (skipSpace s.rest = []), s.points, s.keys)
        | some (.next s) => CurrentIteration.arrLoop A P n s := by
    intro n s c t h
    simp only [CurrentIteration.arrLoop, h]
  induction T with
  | nil =>
    intro fuel st _ hst hfuel
    obtain ⟨fuel, rfl⟩ : ∃ k, fuel = k + 1 := ⟨fuel - 1, by omega⟩
    simp only [List.map_nil, List.flatten_nil, List.nil_append] at hst
    obtain ⟨c, t, hct⟩ := List.exists_cons_of_ne_nil hne
    have hfail : CurrentIteration.arrStep A P st = some .fail := by
      unfold CurrentIteration.arrStep
      rw [hst]
      cases hs : skipSpace tail with
      | nil => rfl
      | cons d r =>
        have hd := htail d (by rw [hs]; simp)
        simp only [hd.1, if_false, ne_eq, hd.2, not_false_eq_true, if_true]
    refine ⟨st.keys, ?_⟩
    rw [step fuel st c t (hst.trans hct), hfail]
    simp
  | cons p ps ih =>
    intro fuel st hall hst hfuel
    obtain ⟨fuel, rfl⟩ : ∃ k, fuel = k + 1 := ⟨fuel - 1, by omega⟩
    have htext : (List.map (fun p => Iteration10.renderFix p ++ [',']) (p :: ps)).flatten ++
        tail = Iteration10.renderFix p ++ (',' ::
          ((List.map (fun p => Iteration10.renderFix p ++ [',']) ps).flatten ++ tail)) := by
      simp
    rw [htext] at hst
    have hcons : st.rest = Char.ofNat 123 :: (Iteration10.renderFix p ++ (',' ::
        ((List.map (fun p => Iteration10.renderFix p ++ [',']) ps).flatten ++ tail))).tail := by
      rw [hst]
      simp [Iteration10.renderFix]
    obtain ⟨keys', hk⟩ := ih fuel
      { st with rest := (List.map (fun p => Iteration10.renderFix p ++ [',']) ps).flatten ++ tail,
                points := st.points ++ [CurrentIteration.readFix A P p],
                keys := st.keys ++ [["lat".toList, "lon".toList, "time".toList]] }
      (fun x hx => hall x (List.mem_cons_of_mem _ hx)) rfl
      (by simp only [List.length_cons] at hfuel; omega)
    refine ⟨keys', ?_⟩
    rw [step fuel st _ _ hcons,
      CurrentIteration.arrStep_render A P p (hall p (by simp)) _ st hst]
    simp only
    rw [hk]
    simp

/-- The text of `n` objects with a comma after each has at least `n` characters. -/
theorem brokenArray_length (T : List Iteration10.GPSPoint) :
    T.length ≤ ((T.map fun p => Iteration10.renderFix p ++ [',']).flatten).length := by
  induction T with
  | nil => simp
  | cons p ps ih =>
    simp only [List.map_cons, List.flatten_cons, List.length_append, List.length_cons,
      List.length_nil]
    omega

/-- Reading in exact arithmetic the text written for an `int` gives that integer. -/
theorem CurrentIteration.readInt_exact (z : Int) :
    CurrentIteration.readInt Dbl.exact Dbl.lits z = .fin (z : ℚ) := by
  have hfold : ∀ (L : List Nat) (q : ℚ),
      L.foldl (fun (v : Dbl) (d : Nat) =>
        Dbl.exact.add (Dbl.exact.mul v (Dbl.exact.ofInt 10)) (Dbl.exact.ofInt (d : Int)))
        (.fin q) = .fin (L.foldl (fun (a : ℚ) (d : Nat) => a * 10 + (d : ℚ)) q) := by
    intro L
    induction L with
    | nil => intro q; rfl
    | cons d L ih =>
      intro q
      simp only [List.foldl_cons]
      have : Dbl.exact.add (Dbl.exact.mul (.fin q) (Dbl.exact.ofInt 10))
          (Dbl.exact.ofInt (d : Int)) = .fin (q * 10 + (d : ℚ)) := by
        simp [Dbl.exact, Dbl.add, Dbl.mul]
      rw [this]
      exact ih _
  have hdig : ∀ n : Nat, (decDigits n).foldl (fun (a : ℚ) (d : Nat) => a * 10 + (d : ℚ)) 0 =
      (n : ℚ) := by
    intro n
    have hcast : ∀ (L : List Nat) (a : Int),
        L.foldl (fun (a : ℚ) (d : Nat) => a * 10 + (d : ℚ)) (a : ℚ) =
          ((L.foldl (fun (a : Int) (d : Nat) => a * 10 + (d : Int)) a : Int) : ℚ) := by
      intro L
      induction L with
      | nil => intro a; rfl
      | cons d L ih =>
        intro a
        simp only [List.foldl_cons]
        rw [← ih]
        push_cast
        rfl
    have h0 := hcast (decDigits n) 0
    simp only [Int.cast_zero] at h0
    rw [h0]
    unfold decDigits
    split
    · subst ‹n = 0›; simp
    · rw [foldl_digits, Nat.ofDigits_digits]
      simp
  have hread : ∀ n : Nat, CurrentIteration.readDigits Dbl.exact (decDigits n) =
      .fin (n : ℚ) := by
    intro n
    unfold CurrentIteration.readDigits
    have h0 : Dbl.exact.ofInt 0 = .fin 0 := by simp [Dbl.exact]
    rw [h0, hfold, hdig]
  unfold CurrentIteration.readInt
  rw [hread]
  have hcast : ((z.natAbs : Nat) : ℚ) = (((z.natAbs : Nat) : Int) : ℚ) :=
    (Int.cast_natCast _).symm
  by_cases hz : z < 0
  · have h : ((z.natAbs : Nat) : Int) = -z := by omega
    simp only [hz, if_true, Dbl.lits, Dbl.neg, hcast, h]
    congr 1
    push_cast
    ring
  · have h : ((z.natAbs : Nat) : Int) = z := by omega
    simp only [hz, if_false, hcast, h]

/-- C16 (amended): both parsers only append to `points`, and they keep what they have
appended when they fail.  For every input the vector at the return, with `true` or with
`false`, starts with what it was given.  On an array that breaks off, that is `[`, any
number of well-formed objects with a comma after each and then a non-empty tail whose first
character after white space is neither `]` nor an opening brace, both parsers return
`false` and the vector holds what it was given followed by the fixes of all the objects, in
order.  When the parser returns `false`, `main` writes nothing and exits with code 1. -/
theorem failure_keeps_parsed_prefix {F : Type} (A : Arith F) (L : Libm F) (P : ParseLits F)
    (fmt : F → List Char) (s : List Char) (fpts : List (CurrentIteration.Point F))
    (ipts : List Iteration10.GPSPoint) (T : List Iteration10.GPSPoint) (tail : List Char)
    (hT : ∀ p ∈ T, isInt32 p.lat ∧ isInt32 p.lon ∧ isInt32 p.time)
    (htail : ∀ c ∈ (skipSpace tail).head?, c ≠ ']' ∧ c ≠ Char.ofNat 123)
    (hne : tail ≠ []) :
    (∃ b extra, CurrentIteration.parse_json_array A P s fpts = some (b, fpts ++ extra)) ∧
    (∃ b extra, Iteration10.parse_gps_array s ipts = some (b, ipts ++ extra)) ∧
    CurrentIteration.parse_json_array A P (brokenArray T tail) fpts =
      some (false, fpts ++ T.map (CurrentIteration.readFix A P)) ∧
    Iteration10.parse_gps_array (brokenArray T tail) ipts = some (false, ipts ++ T) ∧
    (∀ pts, CurrentIteration.parse_json_array A P s [] = some (false, pts) →
      CurrentIteration.main A L P fmt s = some (1, [])) ∧
    (∀ pts, Iteration10.parse_gps_array s [] = some (false, pts) →
      Iteration10.main A L s = some (1, [])) := by
  have hsk : ∀ r : List Char, skipSpace ('[' :: r) = '[' :: r := fun r => rfl
  have hlen := brokenArray_length T
  refine ⟨?_, ?_, ?_, ?_, ?_, ?_⟩
  · obtain ⟨b, extra, keys, h, -, -⟩ :=
      CurrentIteration.parse_json_array_keys_spec A P s fpts
    exact ⟨b, extra, by simp [CurrentIteration.parse_json_array, h]⟩
  · obtain ⟨b, extra, keys, h, -, -, -⟩ := Iteration10.parse_gps_array_keys_spec s ipts
    exact ⟨b, extra, by simp [Iteration10.parse_gps_array, h]⟩
  · obtain ⟨c, t, hct⟩ := List.exists_cons_of_ne_nil hne
    obtain ⟨keys', hk⟩ := CurrentIteration.arrLoop_broken A P tail hne htail T
      ((T.map fun p => Iteration10.renderFix p ++ [',']).flatten ++ tail).length
      { rest := (T.map fun p => Iteration10.renderFix p ++ [',']).flatten ++ tail,
        points := fpts }
      (fun q hq => (hT q hq).2.2) rfl
      (by rw [List.length_append, hct, List.length_cons]; omega)
    unfold CurrentIteration.parse_json_array CurrentIteration.parse_json_array_keys
      brokenArray
    rw [hsk]
    simp only [ne_eq, not_true_eq_false, if_false]
    rw [hk]
    rfl
  · have h1 : ∀ r, skipSpace tail ≠ ']' :: r := by
      intro r hr
      exact (htail ']' (by rw [hr]; simp)).1 rfl
    have h2 : Iteration10.parse_gps_point_keys tail = none := by
      unfold Iteration10.parse_gps_point_keys
      cases hs : skipSpace tail with
      | nil => rfl
      | cons c r =>
        have hc := htail c (by rw [hs]; simp)
        simp only [ne_eq, hc.2, not_false_eq_true, if_true]
    obtain ⟨keys', hk⟩ := Iteration10.arrayLoop_broken tail h1 h2 T
      ((brokenArray T tail).length + 1) ipts [] hT
      (by simp only [brokenArray, List.length_cons, List.length_append]; omega)
    unfold Iteration10.parse_gps_array Iteration10.parse_gps_array_keys
    rw [show skipSpace (brokenArray T tail) = '[' ::
      ((T.map fun p => Iteration10.renderFix p ++ [',']).flatten ++ tail) from hsk _]
    simp only [ne_eq, not_true_eq_false, if_false]
    rw [hk]
    rfl
  · intro pts h
    simp [CurrentIteration.main, h]
  · intro pts h
    simp [Iteration10.main, h]

theorem failure_keeps_parsed_prefix_witness :
    brokenArray [{ lat := 1, lon := -20, time := 300 }, { lat := 0, lon := 4, time := -5 }]
        "x".toList =
      ("[\x7b\"lat\":1,\"lon\":-20,\"time\":300\x7d," ++
        "\x7b\"lat\":0,\"lon\":4,\"time\":-5\x7d,x").toList ∧
    ([{ lat := 1, lon := -20, time := 300 }, { lat := 0, lon := 4, time := -5 }] :
        List Iteration10.GPSPoint).map (CurrentIteration.readFix Dbl.exact Dbl.lits) =
      [{ lat := .fin 1, lon := .fin (-20), time := 300 },
        { lat := .fin 0, lon := .fin 4, time := -5 }] ∧
    ((∃ b extra, CurrentIteration.parse_json_array Dbl.exact Dbl.lits inputBrokenTail [] =
        some (b, [] ++ extra)) ∧
    (∃ b extra, Iteration10.parse_gps_array inputBrokenTail [] = some (b, [] ++ extra)) ∧
    CurrentIteration.parse_json_array Dbl.exact Dbl.lits
        (brokenArray [{ lat := 1, lon := -20, time := 300 }, { lat := 0, lon := 4, time := -5 }]
          "x".toList) [] =
      some (false, [] ++
        ([{ lat := 1, lon := -20, time := 300 }, { lat := 0, lon := 4, time := -5 }] :
          List Iteration10.GPSPoint).map (CurrentIteration.readFix Dbl.exact Dbl.lits)) ∧
    Iteration10.parse_gps_array
        (brokenArray [{ lat := 1, lon := -20, time := 300 }, { lat := 0, lon := 4, time := -5 }]
          "x".toList) [] =
      some (false, [] ++
        [{ lat := 1, lon := -20, time := 300 }, { lat := 0, lon := 4, time := -5 }]) ∧
    (∀ pts, CurrentIteration.parse_json_array Dbl.exact Dbl.lits inputBrokenTail [] =
        some (false, pts) →
      CurrentIteration.main Dbl.exact Dbl.sampleLibm Dbl.lits (fun _ => []) inputBrokenTail =
        some (1, [])) ∧
    (∀ pts, Iteration10.parse_gps_array inputBrokenTail [] = some (false, pts) →
      Iteration10.main Dbl.exact Dbl.sampleLibm inputBrokenTail = some (1, []))) :=
  ⟨by simp [brokenArray, Iteration10.renderFix, renderInt, renderNat],
    by simp [CurrentIteration.readFix, CurrentIteration.readInt_exact],
    failure_keeps_parsed_prefix Dbl.exact Dbl.sampleLibm Dbl.lits (fun _ => [])
      inputBrokenTail [] [] [{ lat := 1, lon := -20, time := 300 }, { lat := 0, lon := 4, time := -5 }]
      "x".toList (by simp [isInt32]) (by decide) (by decide)⟩

/-! ## Index bounds (C19) -/

/-- The `main` of the integer variant never reaches an out-of-range access: it calls
`detect_anomalies` on two fixes or more only. -/
theorem integer_main_in_bounds {F : Type} (A : Arith F) (L : Libm F)
    (input : List Char) : ∃ r, Iteration10.main A L input = some r := by
  obtain ⟨b, extra, keys, h, -, -, -⟩ := Iteration10.parse_gps_array_keys_spec input []
  have hp : Iteration10.parse_gps_array input [] = some (b, [] ++ extra) := by
    simp [Iteration10.parse_gps_array, h]
  unfold Iteration10.main
  rw [hp]
  cases b with
  | false => exact ⟨_, rfl⟩
  | true =>
    simp only
    by_cases hlen : ([] ++ extra).length < 2
    · exact ⟨_, by rw [if_pos hlen]⟩
    · obtain ⟨flags, hf, hfl, -⟩ :=
        Iteration10.detect_anomalies_spec A L ([] ++ extra) (by omega)
      rw [if_neg hlen, hf]
      simp only [Option.bind_eq_bind, Option.some_bind,
        Iteration10.correct_anomalies_eq A ([] ++ extra) flags hfl]
      exact ⟨_, rfl⟩

/-- The `main` of the floating variant never reaches an out-of-range access. -/
theorem floating_main_in_bounds {F : Type} (A : Arith F) (L : Libm F)
    (P : ParseLits F) (fmt : F → List Char) (input : List Char) :
    ∃ r, CurrentIteration.main A L P fmt input = some r := by
  obtain ⟨b, extra, keys, h, -, -⟩ :=
    CurrentIteration.parse_json_array_keys_spec A P input []
  have hp : CurrentIteration.parse_json_array A P input [] = some (b, [] ++ extra) := by
    simp [CurrentIteration.parse_json_array, h]
  unfold CurrentIteration.main
  rw [hp]
  cases b with
  | false => exact ⟨_, rfl⟩
  | true =>
    simp only
    by_cases hemp : ([] ++ extra).isEmpty = true
    · exact ⟨_, by rw [if_pos hemp]⟩
    · obtain ⟨d, hd, -, -⟩ := CurrentIteration.detect_flags_spec A L ([] ++ extra)
      obtain ⟨out, hout, -, -⟩ := CurrentIteration.correct_anomalies_spec A d
      rw [if_neg hemp, hd]
      simp only [Option.bind_eq_bind, Option.some_bind, hout]
      exact ⟨_, rfl⟩

/-- What `main` of the integer variant does with a vector that the parser returned with
`true`. -/
theorem integer_main_of_parsed {F : Type} (A : Arith F) (L : Libm F)
    (input : List Char) (points : List Iteration10.GPSPoint)
    (h : Iteration10.parse_gps_array input [] = some (true, points)) :
    Iteration10.main A L input =
      (Iteration10.detectAndCorrect A L points).map
        fun out => (0, Iteration10.output_json out) := by
  unfold Iteration10.main Iteration10.detectAndCorrect
  rw [h]
  by_cases hlen : points.length < 2
  · simp [hlen]
  · simp only [hlen, if_false]
    cases Iteration10.detect_anomalies A L points with
    | none => rfl
    | some fl =>
      simp only [Option.bind_eq_bind, Option.some_bind]
      cases Iteration10.correct_anomalies A points fl <;> rfl

/-- What `main` of the floating variant does with a non-empty vector that the parser
returned with `true`. -/
theorem floating_main_of_parsed {F : Type} (A : Arith F) (L : Libm F)
    (P : ParseLits F) (fmt : F → List Char) (input : List Char)
    (points : List (CurrentIteration.Point F))
    (h : CurrentIteration.parse_json_array A P input [] = some (true, points))
    (hne : points ≠ []) :
    CurrentIteration.main A L P fmt input =
      (CurrentIteration.detectAndCorrect A L points).map
        fun out => (0, CurrentIteration.print_json_array fmt out) := by
  unfold CurrentIteration.main CurrentIteration.detectAndCorrect
  rw [h]
  have hemp : points.isEmpty = false := by
    cases points with
    | nil => exact absurd rfl hne
    | cons a l => rfl
  simp only [hemp, Bool.false_eq_true, if_false]
  cases CurrentIteration.detect_anomalies A L points with
  | none => rfl
  | some d =>
    simp only [Option.bind_eq_bind, Option.some_bind]
    cases CurrentIteration.correct_anomalies A d <;> rfl

/-- C19: detection and repair reach no out-of-range access on any successfully parsed
trajectory, of size 0, 1 and 2 in particular.  In the floating variant
`detect_anomalies` and `correct_anomalies` return on every vector.  In the integer variant
the statements of `main` between the parse and the output return on every vector: `main`
calls `detect_anomalies` and `correct_anomalies` on two fixes or more only, and there
`detect_anomalies` returns flags as long as the vector and `correct_anomalies`, anchor
search included, returns for all such flags.  So `main` of either variant returns on every
input; on the arrays of no, one and two fixes the integer variant writes the array it
read. -/
theorem detection_and_repair_in_bounds {F : Type} (A : Arith F) (L : Libm F)
    (P : ParseLits F) (fmt : F → List Char)
    (fpts : List (CurrentIteration.Point F)) (ipts : List Iteration10.GPSPoint)
    (flags : List Bool) (input : List Char) :
    ((∃ d, CurrentIteration.detect_anomalies A L fpts = some d) ∧
      (∃ out, CurrentIteration.correct_anomalies A fpts = some out) ∧
      (∃ out, CurrentIteration.detectAndCorrect A L fpts = some out) ∧
      (∀ points, CurrentIteration.parse_json_array A P input [] = some (true, points) →
        points ≠ [] →
        CurrentIteration.main A L P fmt input =
          (CurrentIteration.detectAndCorrect A L points).map
            fun out => (0, CurrentIteration.print_json_array fmt out)) ∧
      (∃ r, CurrentIteration.main A L P fmt input = some r)) ∧
    ((∃ out, Iteration10.detectAndCorrect A L ipts = some out) ∧
      (0 < ipts.length →
        ∃ fl, Iteration10.detect_anomalies A L ipts = some fl ∧ fl.length = ipts.length) ∧
      (flags.length = ipts.length →
        ∃ out, Iteration10.correct_anomalies A ipts flags = some out) ∧
      (∀ points, Iteration10.parse_gps_array input [] = some (true, points) →
        Iteration10.main A L input =
          (Iteration10.detectAndCorrect A L points).map
            fun out => (0, Iteration10.output_json out)) ∧
      (∃ r, Iteration10.main A L input = some r)) ∧
    (Iteration10.main A L inputEmptyArray = some (0, Iteration10.output_json []) ∧
      Iteration10.main A L inputOneFix =
        some (0, Iteration10.output_json [{ lat := 1, lon := 2, time := 3 }]) ∧
      Iteration10.main A L inputTwoFixes =
        some (0, Iteration10.output_json Iteration10.pair)) := by
  have hid : ∃ out, Iteration10.detectAndCorrect A L ipts = some out := by
    unfold Iteration10.detectAndCorrect
    by_cases hlen : ipts.length < 2
    · exact ⟨ipts, by rw [if_pos hlen]⟩
    · obtain ⟨fl, hf, hfl, -⟩ := Iteration10.detect_anomalies_spec A L ipts (by omega)
      rw [if_neg hlen, hf]
      simp only [Option.bind_eq_bind, Option.some_bind,
        Iteration10.correct_anomalies_eq A ipts fl hfl]
      exact ⟨_, rfl⟩
  obtain ⟨d, hd, -, -⟩ := CurrentIteration.detect_flags_spec A L fpts
  obtain ⟨out, hout, -, -⟩ := CurrentIteration.correct_anomalies_spec A fpts
  obtain ⟨out', hout', -, -⟩ := CurrentIteration.correct_anomalies_spec A d
  refine ⟨⟨⟨d, hd⟩, ⟨out, hout⟩, ⟨out', ?_⟩, ?_, floating_main_in_bounds A L P fmt input⟩,
    ⟨hid, ?_, ?_, ?_, integer_main_in_bounds A L input⟩, rfl, rfl, ?_⟩
  · simp [CurrentIteration.detectAndCorrect, hd, hout']
  · intro points h hne
    exact floating_main_of_parsed A L P fmt input points h hne
  · intro hn
    obtain ⟨fl, hf, hfl, -⟩ := Iteration10.detect_anomalies_spec A L ipts hn
    exact ⟨fl, hf, hfl⟩
  · intro hlen
    exact ⟨_, Iteration10.correct_anomalies_eq A ipts flags hlen⟩
  · intro points h
    exact integer_main_of_parsed A L input points h
  · have hp : Iteration10.parse_gps_array inputTwoFixes [] =
        some (true, Iteration10.pair) := by decide
    have h := (short_trajectory_untouched A L [] Iteration10.pair (by simp)
      ⟨by decide, by decide⟩).2
    rw [integer_main_of_parsed A L inputTwoFixes Iteration10.pair hp]
    have hlen : ¬ Iteration10.pair.length < 2 := by decide
    simp only [Iteration10.detectAndCorrect, hlen, if_false, h.1, Option.bind_eq_bind,
      Option.some_bind, h.2, Option.map_some']

/-! ## The two detectors (C20) -/

/-- The edge tests of the two variants agree on edges with the same elapsed time and the
same distance. -/
theorem edge_tests_agree {F : Type} (A : Arith F) (L : Libm F)
    (hpos : ∀ d : Int, A.lt (A.ofInt 0) (A.ofInt d) = decide (0 < d))
    (h50 : A.lt (A.ofInt 50) (A.ofInt 0) = false)
    (p q : CurrentIteration.Point F) (p' q' : Iteration10.GPSPoint)
    (hp : p.time = p'.time) (hq : q.time = q'.time)
    (hd : CurrentIteration.haversine A L p.lat p.lon q.lat q.lon =
      Iteration10.haversine A L p'.lat p'.lon q'.lat q'.lon) :
    A.lt (A.ofInt 50) (CurrentIteration.edgeSpeed A L p q) = Iteration10.fastEdge A L p' q' := by
  rw [Bool.eq_iff_iff, CurrentIteration.edgeSpeed_fast_iff A L hpos h50 p q,
    Iteration10.fastEdge_iff A L p' q', hp, hq, hd]

/-- C20: on trajectories of `n >= 1` fixes with the same timestamps and the same distance
on every edge, the flag sequence that the two loops of the integer variant's
`detect_anomalies` return is, index by index, the sequence of `anomalous` flags that the
single pass of the floating variant's `detect_anomalies` leaves on fixes that came in
unflagged.  The time difference is compared as a double in the floating variant, which
agrees with the integer comparison by `hpos`, and `0.0 > 50.0` is false by `h50`. -/
theorem detectors_agree {F : Type} (A : Arith F) (L : Libm F)
    (fpts : List (CurrentIteration.Point F)) (ipts : List Iteration10.GPSPoint)
    (hn : 1 ≤ ipts.length)
    (hu : ∀ p ∈ fpts, p.anomalous = false)
    (htime : fpts.map (fun p => p.time) = ipts.map (fun p => p.time))
    (hdist : List.zipWith
        (fun p q => CurrentIteration.haversine A L p.lat p.lon q.lat q.lon) fpts fpts.tail =
      List.zipWith
        (fun p q => Iteration10.haversine A L p.lat p.lon q.lat q.lon) ipts ipts.tail)
    (hpos : ∀ d : Int, A.lt (A.ofInt 0) (A.ofInt d) = decide (0 < d))
    (h50 : A.lt (A.ofInt 50) (A.ofInt 0) = false) :
    ∃ d flags, CurrentIteration.detect_anomalies A L fpts = some d ∧
      Iteration10.detect_anomalies A L ipts = some flags ∧
      d.map (fun p => p.anomalous) = flags := by
  have hlen : fpts.length = ipts.length := by
    have := congrArg List.length htime
    simpa using this
  obtain ⟨d, hd, hdl, hdv⟩ := CurrentIteration.detect_flags_spec A L fpts
  obtain ⟨flags, hf, hfl, hfv⟩ := Iteration10.detect_anomalies_spec A L ipts (by omega)
  refine ⟨d, flags, hd, hf, ?_⟩
  -- the fixes at an index, with equal times
  have htm : ∀ (k : Nat) (p : CurrentIteration.Point F) (p' : Iteration10.GPSPoint),
      fpts[k]? = some p → ipts[k]? = some p' → p.time = p'.time := by
    intro k p p' hp hp'
    have h := congrArg (fun l => l[k]?) htime
    simpa [List.getElem?_map, hp, hp'] using h
  -- the edges at an index, with equal distances
  have hdm : ∀ (k : Nat) (p q : CurrentIteration.Point F) (p' q' : Iteration10.GPSPoint),
      fpts[k]? = some p → fpts[k + 1]? = some q → ipts[k]? = some p' →
      ipts[k + 1]? = some q' →
      CurrentIteration.haversine A L p.lat p.lon q.lat q.lon =
        Iteration10.haversine A L p'.lat p'.lon q'.lat q'.lon := by
    intro k p q p' q' hp hq hp' hq'
    have h := congrArg (fun l => l[k]?) hdist
    simpa [List.getElem?_zipWith, List.getElem?_tail, hp, hq, hp', hq'] using h
  have hedge : ∀ (k : Nat) (p q : CurrentIteration.Point F), fpts[k]? = some p →
      fpts[k + 1]? = some q →
      A.lt (A.ofInt 50) (CurrentIteration.edgeSpeed A L p q) =
        Iteration10.edgeFast A L ipts k := by
    intro k p q hp hq
    have hk := getElem?_lt_length fpts (k + 1) q hq
    obtain ⟨p', hp'⟩ := getElem?_of_lt ipts k (by omega)
    obtain ⟨q', hq'⟩ := getElem?_of_lt ipts (k + 1) (by omega)
    rw [Iteration10.edgeFast_eq A L ipts k p' q' hp' hq']
    exact edge_tests_agree A L hpos h50 p q p' q' (htm k p p' hp hp')
      (htm (k + 1) q q' hq hq') (hdm k p q p' q' hp hq hp' hq')
  apply List.ext_getElem?
  intro j
  by_cases hj : j < fpts.length
  · obtain ⟨p, hp⟩ := getElem?_of_lt fpts j hj
    have hpa : p.anomalous = false := hu p (List.getElem?_mem hp)
    rw [List.getElem?_map, hdv j p hp, hfv j (by omega)]
    simp only [Option.map_some', hpa, Bool.false_or, Option.some.injEq]
    unfold Iteration10.flagSpec
    rw [hlen]
    by_cases hint : 0 < j ∧ j + 1 < ipts.length
    · obtain ⟨pm, hpm⟩ := getElem?_of_lt fpts (j - 1) (by omega)
      obtain ⟨pn, hpn⟩ := getElem?_of_lt fpts (j + 1) (by omega)
      have hp1 : fpts[j - 1 + 1]? = some p := by
        rw [Nat.sub_add_cancel (by omega)]; exact hp
      have e1 := hedge (j - 1) pm p hpm hp1
      have e2 := hedge j p pn hp hpn
      simp only [hint, and_self, decide_True, Bool.true_and, CurrentIteration.flagCond, hpm,
        hp, hpn, e1, e2]
    · simp [hint]
  · rw [List.getElem?_eq_none (by simp; omega), List.getElem?_eq_none (by omega)]

theorem detectors_agree_witness :
    ∃ d flags, CurrentIteration.detect_anomalies Dbl.exact Dbl.sampleLibm
        CurrentIteration.spike = some d ∧
      Iteration10.detect_anomalies Dbl.exact Dbl.sampleLibm Iteration10.spike = some flags ∧
      d.map (fun p => p.anomalous) = flags :=
  detectors_agree Dbl.exact Dbl.sampleLibm CurrentIteration.spike Iteration10.spike
    (by decide) (by simp [CurrentIteration.spike]) (by decide) (by decide!)
    (by intro d; simp [Dbl.exact, Dbl.lt])
    (by simp [Dbl.exact, Dbl.lt])
